import Mathlib

/-!
# zap-human: a human-readable encoder for zap log records

A shallow embedding of `logging.go` and `array_marshaler.go`.

* Go strings and byte slices are lists of bytes (`Bytes`).
* The encoder is a record (`HumanEncoder`) passed explicitly through every
  method; a method that returns an `error` returns the new encoder and an
  optional error.
* Marshalers and configuration callbacks are user code that talks to the
  encoder it is handed, so they are represented by the sequence of calls
  they make on it (`ObjProg`, `ArrProg`, `PrimVal`). An array marshaler is
  handed the encoder itself behind `zapcore.ArrayEncoder`, so its calls
  include the `ObjectEncoder` methods it reaches by a type assertion.
* `EncodeEntry` has a pointer receiver; `Memory` holds the encoders by
  address, and `Memory.EncodeEntry` is the call on that memory.
* Library routines the package calls (`strings`, `fmt`, `encoding/hex`,
  `strconv`) are embedded next to the code that uses them; the three that
  are only ever passed through (shortest float digits, time layout, duration
  text) are taken from an environment record `Ext`.
-/

namespace ZapHuman

/-! ## Bytes and the `strings` helpers -/

/-- A Go `string` or `[]byte`: a sequence of bytes, each a number below 256. -/
abbrev Bytes := List Nat

/-- UTF-8 encoding of one code point, as the Go compiler stores a literal. -/
def utf8Encode (c : Char) : Bytes :=
  let n := c.toNat
  if n < 0x80 then [n]
  else if n < 0x800 then [0xC0 + n / 64, 0x80 + n % 64]
  else if n < 0x10000 then [0xE0 + n / 4096, 0x80 + n / 64 % 64, 0x80 + n % 64]
  else [0xF0 + n / 262144, 0x80 + n / 4096 % 64, 0x80 + n / 64 % 64, 0x80 + n % 64]

/-- Bytes of a list of code points. -/
def strAux : List Char → Bytes
  | [] => []
  | c :: cs => utf8Encode c ++ strAux cs

/-- Bytes of a string literal. -/
def str (s : String) : Bytes := strAux s.data

/-- The newline byte. -/
abbrev NL : Nat := 10

/-- Model of `strings.Split(s, sep)` for a one-byte separator `sep`: the
pieces between separators, always at least one piece. -/
def stringsSplit (sep : Nat) : Bytes → List Bytes
  | [] => [[]]
  | c :: cs =>
    if c = sep then [] :: stringsSplit sep cs
    else
      match stringsSplit sep cs with
      | [] => [[c]]
      | l :: ls => (c :: l) :: ls

/-- Model of `strings.Join(elems, sep)`. -/
def stringsJoin (sep : Bytes) : List Bytes → Bytes
  | [] => []
  | [l] => l
  | l :: ls => l ++ sep ++ stringsJoin sep ls

/-- Model of `strings.Repeat(s, n)`. -/
def stringsRepeat (s : Bytes) : Nat → Bytes
  | 0 => []
  | n + 1 => s ++ stringsRepeat s n

/-- Model of `strings.ContainsRune(s, r)` for an ASCII rune `r`. -/
def stringsContainsRune (s : Bytes) (r : Nat) : Bool := s.contains r

/-! ## `fmt`: the verbs the encoder uses -/

/-- Digit loop of `fmt` for base 10: peel the last digit while the value has
more than one digit. The first argument bounds the number of digits. -/
def fmtUintAux : Nat → Nat → Bytes → Bytes
  | 0, _, acc => acc
  | fuel + 1, u, acc =>
    if u < 10 then (48 + u) :: acc
    else fmtUintAux fuel (u / 10) ((48 + u % 10) :: acc)

/-- The verb `%d` on an unsigned value. -/
def fmtUint (u : Nat) : Bytes := fmtUintAux (u + 1) u []

/-- The verb `%d` on a signed value: a minus sign, then the magnitude. -/
def fmtInt (v : Int) : Bytes :=
  if v < 0 then 45 :: fmtUint v.natAbs else fmtUint v.natAbs

/-- An operand handed to `fmt.Sprintf`. -/
inductive FmtArg
  | bool (b : Bool)
  | int64 (v : Int)
  | uint64 (v : Nat)
  | string (s : Bytes)

/-- One piece of a format string: literal text or one of the verbs
`%T`, `%d`, `%s`. -/
inductive FmtSeg
  | lit (s : Bytes)
  | verbT
  | verbD
  | verbS

/-- The Go type name printed by `%T`. -/
def FmtArg.typeName : FmtArg → Bytes
  | .bool _ => str "bool"
  | .int64 _ => str "int64"
  | .uint64 _ => str "uint64"
  | .string _ => str "string"

/-- The default rendering (`%v`) of an operand. -/
def FmtArg.default : FmtArg → Bytes
  | .bool b => if b then str "true" else str "false"
  | .int64 v => fmtInt v
  | .uint64 v => fmtUint v
  | .string s => s

/-- What `fmt` prints for a verb that does not fit its operand:
`%!verb(type=value)`. -/
def fmtBadVerb (verb : Nat) (a : FmtArg) : Bytes :=
  str "%!" ++ [verb] ++ str "(" ++ a.typeName ++ str "=" ++ a.default ++ str ")"

/-- One verb applied to one operand. -/
def fmtVerb : FmtSeg → FmtArg → Bytes
  | .lit s, _ => s
  | .verbT, a => a.typeName
  | .verbD, .int64 v => fmtInt v
  | .verbD, .uint64 v => fmtUint v
  | .verbD, a => fmtBadVerb 100 a
  | .verbS, .string s => s
  | .verbS, .bool b => fmtBadVerb 115 (.bool b)
  | .verbS, .int64 v => fmtBadVerb 115 (.int64 v)
  | .verbS, .uint64 v => fmtBadVerb 115 (.uint64 v)

/-- Model of `fmt.Sprintf(f, a)` with one operand `a`: literal pieces are
copied, the first verb consumes the operand, a later verb finds none. -/
def Sprintf : List FmtSeg → Option FmtArg → Bytes
  | [], _ => []
  | .lit s :: rest, a => s ++ Sprintf rest a
  | .verbT :: rest, some a => fmtVerb .verbT a ++ Sprintf rest none
  | .verbD :: rest, some a => fmtVerb .verbD a ++ Sprintf rest none
  | .verbS :: rest, some a => fmtVerb .verbS a ++ Sprintf rest none
  | .verbT :: rest, none => str "%!T(MISSING)" ++ Sprintf rest none
  | .verbD :: rest, none => str "%!d(MISSING)" ++ Sprintf rest none
  | .verbS :: rest, none => str "%!s(MISSING)" ++ Sprintf rest none

/-! ## `encoding/hex`: `Dump` -/

/-- The lower-case hex digit of a value below 16. -/
def hexDigit (n : Nat) : Nat := if n < 10 then 48 + n else 87 + n

/-- Model of `hex.Encode` on one byte: two hex digits. -/
def hexByte (b : Nat) : Bytes := [hexDigit (b / 16 % 16), hexDigit (b % 16)]

/-- Model of `toChar` in `encoding/hex`: the byte itself when printable,
a dot otherwise. -/
def toChar (b : Nat) : Nat := if b < 32 ∨ b > 126 then 46 else b

/-- State of the `hex.Dumper`: text written so far, the right-hand column
of the current line, bytes used in the current line, running offset. -/
structure Dumper where
  out : Bytes
  rightChars : Bytes
  used : Nat
  n : Nat

/-- Model of one iteration of `dumper.Write`: the offset at the start of a
line, the byte in hex, the extra space after the eighth byte, and the
right-hand column once sixteen bytes are in. -/
def Dumper.writeByte (h : Dumper) (b : Nat) : Dumper :=
  let out :=
    if h.used = 0 then
      h.out ++ hexByte (h.n / 16777216 % 256) ++ hexByte (h.n / 65536 % 256)
        ++ hexByte (h.n / 256 % 256) ++ hexByte (h.n % 256) ++ [32, 32]
    else h.out
  let out := out ++ hexByte b ++ [32]
  let out :=
    if h.used = 7 then out ++ [32]
    else if h.used = 15 then out ++ [32, 124]
    else out
  let rightChars := h.rightChars ++ [toChar b]
  if h.used + 1 = 16 then
    { out := out ++ rightChars ++ [124, NL], rightChars := [], used := 0, n := h.n + 1 }
  else
    { out := out, rightChars := rightChars, used := h.used + 1, n := h.n + 1 }

/-- Padding written by `dumper.Close` for the cells `used .. 15` of a short
last line; the first argument counts the cells still to pad. -/
def Dumper.pad : Nat → Nat → Bytes
  | 0, _ => []
  | k + 1, used =>
    (if used = 7 then [32, 32, 32, 32]
     else if used = 15 then [32, 32, 32, 32, 124]
     else [32, 32, 32]) ++ Dumper.pad k (used + 1)

/-- Model of `dumper.Close`: nothing after a full line, else the padding,
the right-hand column and the line end. -/
def Dumper.close (h : Dumper) : Bytes :=
  if h.used = 0 then h.out
  else h.out ++ Dumper.pad (16 - h.used) h.used ++ h.rightChars ++ [124, NL]

/-- Model of `hex.Dump(data)`: the empty string for no data, else the dumper
run over every byte and closed. -/
def hexDump (data : Bytes) : Bytes :=
  if data = [] then []
  else (data.foldl Dumper.writeByte { out := [], rightChars := [], used := 0, n := 0 }).close

/-! ## `unicode/utf8` and `unicode`: what `trimRightSpace` falls back on -/

/-- The constant `utf8.RuneSelf`. -/
abbrev RuneSelf : Nat := 0x80

/-- The constant `utf8.RuneError`. -/
abbrev RuneError : Nat := 0xFFFD

/-- The table `first` of `unicode/utf8`: `0xF0` for ASCII, `0xF1` for a byte
that cannot start a rune, else the size in the low bits and the index of
the accept range in the high bits. -/
def utf8First (b : Nat) : Nat :=
  if b < 0x80 then 0xF0
  else if b < 0xC2 then 0xF1
  else if b < 0xE0 then 0x02
  else if b = 0xE0 then 0x13
  else if b < 0xED then 0x03
  else if b = 0xED then 0x23
  else if b < 0xF0 then 0x03
  else if b = 0xF0 then 0x34
  else if b < 0xF4 then 0x04
  else if b = 0xF4 then 0x44
  else 0xF1

/-- The table `acceptRanges` of `unicode/utf8`: bounds of the second byte. -/
def utf8AcceptRange (i : Nat) : Nat × Nat :=
  match i with
  | 0 => (0x80, 0xBF)
  | 1 => (0xA0, 0xBF)
  | 2 => (0x80, 0x9F)
  | 3 => (0x90, 0xBF)
  | 4 => (0x80, 0x8F)
  | _ => (0, 0)

/-- Model of `utf8.DecodeRuneInString`: the first rune of `s` and its width
in bytes; `(RuneError, 0)` for the empty string and `(RuneError, 1)` for a
malformed start. -/
def DecodeRuneInString (s : Bytes) : Nat × Nat :=
  match s with
  | [] => (RuneError, 0)
  | s0 :: rest =>
    let x := utf8First s0
    if x ≥ 0xF0 then
      (if x = 0xF0 then s0 else RuneError, 1)
    else
      let sz := x % 8
      let accept := utf8AcceptRange (x / 16)
      if s.length < sz then (RuneError, 1)
      else
        match rest with
        | [] => (RuneError, 1)
        | s1 :: rest1 =>
          if s1 < accept.1 ∨ accept.2 < s1 then (RuneError, 1)
          else if sz ≤ 2 then ((s0 % 32) * 64 + s1 % 64, 2)
          else
            match rest1 with
            | [] => (RuneError, 1)
            | s2 :: rest2 =>
              if s2 < 0x80 ∨ 0xBF < s2 then (RuneError, 1)
              else if sz ≤ 3 then ((s0 % 16) * 4096 + (s1 % 64) * 64 + s2 % 64, 3)
              else
                match rest2 with
                | [] => (RuneError, 1)
                | s3 :: _ =>
                  if s3 < 0x80 ∨ 0xBF < s3 then (RuneError, 1)
                  else ((s0 % 8) * 262144 + (s1 % 64) * 4096 + (s2 % 64) * 64 + s3 % 64, 4)

/-- Model of `utf8.RuneStart`: the byte is not a continuation byte. -/
def RuneStart (b : Nat) : Bool := b / 64 % 4 != 2

/-- The backward scan of `utf8.DecodeLastRuneInString`: from `start`, step
down while the byte is a continuation byte and `lim` is not passed; the
first argument bounds the number of steps. The result is the index the
loop stops at, or `none` when it runs below zero. -/
def scanRuneStart (s : Bytes) (lim : Nat) : Nat → Option Nat → Option Nat
  | 0, start => start
  | fuel + 1, start =>
    match start with
    | none => none
    | some i =>
      if i < lim then some i
      else if RuneStart (s.getD i 0) then some i
      else scanRuneStart s lim fuel (if i = 0 then none else some (i - 1))

/-- Model of `utf8.DecodeLastRuneInString`: the last rune of `s` and its
width in bytes. -/
def DecodeLastRuneInString (s : Bytes) : Nat × Nat :=
  let endIdx := s.length
  if endIdx = 0 then (RuneError, 0)
  else
    let start := endIdx - 1
    let r := s.getD start 0
    if r < RuneSelf then (r, 1)
    else
      let lim := endIdx - 4
      let start :=
        match scanRuneStart s lim 5 (if start = 0 then none else some (start - 1)) with
        | none => 0
        | some i => i
      let (r, size) := DecodeRuneInString ((s.take endIdx).drop start)
      if start + size ≠ endIdx then (RuneError, 1)
      else (r, size)

/-- Model of `unicode.IsSpace`: the Latin-1 spaces and the code points with
the White_Space property. -/
def unicodeIsSpace (r : Nat) : Bool :=
  if r ≤ 0xFF then
    r = 9 ∨ r = 10 ∨ r = 11 ∨ r = 12 ∨ r = 13 ∨ r = 32 ∨ r = 0x85 ∨ r = 0xA0
  else
    r = 0x1680 ∨ (0x2000 ≤ r ∧ r ≤ 0x200A) ∨ r = 0x2028 ∨ r = 0x2029 ∨ r = 0x202F
      ∨ r = 0x205F ∨ r = 0x3000

/-- Model of `lastIndexFunc(s, f, truth)` of `strings`: the start index of
the last rune on which `f` gives `truth`, or `none` (the Go result -1).
The first argument bounds the number of runes visited. -/
def lastIndexFunc (s : Bytes) (f : Nat → Bool) (truth : Bool) : Nat → Nat → Option Nat
  | 0, _ => none
  | fuel + 1, i =>
    if i = 0 then none
    else
      let (r, size) := DecodeLastRuneInString (s.take i)
      let i := i - size
      if f r = truth then some i
      else lastIndexFunc s f truth fuel i

/-- Model of `strings.TrimRightFunc(s, f)`. -/
def stringsTrimRightFunc (s : Bytes) (f : Nat → Bool) : Bytes :=
  match lastIndexFunc s f false (s.length + 1) s.length with
  | some i =>
    if s.getD i 0 ≥ RuneSelf then s.take (i + (DecodeRuneInString (s.drop i)).2)
    else s.take (i + 1)
  | none => s.take 0

/-- The table `asciiSpace`. -/
def asciiSpace (c : Nat) : Nat :=
  if c = 9 ∨ c = 10 ∨ c = 11 ∨ c = 12 ∨ c = 13 ∨ c = 32 then 1 else 0

/-- The loop of `trimRightSpace`, on the value of `stop`. -/
def trimRightSpaceLoop (s : Bytes) : Nat → Bytes
  | 0 => s.take 0
  | stop + 1 =>
    let c := s.getD stop 0
    if c ≥ RuneSelf then stringsTrimRightFunc (s.take (stop + 1)) unicodeIsSpace
    else if asciiSpace c = 0 then s.take (stop + 1)
    else trimRightSpaceLoop s stop

/-- Model of `trimRightSpace`. -/
def trimRightSpace (s : Bytes) : Bytes := trimRightSpaceLoop s s.length

/-! ## Floating-point values and integer conversions -/

/-- An IEEE-754 value as the encoder sees it: not-a-number, an infinity,
or a finite value `± mant · 2 ^ exp` (a zero has `mant = 0` and keeps its
sign). -/
inductive GoFloat
  | nan
  | inf (neg : Bool)
  | fin (neg : Bool) (mant : Nat) (exp : Int)
  deriving DecidableEq, Repr

/-- Model of `math.IsNaN`. -/
def GoFloat.isNaN : GoFloat → Bool
  | .nan => true
  | _ => false

/-- Model of `math.IsInf(f, sign)` for `sign = 1` (`neg = false`) and
`sign = -1` (`neg = true`). -/
def GoFloat.isInf : GoFloat → Bool → Bool
  | .inf n, neg => n == neg
  | _, _ => false

/-- The comparison `f >= 0`: false for NaN, true for both zeros. -/
def GoFloat.geZero : GoFloat → Bool
  | .nan => false
  | .inf neg => !neg
  | .fin neg mant _ => !neg || mant == 0

/-- The conversion `int64(v)`: the value wrapped to 64-bit two-complement. -/
def int64 (v : Int) : Int := (v + 2 ^ 63) % 2 ^ 64 - 2 ^ 63

/-- The conversion `uint64(v)`: the value modulo `2 ^ 64`. -/
def uint64 (v : Nat) : Nat := v % 2 ^ 64

/-- A point in time with its zone; the encoder only formats it. -/
structure Time where
  unixNano : Int
  zoneOffset : Int
  deriving DecidableEq, Repr

/-- A Go `error`, given by its message. -/
abbrev Error := Bytes

/-- A value handed to `AddReflected`: the nil interface (`none`) or some Go
value, named by a number. -/
abbrev Reflected := Option Nat

/-- A `zapcore.ReflectedEncoder` bound to a buffer: `Encode` appends bytes
to that buffer and may report an error. -/
abbrev ReflectedEncoder := Nat → Bytes × Option Error

/-- The library routines the encoder passes values through without looking
at the result. -/
structure Ext where
  /-- The shortest decimal text (`strconv`, format f, precision -1) of the
  positive finite magnitude `mant · 2 ^ exp` at the given bit size. -/
  floatDigits : Nat → Int → Nat → Bytes
  /-- The text `Time.Format(time.RFC3339Nano)`. -/
  formatRFC3339Nano : Time → Bytes
  /-- The text `Duration.String()` of a duration in nanoseconds. -/
  durationString : Int → Bytes
  /-- What `json.Encoder.Encode` (HTML escaping off) writes for a value. -/
  jsonEncode : ReflectedEncoder

/-- Model of `strconv.AppendFloat(bs, f, (format f), -1, bitSize)`, which
`buffer.AppendFloat` calls: the fixed words for NaN and the infinities,
else a minus sign for a negative value and the digits of the magnitude. -/
def strconvFormatFloat (ext : Ext) (f : GoFloat) (bitSize : Nat) : Bytes :=
  match f with
  | .nan => str "NaN"
  | .inf false => str "+Inf"
  | .inf true => str "-Inf"
  | .fin neg mant exp =>
    (if neg then [45] else []) ++ ext.floatDigits mant exp bitSize

/-! ## Configuration and encoder state -/

/-- An argument of one method of `zapcore.PrimitiveArrayEncoder`; the
constructor names the method (`bool` is `AppendBool`, and so on). The same
kinds are the scalar `Add` methods of `zapcore.ObjectEncoder`. A complex
value is its real and imaginary part. -/
inductive PrimVal
  | bool (b : Bool)
  | byteString (v : Bytes)
  | complex128 (re im : GoFloat)
  | complex64 (re im : GoFloat)
  | float64 (f : GoFloat)
  | float32 (f : GoFloat)
  | int (v : Int)
  | int64 (v : Int)
  | int32 (v : Int)
  | int16 (v : Int)
  | int8 (v : Int)
  | string (s : Bytes)
  | uint (v : Nat)
  | uint64 (v : Nat)
  | uint32 (v : Nat)
  | uint16 (v : Nat)
  | uint8 (v : Nat)
  | uintptr (v : Nat)

/-- The type `zapcore.EntryCaller`. -/
structure EntryCaller where
  Defined : Bool
  File : Bytes
  Line : Int
  Function : Bytes

/-- The type `zapcore.Entry`. -/
structure Entry where
  Level : Int
  Time : Time
  LoggerName : Bytes
  Message : Bytes
  Caller : EntryCaller
  Stack : Bytes

/-- The fields of `zapcore.EncoderConfig` this package reads, as the host
supplies them. A callback is user code that receives the encoder as a
`PrimitiveArrayEncoder`; it is given by the calls it makes. An absent
callback is `none` (a nil function value). -/
structure EncoderConfig where
  LineEnding : Bytes
  SkipLineEnding : Bool
  FunctionKey : Bytes
  StacktraceKey : Bytes
  EncodeLevel : Option (Int → List PrimVal)
  EncodeCaller : Option (EntryCaller → List PrimVal)
  NewReflectedEncoder : Option ReflectedEncoder

/-- The configuration an encoder holds. `newHumanEncoder` is the only
constructor of an encoder, so the line ending is the effective one and the
factory of reflected encoders is present. -/
structure Config where
  LineEnding : Bytes
  SkipLineEnding : Bool
  FunctionKey : Bytes
  StacktraceKey : Bytes
  EncodeLevel : Option (Int → List PrimVal)
  EncodeCaller : Option (EntryCaller → List PrimVal)
  NewReflectedEncoder : ReflectedEncoder

/-- The fields `reflectBuf` and `reflectEnc`: the side buffer and the side
encoder bound to it. They are set together and cleared together. -/
structure Side where
  reflectBuf : Bytes
  reflectEnc : ReflectedEncoder

/-- The struct `HumanEncoder`; `side` is `none` when `reflectBuf` and
`reflectEnc` are nil. -/
@[ext]
structure HumanEncoder where
  EncoderConfig : Config
  buf : Bytes
  openNamespaces : Nat
  side : Option Side

/-- The constant `zapcore.DefaultLineEnding`. -/
def DefaultLineEnding : Bytes := [NL]

/-- Model of `defaultReflectedEncoder`. -/
def defaultReflectedEncoder (ext : Ext) : ReflectedEncoder := ext.jsonEncode

/-- Model of `newHumanEncoder`. -/
def newHumanEncoder (ext : Ext) (cfg : EncoderConfig) : HumanEncoder :=
  let lineEnding :=
    if cfg.SkipLineEnding then []
    else if cfg.LineEnding = [] then DefaultLineEnding
    else cfg.LineEnding
  let newReflectedEncoder :=
    match cfg.NewReflectedEncoder with
    | none => defaultReflectedEncoder ext
    | some f => f
  { EncoderConfig :=
      { LineEnding := lineEnding
        SkipLineEnding := cfg.SkipLineEnding
        FunctionKey := cfg.FunctionKey
        StacktraceKey := cfg.StacktraceKey
        EncodeLevel := cfg.EncodeLevel
        EncodeCaller := cfg.EncodeCaller
        NewReflectedEncoder := newReflectedEncoder }
    buf := []
    openNamespaces := 0
    side := none }

namespace HumanEncoder

/-- Model of `HumanEncoder.ident`. -/
def ident (h : HumanEncoder) : Bytes :=
  str "                                      \t" ++ stringsRepeat (str "  ") h.openNamespaces

/-- Model of `HumanEncoder.writeString`. -/
def writeString (h : HumanEncoder) (s : Bytes) : HumanEncoder :=
  { h with buf := h.buf ++ s }

/-- Model of `HumanEncoder.writeStringf` with one operand. -/
def writeStringf (h : HumanEncoder) (f : List FmtSeg) (a : FmtArg) : HumanEncoder :=
  h.writeString (Sprintf f (some a))

/-- Model of `buf.AppendByte` and `buf.WriteByte` on the encoder buffer. -/
def appendByte (h : HumanEncoder) (b : Nat) : HumanEncoder :=
  { h with buf := h.buf ++ [b] }

/-- Model of `buf.AppendFloat` on the encoder buffer. -/
def bufAppendFloat (ext : Ext) (h : HumanEncoder) (f : GoFloat) (bitSize : Nat) : HumanEncoder :=
  { h with buf := h.buf ++ strconvFormatFloat ext f bitSize }

/-- Model of `HumanEncoder.addKey`. -/
def addKey (h : HumanEncoder) (k : Bytes) : HumanEncoder :=
  h.writeString (h.ident ++ k ++ str ": ")

/-! ### `array_marshaler.go`: the scalar `Append` methods -/

/-- Model of `HumanEncoder.AppendBool`. -/
def AppendBool (h : HumanEncoder) (b : Bool) : HumanEncoder :=
  h.writeStringf [.verbT] (.bool b)

/-- Model of `HumanEncoder.AppendByteString`. -/
def AppendByteString (h : HumanEncoder) (bytes : Bytes) : HumanEncoder :=
  let lines := stringsSplit NL (hexDump bytes)
  let lines := lines.map (fun l => h.ident ++ l)
  h.writeString (stringsJoin [NL] lines ++ [NL])

/-- Model of `HumanEncoder.appendComplex`. -/
def appendComplex (ext : Ext) (h : HumanEncoder) (re im : GoFloat) (precision : Nat) :
    HumanEncoder :=
  let h := h.bufAppendFloat ext re precision
  let h := if im.geZero then h.appendByte 43 else h
  let h := h.bufAppendFloat ext im precision
  h.appendByte 105

/-- Model of `HumanEncoder.appendFloat`. -/
def appendFloat (ext : Ext) (h : HumanEncoder) (val : GoFloat) (bitSize : Nat) : HumanEncoder :=
  let h :=
    if val.isNaN then h.writeString (str "\"NaN\"")
    else if val.isInf false then h.writeString (str "\"+Inf\"")
    else if val.isInf true then h.writeString (str "\"-Inf\"")
    else h.bufAppendFloat ext val bitSize
  h.appendByte NL

/-- Model of `HumanEncoder.AppendComplex128`. -/
def AppendComplex128 (ext : Ext) (h : HumanEncoder) (re im : GoFloat) : HumanEncoder :=
  h.appendComplex ext re im 64

/-- Model of `HumanEncoder.AppendComplex64`; widening to `complex128` keeps
both parts. -/
def AppendComplex64 (ext : Ext) (h : HumanEncoder) (re im : GoFloat) : HumanEncoder :=
  h.appendComplex ext re im 32

/-- Model of `HumanEncoder.AppendFloat64`. -/
def AppendFloat64 (ext : Ext) (h : HumanEncoder) (f : GoFloat) : HumanEncoder :=
  h.appendFloat ext f 64

/-- Model of `HumanEncoder.AppendFloat32`; widening to `float64` keeps the
value. -/
def AppendFloat32 (ext : Ext) (h : HumanEncoder) (f : GoFloat) : HumanEncoder :=
  h.appendFloat ext f 32

/-- Model of `HumanEncoder.AppendInt64`. -/
def AppendInt64 (h : HumanEncoder) (i : Int) : HumanEncoder :=
  h.writeStringf [.verbD] (.int64 i)

/-- Model of `HumanEncoder.AppendInt`. -/
def AppendInt (h : HumanEncoder) (i : Int) : HumanEncoder := h.AppendInt64 (int64 i)

/-- Model of `HumanEncoder.AppendInt32`. -/
def AppendInt32 (h : HumanEncoder) (i : Int) : HumanEncoder := h.AppendInt64 (int64 i)

/-- Model of `HumanEncoder.AppendInt16`. -/
def AppendInt16 (h : HumanEncoder) (i : Int) : HumanEncoder := h.AppendInt64 (int64 i)

/-- Model of `HumanEncoder.AppendInt8`. -/
def AppendInt8 (h : HumanEncoder) (i : Int) : HumanEncoder := h.AppendInt64 (int64 i)

/-- Model of `HumanEncoder.AppendString`. -/
def AppendString (h : HumanEncoder) (s : Bytes) : HumanEncoder := h.writeString s

/-- Model of `HumanEncoder.AppendUint64`. -/
def AppendUint64 (h : HumanEncoder) (u : Nat) : HumanEncoder :=
  h.writeStringf [.verbD] (.uint64 u)

/-- Model of `HumanEncoder.AppendUint`. -/
def AppendUint (h : HumanEncoder) (u : Nat) : HumanEncoder := h.AppendUint64 (uint64 u)

/-- Model of `HumanEncoder.AppendUint32`. -/
def AppendUint32 (h : HumanEncoder) (u : Nat) : HumanEncoder := h.AppendUint64 (uint64 u)

/-- Model of `HumanEncoder.AppendUint16`. -/
def AppendUint16 (h : HumanEncoder) (u : Nat) : HumanEncoder := h.AppendUint64 (uint64 u)

/-- Model of `HumanEncoder.AppendUint8`. -/
def AppendUint8 (h : HumanEncoder) (u : Nat) : HumanEncoder := h.AppendUint64 (uint64 u)

/-- Model of `HumanEncoder.AppendUintptr`. -/
def AppendUintptr (h : HumanEncoder) (u : Nat) : HumanEncoder := h.AppendUint64 (uint64 u)

/-- Model of `HumanEncoder.AppendDuration`. -/
def AppendDuration (ext : Ext) (h : HumanEncoder) (duration : Int) : HumanEncoder :=
  h.writeString (ext.durationString duration)

/-- Model of `HumanEncoder.AppendTime`. -/
def AppendTime (ext : Ext) (h : HumanEncoder) (t : Time) : HumanEncoder :=
  h.writeStringf [.verbS] (.string (ext.formatRFC3339Nano t))

/-! ### `logging.go`: the scalar `Add` methods -/

/-- Model of `HumanEncoder.AddBinary`. -/
def AddBinary (h : HumanEncoder) (key : Bytes) (value : Bytes) : HumanEncoder :=
  let h := h.addKey key
  let h := h.appendByte NL
  let h := { h with openNamespaces := h.openNamespaces + 1 }
  let lines := stringsSplit NL (hexDump value)
  let lines := lines.map (fun l => h.ident ++ l)
  let h := h.writeString (stringsJoin [NL] lines ++ [NL])
  { h with openNamespaces := h.openNamespaces - 1 }

/-- Model of `HumanEncoder.AddByteString`. -/
def AddByteString (h : HumanEncoder) (key : Bytes) (value : Bytes) : HumanEncoder :=
  h.AddBinary key value

/-- Model of `HumanEncoder.AddBool`. -/
def AddBool (h : HumanEncoder) (key : Bytes) (value : Bool) : HumanEncoder :=
  let h := h.addKey key
  let h := h.AppendBool value
  h.appendByte NL

/-- Model of `HumanEncoder.AddComplex128`. -/
def AddComplex128 (ext : Ext) (h : HumanEncoder) (key : Bytes) (re im : GoFloat) :
    HumanEncoder :=
  let h := h.addKey key
  let h := h.appendComplex ext re im 64
  h.appendByte NL

/-- Model of `HumanEncoder.AddComplex64`. -/
def AddComplex64 (ext : Ext) (h : HumanEncoder) (key : Bytes) (re im : GoFloat) :
    HumanEncoder :=
  let h := h.addKey key
  let h := h.appendComplex ext re im 32
  h.appendByte NL

/-- Model of `HumanEncoder.AddDuration`. -/
def AddDuration (ext : Ext) (h : HumanEncoder) (key : Bytes) (value : Int) : HumanEncoder :=
  let h := h.addKey key
  let h := h.writeString (ext.durationString value)
  h.appendByte NL

/-- Model of `HumanEncoder.AddFloat64`. -/
def AddFloat64 (ext : Ext) (h : HumanEncoder) (key : Bytes) (value : GoFloat) : HumanEncoder :=
  let h := h.addKey key
  let h := h.appendFloat ext value 64
  h.appendByte NL

/-- Model of `HumanEncoder.AddFloat32`. -/
def AddFloat32 (ext : Ext) (h : HumanEncoder) (key : Bytes) (value : GoFloat) : HumanEncoder :=
  let h := h.addKey key
  let h := h.appendFloat ext value 32
  h.appendByte NL

/-- Model of `HumanEncoder.AddInt64`. -/
def AddInt64 (h : HumanEncoder) (key : Bytes) (value : Int) : HumanEncoder :=
  let h := h.addKey key
  h.writeStringf [.verbD, .lit [NL]] (.int64 value)

/-- Model of `HumanEncoder.AddInt`. -/
def AddInt (h : HumanEncoder) (key : Bytes) (value : Int) : HumanEncoder :=
  h.AddInt64 key (int64 value)

/-- Model of `HumanEncoder.AddInt32`. -/
def AddInt32 (h : HumanEncoder) (key : Bytes) (value : Int) : HumanEncoder :=
  h.AddInt64 key (int64 value)

/-- Model of `HumanEncoder.AddInt16`. -/
def AddInt16 (h : HumanEncoder) (key : Bytes) (value : Int) : HumanEncoder :=
  h.AddInt64 key (int64 value)

/-- Model of `HumanEncoder.AddInt8`. -/
def AddInt8 (h : HumanEncoder) (key : Bytes) (value : Int) : HumanEncoder :=
  h.AddInt64 key (int64 value)

/-- Model of `HumanEncoder.AddString`. -/
def AddString (h : HumanEncoder) (key value : Bytes) : HumanEncoder :=
  let h := h.addKey key
  if stringsContainsRune value NL then
    let h := { h with openNamespaces := h.openNamespaces + 1 }
    let lines := stringsSplit NL value
    let lines := lines.map (fun l => h.ident ++ trimRightSpace l)
    let h := { h with openNamespaces := h.openNamespaces - 1 }
    h.writeString ([NL] ++ stringsJoin [NL] lines ++ [NL])
  else
    h.writeStringf [.verbS, .lit [NL]] (.string value)

/-- Model of `HumanEncoder.AddTime`. -/
def AddTime (ext : Ext) (h : HumanEncoder) (key : Bytes) (value : Time) : HumanEncoder :=
  let h := h.addKey key
  h.writeStringf [.verbS, .lit [NL]] (.string (ext.formatRFC3339Nano value))

/-- Model of `HumanEncoder.AddUint64`. -/
def AddUint64 (h : HumanEncoder) (key : Bytes) (value : Nat) : HumanEncoder :=
  let h := h.addKey key
  h.writeStringf [.verbD, .lit [NL]] (.uint64 value)

/-- Model of `HumanEncoder.AddUint`. -/
def AddUint (h : HumanEncoder) (key : Bytes) (value : Nat) : HumanEncoder :=
  h.AddUint64 key (uint64 value)

/-- Model of `HumanEncoder.AddUint32`. -/
def AddUint32 (h : HumanEncoder) (key : Bytes) (value : Nat) : HumanEncoder :=
  h.AddUint64 key (uint64 value)

/-- Model of `HumanEncoder.AddUint16`. -/
def AddUint16 (h : HumanEncoder) (key : Bytes) (value : Nat) : HumanEncoder :=
  h.AddUint64 key (uint64 value)

/-- Model of `HumanEncoder.AddUint8`. -/
def AddUint8 (h : HumanEncoder) (key : Bytes) (value : Nat) : HumanEncoder :=
  h.AddUint64 key (uint64 value)

/-- Model of `HumanEncoder.AddUintptr`. -/
def AddUintptr (h : HumanEncoder) (key : Bytes) (value : Nat) : HumanEncoder :=
  h.AddUint64 key (uint64 value)

/-- Model of `HumanEncoder.OpenNamespace`. -/
def OpenNamespace (h : HumanEncoder) (key : Bytes) : HumanEncoder :=
  let h := { h with openNamespaces := h.openNamespaces + 1 }
  let h := h.addKey key
  h.appendByte NL

/-! ### Reflected values -/

/-- Model of `HumanEncoder.resetReflectBuf`: the side buffer, fresh or
emptied, with the encoder bound to it. -/
def resetReflectBuf (h : HumanEncoder) : Side :=
  match h.side with
  | none => { reflectBuf := [], reflectEnc := h.EncoderConfig.NewReflectedEncoder }
  | some sd => { sd with reflectBuf := [] }

/-- Model of `buffer.TrimNewline`: drop one trailing newline, if any. -/
def bufTrimNewline (b : Bytes) : Bytes :=
  if b.getLast? = some NL then b.dropLast else b

/-- Model of `HumanEncoder.encodeReflected`: the encoder (its side buffer
is used), the bytes returned and the error. -/
def encodeReflected (h : HumanEncoder) (obj : Reflected) : HumanEncoder × Bytes × Option Error :=
  match obj with
  | none => (h, str "nil", none)
  | some v =>
    let sd := h.resetReflectBuf
    let (written, err) := sd.reflectEnc v
    let sd := { sd with reflectBuf := sd.reflectBuf ++ written }
    match err with
    | some e => ({ h with side := some sd }, [], some e)
    | none =>
      let sd := { sd with reflectBuf := bufTrimNewline sd.reflectBuf }
      ({ h with side := some sd }, sd.reflectBuf, none)

/-- Model of `HumanEncoder.AddReflected`; writing to the buffer never
fails. -/
def AddReflected (h : HumanEncoder) (key : Bytes) (value : Reflected) :
    HumanEncoder × Option Error :=
  match h.encodeReflected value with
  | (h, _, some err) => (h, some err)
  | (h, valueBytes, none) =>
    let h := h.addKey key
    let h := h.writeString valueBytes
    let h := h.writeString [NL]
    (h, none)

/-- Model of `HumanEncoder.AppendReflected`. -/
def AppendReflected (h : HumanEncoder) (value : Reflected) : HumanEncoder × Option Error :=
  match h.encodeReflected value with
  | (h, _, some err) => (h, some err)
  | (h, valueBytes, none) => (h.writeString valueBytes, none)

/-! ### Dispatch of an interface call to the method it names -/

/-- A call of a `PrimitiveArrayEncoder` method. -/
def appendPrim (ext : Ext) (h : HumanEncoder) : PrimVal → HumanEncoder
  | .bool b => h.AppendBool b
  | .byteString v => h.AppendByteString v
  | .complex128 re im => h.AppendComplex128 ext re im
  | .complex64 re im => h.AppendComplex64 ext re im
  | .float64 f => h.AppendFloat64 ext f
  | .float32 f => h.AppendFloat32 ext f
  | .int v => h.AppendInt v
  | .int64 v => h.AppendInt64 v
  | .int32 v => h.AppendInt32 v
  | .int16 v => h.AppendInt16 v
  | .int8 v => h.AppendInt8 v
  | .string s => h.AppendString s
  | .uint v => h.AppendUint v
  | .uint64 v => h.AppendUint64 v
  | .uint32 v => h.AppendUint32 v
  | .uint16 v => h.AppendUint16 v
  | .uint8 v => h.AppendUint8 v
  | .uintptr v => h.AppendUintptr v

/-- A call of the scalar `Add` method of `ObjectEncoder` for the kind. -/
def addPrim (ext : Ext) (h : HumanEncoder) (key : Bytes) : PrimVal → HumanEncoder
  | .bool b => h.AddBool key b
  | .byteString v => h.AddByteString key v
  | .complex128 re im => h.AddComplex128 ext key re im
  | .complex64 re im => h.AddComplex64 ext key re im
  | .float64 f => h.AddFloat64 ext key f
  | .float32 f => h.AddFloat32 ext key f
  | .int v => h.AddInt key v
  | .int64 v => h.AddInt64 key v
  | .int32 v => h.AddInt32 key v
  | .int16 v => h.AddInt16 key v
  | .int8 v => h.AddInt8 key v
  | .string s => h.AddString key s
  | .uint v => h.AddUint key v
  | .uint64 v => h.AddUint64 key v
  | .uint32 v => h.AddUint32 key v
  | .uint16 v => h.AddUint16 key v
  | .uint8 v => h.AddUint8 key v
  | .uintptr v => h.AddUintptr key v

/-- A configuration callback run on the encoder: its calls in order. -/
def appendPrims (ext : Ext) (h : HumanEncoder) : List PrimVal → HumanEncoder
  | [] => h
  | v :: vs => appendPrims ext (h.appendPrim ext v) vs

end HumanEncoder

/-! ## Marshalers -/

mutual
/-- One call a marshaler makes on the `zapcore.ObjectEncoder` it is given. -/
inductive ObjCall
  | addArray (key : Bytes) (marshaler : ArrProg)
  | addObject (key : Bytes) (marshaler : ObjProg)
  | addBinary (key : Bytes) (value : Bytes)
  | addPrim (key : Bytes) (value : PrimVal)
  | addDuration (key : Bytes) (value : Int)
  | addTime (key : Bytes) (value : Time)
  | addReflected (key : Bytes) (value : Reflected)
  | openNamespace (key : Bytes)
/-- A `zapcore.ObjectMarshaler`: the run of `MarshalLogObject`, that is the
calls it makes on the encoder, then the error it returns. -/
inductive ObjProg
  | ret (err : Option Error)
  | call (c : ObjCall) (rest : ObjProg)
/-- One call a marshaler makes on the encoder `MarshalLogArray` is given.
The encoder is handed over as a `zapcore.ArrayEncoder`, whose methods are
the `append` constructors. The value behind the interface is the
`*HumanEncoder` itself, so a marshaler that asserts its type reaches the
`ObjectEncoder` methods too: `objectEncoder` is such a call. -/
inductive ArrCall
  | appendArray (marshaler : ArrProg)
  | appendObject (marshaler : ObjProg)
  | appendPrim (value : PrimVal)
  | appendDuration (value : Int)
  | appendTime (value : Time)
  | appendReflected (value : Reflected)
  | objectEncoder (c : ObjCall)
/-- A `zapcore.ArrayMarshaler`: the run of `MarshalLogArray`. -/
inductive ArrProg
  | ret (err : Option Error)
  | call (c : ArrCall) (rest : ArrProg)
end

mutual
/-- One `ObjectEncoder` call on the encoder; `addArray` is the model of
`HumanEncoder.AddArray` and `addObject` that of `HumanEncoder.AddObject`. -/
def ObjCall.run (ext : Ext) (h : HumanEncoder) : ObjCall → HumanEncoder × Option Error
  | .addArray key marshaler =>
    let h := h.addKey key
    let h := h.writeString (str "[ ")
    let (h, err) := ArrProg.run ext h marshaler
    let h := h.writeString (str " ]\n")
    (h, err)
  | .addObject key marshaler =>
    let h := h.addKey key
    let old := h.openNamespaces
    let h := { h with openNamespaces := 0 }
    let h := h.appendByte 123
    let (h, err) := ObjProg.run ext h marshaler
    let h := h.writeString (str "\x7d\n")
    let h := { h with openNamespaces := old }
    (h, err)
  | .addBinary key value => (h.AddBinary key value, none)
  | .addPrim key value => (h.addPrim ext key value, none)
  | .addDuration key value => (h.AddDuration ext key value, none)
  | .addTime key value => (h.AddTime ext key value, none)
  | .addReflected key value => h.AddReflected key value
  | .openNamespace key => (h.OpenNamespace key, none)
/-- Model of `MarshalLogObject(h)`: the marshaler run on the encoder. -/
def ObjProg.run (ext : Ext) (h : HumanEncoder) : ObjProg → HumanEncoder × Option Error
  | .ret err => (h, err)
  | .call c rest => ObjProg.run ext (ObjCall.run ext h c).1 rest
/-- One call of an array marshaler on the encoder; `appendArray` is the
model of `HumanEncoder.AppendArray` and `appendObject` that of
`HumanEncoder.AppendObject`. An `ObjectEncoder` call reaches the same
encoder. -/
def ArrCall.run (ext : Ext) (h : HumanEncoder) : ArrCall → HumanEncoder × Option Error
  | .appendArray marshaler =>
    let h := h.writeString (str "[ ")
    let (h, err) := ArrProg.run ext h marshaler
    let h := h.writeString (str " ]\n")
    (h, err)
  | .appendObject marshaler =>
    let old := h.openNamespaces
    let h := { h with openNamespaces := 0 }
    let h := h.appendByte 123
    let (h, err) := ObjProg.run ext h marshaler
    let h := h.writeString (str "\x7d\n")
    let h := { h with openNamespaces := old }
    (h, err)
  | .appendPrim value => (h.appendPrim ext value, none)
  | .appendDuration value => (h.AppendDuration ext value, none)
  | .appendTime value => (h.AppendTime ext value, none)
  | .appendReflected value => h.AppendReflected value
  | .objectEncoder c => ObjCall.run ext h c
/-- Model of `MarshalLogArray(h)`: the marshaler run on the encoder. -/
def ArrProg.run (ext : Ext) (h : HumanEncoder) : ArrProg → HumanEncoder × Option Error
  | .ret err => (h, err)
  | .call c rest => ArrProg.run ext (ArrCall.run ext h c).1 rest
end

namespace HumanEncoder

/-- Model of `HumanEncoder.AddArray`. -/
def AddArray (ext : Ext) (h : HumanEncoder) (key : Bytes) (marshaler : ArrProg) :
    HumanEncoder × Option Error :=
  ObjCall.run ext h (.addArray key marshaler)

/-- Model of `HumanEncoder.AddObject`. -/
def AddObject (ext : Ext) (h : HumanEncoder) (key : Bytes) (marshaler : ObjProg) :
    HumanEncoder × Option Error :=
  ObjCall.run ext h (.addObject key marshaler)

/-- Model of `HumanEncoder.AppendArray`. -/
def AppendArray (ext : Ext) (h : HumanEncoder) (marshaler : ArrProg) :
    HumanEncoder × Option Error :=
  ArrCall.run ext h (.appendArray marshaler)

/-- Model of `HumanEncoder.AppendObject`. -/
def AppendObject (ext : Ext) (h : HumanEncoder) (marshaler : ObjProg) :
    HumanEncoder × Option Error :=
  ArrCall.run ext h (.appendObject marshaler)

end HumanEncoder

/-! ## Fields and the entry composer -/

/-- A `zapcore.Field`, by the encoder method its `AddTo` calls. The scalar
field types are `prim`; a stringer or an error field calls `AddString`
with the text of the value, so it is a `prim` string field. -/
inductive Field
  | arrayMarshaler (key : Bytes) (marshaler : ArrProg)
  | objectMarshaler (key : Bytes) (marshaler : ObjProg)
  | inlineMarshaler (key : Bytes) (marshaler : ObjProg)
  | binary (key : Bytes) (value : Bytes)
  | prim (key : Bytes) (value : PrimVal)
  | duration (key : Bytes) (value : Int)
  | time (key : Bytes) (value : Time)
  | reflect (key : Bytes) (value : Reflected)
  | nspace (key : Bytes)
  | skip

/-- The key of a field. -/
def Field.Key : Field → Bytes
  | .arrayMarshaler key _ => key
  | .objectMarshaler key _ => key
  | .inlineMarshaler key _ => key
  | .binary key _ => key
  | .prim key _ => key
  | .duration key _ => key
  | .time key _ => key
  | .reflect key _ => key
  | .nspace key => key
  | .skip => []

/-- Model of `zapcore.Field.AddTo`: the encoder method of the field type,
and when that reports an error, a string field `<key>Error` with the
message. Nothing is returned. -/
def Field.AddTo (ext : Ext) (f : Field) (enc : HumanEncoder) : HumanEncoder :=
  let r : HumanEncoder × Option Error :=
    match f with
    | .arrayMarshaler key marshaler => enc.AddArray ext key marshaler
    | .objectMarshaler key marshaler => enc.AddObject ext key marshaler
    | .inlineMarshaler _ marshaler => ObjProg.run ext enc marshaler
    | .binary key value => (enc.AddBinary key value, none)
    | .prim key value => (enc.addPrim ext key value, none)
    | .duration key value => (enc.AddDuration ext key value, none)
    | .time key value => (enc.AddTime ext key value, none)
    | .reflect key value => enc.AddReflected key value
    | .nspace key => (enc.OpenNamespace key, none)
    | .skip => (enc, none)
  match r.2 with
  | some err => r.1.AddString (f.Key ++ str "Error") err
  | none => r.1

/-- Model of `addFields`. -/
def addFields (ext : Ext) (enc : HumanEncoder) : List Field → HumanEncoder
  | [] => enc
  | f :: fields => addFields ext (f.AddTo ext enc) fields

/-- An instance held by `loggerPool`: every pointer field may be nil. -/
structure Pooled where
  EncoderConfig : Option Config
  buf : Option Bytes
  openNamespaces : Nat
  side : Option Side

/-- The constructor given to `NewPool`: the zero value of the struct. -/
def newPooled : Pooled :=
  { EncoderConfig := none, buf := none, openNamespaces := 0, side := none }

/-- Model of `putEncoder`: the instance as it goes back to the pool. -/
def putEncoder (_enc : HumanEncoder) : Pooled :=
  { EncoderConfig := none, buf := none, openNamespaces := 0, side := none }

/-- Model of `HumanEncoder.clone`, on the instance `got` that
`loggerPool.Get()` hands out. -/
def HumanEncoder.clone (h : HumanEncoder) (got : Pooled) : HumanEncoder :=
  { EncoderConfig := h.EncoderConfig
    buf := []
    openNamespaces := h.openNamespaces
    side := got.side }

/-- Model of `HumanEncoder.Clone`. -/
def HumanEncoder.Clone (h : HumanEncoder) : HumanEncoder :=
  { h with buf := [] ++ h.buf }

/-- What `EncodeEntry` leaves behind: the buffer and the error it returns,
and the instance it puts back into the pool. -/
structure Encoded where
  ret : Bytes
  err : Option Error
  put : Pooled

/-- Model of `HumanEncoder.EncodeEntry`. The result is `none` when the call
does not return: the caller is defined and `EncodeCaller` is nil, so the
call of the nil function panics. -/
def HumanEncoder.EncodeEntry (ext : Ext) (h : HumanEncoder) (got : Pooled) (ent : Entry)
    (fields : List Field) : Option Encoded :=
  let final := h.clone got
  let final :=
    match final.EncoderConfig.EncodeLevel with
    | some encodeLevel =>
      let final := final.appendPrims ext (encodeLevel ent.Level)
      final.writeString (str " ")
    | none => final
  let final := final.AppendTime ext ent.Time
  let final := final.writeString (str " ")
  let final := final.AppendString ent.LoggerName
  let final := final.writeString (str "\t")
  let withCaller : Option HumanEncoder :=
    if ent.Caller.Defined then
      match final.EncoderConfig.EncodeCaller with
      | none => none
      | some encodeCaller =>
        let final := final.appendPrims ext (encodeCaller ent.Caller)
        let final := final.writeString (str "\t")
        if final.EncoderConfig.FunctionKey ≠ [] then
          let final := final.AppendString ent.Caller.Function
          some (final.writeString (str "\t"))
        else some final
    else some final
  match withCaller with
  | none => none
  | some final =>
    let final := final.AppendString ent.Message
    let final := final.writeString (str "\n")
    let final := if h.buf.length > 0 then final.writeString h.buf else final
    let final := addFields ext final fields
    let final :=
      if ent.Stack ≠ [] ∧ final.EncoderConfig.StacktraceKey ≠ [] then
        final.AddString final.EncoderConfig.StacktraceKey ent.Stack
      else final
    let final := final.writeString (str "\n")
    let ret := final.buf
    some { ret := ret, err := none, put := putEncoder final }


/-! ## The encoders in memory

`EncodeEntry` has a pointer receiver and works on a second encoder, which
`clone` draws from `loggerPool`. Here the encoders live in a memory, by
address, and every statement of `clone`, `EncodeEntry` and `putEncoder`
acts through the pointer the source names. -/

/-- A `HumanEncoder` struct in memory. A pointer field may be nil. The
configuration is held by its address, which encoders share; a buffer has
one owner and is held by its content. -/
structure Cell where
  EncoderConfig : Option Nat
  buf : Option Bytes
  openNamespaces : Nat
  side : Option Side

/-- The zero value of the struct, which the constructor given to `NewPool`
returns. -/
def Cell.zero : Cell :=
  { EncoderConfig := none, buf := none, openNamespaces := 0, side := none }

/-- The memory a render works on: the `zapcore.EncoderConfig` values and the
`HumanEncoder` structs by address, the addresses `loggerPool` holds, and the
first address not allocated yet. -/
structure Memory where
  config : Nat → Config
  cell : Nat → Cell
  pool : List Nat
  next : Nat

namespace Memory

/-- An assignment to fields of the struct at address `a`. -/
def write (m : Memory) (a : Nat) (f : Cell → Cell) : Memory :=
  { m with cell := Function.update m.cell a (f (m.cell a)) }

/-- The encoder a pointer gives access to: the struct at the address with
the configuration and the buffer its fields point to; `none` when one of
the two is nil. -/
def load (m : Memory) (a : Nat) : Option HumanEncoder :=
  match (m.cell a).EncoderConfig, (m.cell a).buf with
  | some c, some b =>
    some { EncoderConfig := m.config c, buf := b, openNamespaces := (m.cell a).openNamespaces,
           side := (m.cell a).side }
  | _, _ => none

/-- A method call through the pointer `a`: the method runs on the struct at
that address and on what its fields point to, and what it leaves is written
back, to the struct and to the configuration it points to. `none` when the
call dereferences a nil field. -/
def call (m : Memory) (a : Nat) (f : HumanEncoder → HumanEncoder) : Option Memory :=
  match (m.cell a).EncoderConfig, m.load a with
  | some c, some e =>
    some { m with
      config := Function.update m.config c (f e).EncoderConfig
      cell := Function.update m.cell a
        { EncoderConfig := some c, buf := some (f e).buf,
          openNamespaces := (f e).openNamespaces, side := (f e).side } }
  | _, _ => none

/-- Model of `loggerPool.Get()`: an address put back earlier, or the address
of a new zero struct when the pool is empty. -/
def Get (m : Memory) : Nat × Memory :=
  match m.pool with
  | [] => (m.next, { m with cell := Function.update m.cell m.next Cell.zero, next := m.next + 1 })
  | a :: rest => (a, { m with pool := rest })

/-- Model of `HumanEncoder.clone` with the receiver at address `h`. -/
def clone (m : Memory) (h : Nat) : Nat × Memory :=
  let (clone, m) := m.Get
  let m := m.write clone (fun c => { c with EncoderConfig := (m.cell h).EncoderConfig })
  let m := m.write clone (fun c => { c with openNamespaces := (m.cell h).openNamespaces })
  let m := m.write clone (fun c => { c with buf := some [] })
  (clone, m)

/-- Model of `putEncoder` on the encoder at address `enc`. -/
def putEncoder (m : Memory) (enc : Nat) : Memory :=
  let m := m.write enc (fun c => { c with EncoderConfig := none })
  let m := m.write enc (fun c => { c with buf := none })
  let m := m.write enc (fun c => { c with openNamespaces := 0 })
  let m := m.write enc (fun c => { c with side := none })
  { m with pool := enc :: m.pool }

/-- Model of `newHumanEncoder` on the memory: the configuration goes to a
new address, and a new struct holds that address and a new buffer. -/
def newHumanEncoder (ext : Ext) (m : Memory) (cfg : EncoderConfig) : Nat × Memory :=
  (m.next,
   { m with
     config := Function.update m.config m.next (ZapHuman.newHumanEncoder ext cfg).EncoderConfig
     cell := Function.update m.cell m.next
       { EncoderConfig := some m.next, buf := some [], openNamespaces := 0, side := none }
     next := m.next + 1 })

/-- Sequencing of statements: the rest runs on what the statement before
leaves, when that statement returns. -/
@[noinline]
def andThen (o : Option α) (rest : α → Option β) : Option β :=
  match o with
  | none => none
  | some a => rest a

/-- Model of `HumanEncoder.EncodeEntry` with the receiver at address `h`:
the memory the call leaves, the buffer and the error it returns. The result
is `none` when the call does not return (a nil dereference or the call of a
nil function). -/
def EncodeEntry (ext : Ext) (m : Memory) (h : Nat) (ent : Entry) (fields : List Field) :
    Option (Memory × Bytes × Option Error) :=
  let final := (m.clone h).1
  let m := (m.clone h).2
  andThen (m.load final) fun fin =>
  andThen
    (match fin.EncoderConfig.EncodeLevel with
      | some encodeLevel =>
        andThen (m.call final (fun e => e.appendPrims ext (encodeLevel ent.Level))) fun m =>
        m.call final (fun e => e.writeString (str " "))
      | none => some m) fun m =>
  andThen (m.call final (fun e => e.AppendTime ext ent.Time)) fun m =>
  andThen (m.call final (fun e => e.writeString (str " "))) fun m =>
  andThen (m.call final (fun e => e.AppendString ent.LoggerName)) fun m =>
  andThen (m.call final (fun e => e.writeString (str "\t"))) fun m =>
  andThen
    (if ent.Caller.Defined then
      andThen (m.load final) fun fin =>
      andThen fin.EncoderConfig.EncodeCaller fun encodeCaller =>
      andThen (m.call final (fun e => e.appendPrims ext (encodeCaller ent.Caller))) fun m =>
      andThen (m.call final (fun e => e.writeString (str "\t"))) fun m =>
      andThen (m.load final) fun fin =>
      if fin.EncoderConfig.FunctionKey ≠ [] then
        andThen (m.call final (fun e => e.AppendString ent.Caller.Function)) fun m =>
        m.call final (fun e => e.writeString (str "\t"))
      else some m
    else some m) fun m =>
  andThen (m.call final (fun e => e.AppendString ent.Message)) fun m =>
  andThen (m.call final (fun e => e.writeString (str "\n"))) fun m =>
  andThen (m.load h) fun base =>
  andThen
    (if base.buf.length > 0 then m.call final (fun e => e.writeString base.buf)
      else some m) fun m =>
  andThen (m.call final (fun e => addFields ext e fields)) fun m =>
  andThen (m.load final) fun fin =>
  andThen
    (if ent.Stack ≠ [] ∧ fin.EncoderConfig.StacktraceKey ≠ [] then
      m.call final (fun e => e.AddString fin.EncoderConfig.StacktraceKey ent.Stack)
    else some m) fun m =>
  andThen (m.call final (fun e => e.writeString (str "\n"))) fun m =>
  andThen (m.cell final).buf fun ret =>
  let m := m.putEncoder final
  some (m, ret, none)

end Memory


/-! ## Auxiliary definitions used by the statements -/

/-- The encoder with `pre` put in front of its buffer. -/
def HumanEncoder.prepend (pre : Bytes) (h : HumanEncoder) : HumanEncoder :=
  { h with buf := pre ++ h.buf }

/-- The encoder with an empty buffer: what a method writes on it is the
text the method appends. -/
def HumanEncoder.fresh (h : HumanEncoder) : HumanEncoder := { h with buf := [] }

/-- The call is one of the `Add` methods: any call but `OpenNamespace`. -/
def ObjCall.isAdd : ObjCall → Bool
  | .openNamespace _ => false
  | _ => true

mutual
/-- The `ObjectEncoder` call leaves no namespace open: it is not
`OpenNamespace`, and the marshaler of an `AddArray` call leaves none open.
Inside `AddObject` a marshaler may open any. -/
def ObjCall.noOpenNamespace : ObjCall → Bool
  | .openNamespace _ => false
  | .addArray _ marshaler => marshaler.noOpenNamespace
  | _ => true
/-- The call of an array marshaler leaves no namespace open: an `ArrayEncoder`
call other than `AppendArray` never does, `AppendArray` does not when its
marshaler does not, and an `ObjectEncoder` call reached through the
concrete encoder does not when it is not `OpenNamespace`. -/
def ArrCall.noOpenNamespace : ArrCall → Bool
  | .appendArray marshaler => marshaler.noOpenNamespace
  | .objectEncoder c => c.noOpenNamespace
  | _ => true
/-- The array marshaler leaves no namespace open: none of its calls does. -/
def ArrProg.noOpenNamespace : ArrProg → Bool
  | .ret _ => true
  | .call c rest => c.noOpenNamespace && rest.noOpenNamespace
end

/-- The field is added through one `Add` method that leaves no namespace
open: it is neither a namespace field nor an inlined marshaler, and the
marshaler of an array field leaves none open. -/
def Field.noOpenNamespace : Field → Bool
  | .nspace _ => false
  | .inlineMarshaler _ _ => false
  | .arrayMarshaler _ marshaler => marshaler.noOpenNamespace
  | _ => true

/-- An array marshaler that asserts the type of the encoder it is given and
opens the namespace `ns` on it. -/
def escapingArray : ArrProg :=
  .call (.objectEncoder (.openNamespace (str "ns"))) (.ret none)

/-- A fixed environment for evaluating the model on the concrete inputs of
the examples below. It gives what Go prints for those inputs: the digits of
a float that is a whole number below `2 ^ 53`, the layout of the Unix epoch
in UTC, the text of the zero duration, and, the value named `n` being the
Go integer `n`, the JSON text of that integer and a newline. -/
def sampleExt : Ext where
  floatDigits := fun mant exp _ => fmtUint (mant * 2 ^ exp.toNat)
  formatRFC3339Nano := fun _ => str "1970-01-01T00:00:00Z"
  durationString := fun _ => str "0s"
  jsonEncode := fun n => (fmtUint n ++ [NL], none)

/-- The Unix epoch in UTC. -/
def epoch : Time := { unixNano := 0, zoneOffset := 0 }

/-- A configuration with every optional part left out. -/
def plainConfig : EncoderConfig where
  LineEnding := []
  SkipLineEnding := false
  FunctionKey := []
  StacktraceKey := []
  EncodeLevel := none
  EncodeCaller := none
  NewReflectedEncoder := none

/-- An object marshaler that opens a namespace, adds a field and fails. -/
def failingObject : ObjProg :=
  .call (.openNamespace (str "ns"))
    (.call (.addPrim (str "x") (.int64 7)) (.ret (some (str "boom"))))

/-- An array marshaler that appends 1, a failing object and 23. -/
def sampleArray : ArrProg :=
  .call (.appendPrim (.int64 1))
    (.call (.appendObject failingObject) (.call (.appendPrim (.int64 23)) (.ret none)))

/-- A field list with an object, an array, a multi-line string, a blob and
a reflected value. -/
def sampleFields : List Field :=
  [.objectMarshaler (str "o") failingObject, .arrayMarshaler (str "a") sampleArray,
   .prim (str "s") (.string (str "a\nb  \n")), .binary (str "b") [1, 2, 3],
   .reflect (str "r") (some 5)]

/-- The text the level callback writes and the space after it; nothing
when no level callback is configured. -/
def levelText (ext : Ext) (c : HumanEncoder) (ent : Entry) : Bytes :=
  match c.EncoderConfig.EncodeLevel with
  | some encodeLevel => (c.fresh.appendPrims ext (encodeLevel ent.Level)).buf ++ str " "
  | none => []

/-- The text for a defined caller: what the caller callback writes, a tab,
and the function name with a tab when `FunctionKey` is not empty. -/
def callerText (ext : Ext) (c : HumanEncoder) (ent : Entry) : Bytes :=
  if ent.Caller.Defined then
    match c.EncoderConfig.EncodeCaller with
    | some encodeCaller =>
      (c.fresh.appendPrims ext (encodeCaller ent.Caller)).buf ++ str "\t"
        ++ (if c.EncoderConfig.FunctionKey ≠ [] then ent.Caller.Function ++ str "\t" else [])
    | none => []
  else []

/-- The text a list of fields writes, applied in list order to the encoder
state `c`. -/
def fieldsText (ext : Ext) (c : HumanEncoder) (fields : List Field) : Bytes :=
  (addFields ext c.fresh fields).buf

/-- The text of the stack trace, added as a string field under
`StacktraceKey` to the encoder state `c`, when both are non-empty. -/
def stackText (c : HumanEncoder) (ent : Entry) : Bytes :=
  if ent.Stack ≠ [] ∧ c.EncoderConfig.StacktraceKey ≠ [] then
    (c.fresh.AddString c.EncoderConfig.StacktraceKey ent.Stack).buf
  else []

/-- The entry of the end-to-end scenario: message `hello`, empty logger
name, no caller, no stack trace. -/
def helloEntry (level : Int) (t : Time) : Entry where
  Level := level
  Time := t
  LoggerName := []
  Message := str "hello"
  Caller := { Defined := false, File := [], Line := 0, Function := [] }
  Stack := []

/-- The encoder with its buffer replaced by `b`. -/
def HumanEncoder.withBuf (h : HumanEncoder) (b : Bytes) : HumanEncoder := { h with buf := b }

/-- The buffer is empty or its last byte is a newline. -/
def Tail (b : Bytes) : Prop := b = [] ∨ b.getLast? = some NL

instance (b : Bytes) : Decidable (Tail b) := by
  unfold Tail
  infer_instance

/-- A configuration with a level callback, a caller callback and both keys
set. -/
def fullConfig : EncoderConfig where
  LineEnding := []
  SkipLineEnding := false
  FunctionKey := str "func"
  StacktraceKey := str "stack"
  EncodeLevel := some (fun _ => [.string (str "INFO")])
  EncodeCaller := some (fun c => [.string c.File, .string (str ":"), .int c.Line])
  NewReflectedEncoder := none

/-- An entry with a logger name, a defined caller and a stack trace. -/
def fullEntry : Entry where
  Level := 0
  Time := epoch
  LoggerName := str "app"
  Message := str "hello"
  Caller := { Defined := true, File := str "main.go", Line := 7, Function := str "main.run" }
  Stack := str "main.run\n\tmain.go:7"

/-- A configuration whose line ending is set to carriage return, line
feed. -/
def crlfConfig : EncoderConfig where
  LineEnding := str "\r\n"
  SkipLineEnding := false
  FunctionKey := []
  StacktraceKey := []
  EncodeLevel := none
  EncodeCaller := none
  NewReflectedEncoder := none

/-- The number of sign characters, plus or minus, a text starts with. -/
def leadingSigns : Bytes → Nat
  | [] => 0
  | c :: cs => if c = 43 ∨ c = 45 then leadingSigns cs + 1 else 0

/-- The float 1. -/
def floatOne : GoFloat := .fin false 1 0

/-- The float 2. -/
def floatTwo : GoFloat := .fin false 1 1

/-- The float -2. -/
def floatMinusTwo : GoFloat := .fin true 1 1

/-- The float 1.5. -/
def floatThreeHalves : GoFloat := .fin false 3 (-1)

/-- The byte is a decimal digit. -/
def isDigit (c : Nat) : Bool := 48 ≤ c && c ≤ 57

/-- Reading of a run of decimal digits, most significant first, onto an
accumulator; `none` at a byte that is not a digit. -/
def parseDigits : Bytes → Nat → Option Nat
  | [], acc => some acc
  | c :: cs, acc => if isDigit c then parseDigits cs (acc * 10 + (c - 48)) else none

/-- Reading of an unsigned decimal integer: one digit at least. -/
def parseUint (s : Bytes) : Option Nat :=
  match s with
  | [] => none
  | _ :: _ => parseDigits s 0

/-- Reading of a signed decimal integer: an optional minus sign, then one
digit at least. -/
def parseInt (s : Bytes) : Option Int :=
  match s with
  | 45 :: ds => (parseUint ds).map (fun n => -(n : Int))
  | _ => (parseUint s).map (fun n => (n : Int))

/-- Canonical digits: not empty, digits only, and a leading zero only in
the text `0`. -/
def canonicalDigits (ds : Bytes) : Bool :=
  !ds.isEmpty && ds.all isDigit && (ds.head? != some 48 || ds == [48])

/-- Canonical decimal text: canonical digits, with a minus sign in front
only for a value below zero. -/
def canonicalDecimal (s : Bytes) : Bool :=
  match s with
  | 45 :: ds => canonicalDigits ds && ds != [48]
  | _ => canonicalDigits s

/-- The indent at namespace depth `n`: the fixed leader, 38 spaces and a
tab, then two spaces per open namespace. -/
def indent (n : Nat) : Bytes :=
  str "                                      \t" ++ stringsRepeat (str "  ") n

/-- Twenty bytes, the ASCII characters from the full stop to the letter A. -/
def twentyBytes : Bytes := str "./0123456789:;<=>?@A"

/-- The first line of the hex dump of `twentyBytes`. -/
def dumpLine1 : Bytes :=
  str "00000000  2e 2f 30 31 32 33 34 35  36 37 38 39 3a 3b 3c 3d  |./0123456789:;<=|"

/-- The second line of the hex dump of `twentyBytes`. -/
def dumpLine2 : Bytes :=
  str "00000010  3e 3f 40 41                                       |>?@A|"

/-- The error an object marshaler returns: the one its run ends with. -/
def ObjProg.result : ObjProg → Option Error
  | .ret err => err
  | .call _ rest => rest.result

/-- The error an array marshaler returns: the one its run ends with. -/
def ArrProg.result : ArrProg → Option Error
  | .ret err => err
  | .call _ rest => rest.result

/-- The encoder state a nested object marshaler starts from, but for the
buffer: an empty buffer and the namespace depth reset to 0. -/
def HumanEncoder.nested (h : HumanEncoder) : HumanEncoder :=
  { h with buf := [], openNamespaces := 0 }

/-- A configuration whose reflected encoder writes a few bytes and then
fails for every value. -/
def failingReflectConfig : EncoderConfig where
  LineEnding := []
  SkipLineEnding := false
  FunctionKey := []
  StacktraceKey := []
  EncodeLevel := none
  EncodeCaller := none
  NewReflectedEncoder := some (fun _ => (str "\x7b\"a\":", some (str "unsupported type")))

/-- The struct of a live encoder whose configuration is at address `cp`. -/
def Cell.live (cp : Nat) (e : HumanEncoder) : Cell :=
  { EncoderConfig := some cp, buf := some e.buf, openNamespaces := e.openNamespaces,
    side := e.side }

/-- The memory with the live encoder `e` at address `a`. -/
def Memory.withLive (m : Memory) (a cp : Nat) (e : HumanEncoder) : Memory :=
  { m with cell := Function.update m.cell a (Cell.live cp e) }

/-- The pool holds allocated addresses of released structs. -/
def Memory.WF (m : Memory) : Prop := ∀ a ∈ m.pool, a < m.next ∧ m.cell a = Cell.zero

/-- The address `h` holds the base encoder `base`: it is allocated, it is
not in the pool, and the pointer gives access to `base`. -/
def Memory.Base (m : Memory) (h : Nat) (base : HumanEncoder) : Prop :=
  h < m.next ∧ h ∉ m.pool ∧ m.load h = some base


/-- A memory with nothing allocated. -/
def startMemory : Memory where
  config := fun _ => (newHumanEncoder sampleExt plainConfig).EncoderConfig
  cell := fun _ => Cell.zero
  pool := []
  next := 0

/-- The key a call of an `ObjectEncoder` method is made with. -/
def ObjCall.key : ObjCall → Bytes
  | .addArray key _ => key
  | .addObject key _ => key
  | .addBinary key _ => key
  | .addPrim key _ => key
  | .addDuration key _ => key
  | .addTime key _ => key
  | .addReflected key _ => key
  | .openNamespace key => key

/-- An array marshaler that appends the given `int64` values in order and
returns no error. -/
def int64Array : List Int → ArrProg
  | [] => .ret none
  | a :: rest => .call (.appendPrim (.int64 a)) (int64Array rest)

/-- The decimal texts of the values, one after the other. -/
def concatDecimal : List Int → Bytes
  | [] => []
  | a :: rest => fmtInt a ++ concatDecimal rest

/-- The string `strings.TrimRightFunc` returns once `lastIndexFunc` has answered `o`. -/
def trimResult (s : Bytes) (o : Option Nat) : Bytes :=
  match o with
  | some i =>
    if s.getD i 0 ≥ RuneSelf then s.take (i + (DecodeRuneInString (s.drop i)).2)
    else s.take (i + 1)
  | none => s.take 0

/-- Right trimming as the specification words it: as long as the last rune of the string is
white space, that rune is removed. -/
def dropTrailingSpace : Nat → Bytes → Bytes
  | 0, s => s
  | fuel + 1, s =>
    if s = [] then s
    else if unicodeIsSpace (DecodeLastRuneInString s).1 = true then
      dropTrailingSpace fuel (s.take (s.length - (DecodeLastRuneInString s).2))
    else s

/-- The specification of `trimRightSpace`: every trailing white-space rune removed. A string of
`n` bytes holds at most `n` runes. -/
def trimRightReference (s : Bytes) : Bytes := dropTrailingSpace s.length s

/-! # Theorems -/

namespace HumanEncoder

/-! ## The buffer is append-only: a prefix of the buffer passes through every method -/

@[simp]
theorem prepend_buf (pre : Bytes) (h : HumanEncoder) : (h.prepend pre).buf = pre ++ h.buf := rfl
@[simp]
theorem prepend_openNamespaces (pre : Bytes) (h : HumanEncoder) :
    (h.prepend pre).openNamespaces = h.openNamespaces := rfl
@[simp]
theorem prepend_side (pre : Bytes) (h : HumanEncoder) : (h.prepend pre).side = h.side := rfl
@[simp]
theorem prepend_config (pre : Bytes) (h : HumanEncoder) :
    (h.prepend pre).EncoderConfig = h.EncoderConfig := rfl
@[simp]
theorem ident_prepend (pre : Bytes) (h : HumanEncoder) : (h.prepend pre).ident = h.ident := rfl

theorem writeString_prepend (pre : Bytes) (h : HumanEncoder) (s : Bytes) :
    (h.prepend pre).writeString s = (h.writeString s).prepend pre := by
  simp [writeString, prepend]

theorem appendByte_prepend (pre : Bytes) (h : HumanEncoder) (b : Nat) :
    (h.prepend pre).appendByte b = (h.appendByte b).prepend pre := by
  simp [appendByte, prepend]

theorem writeStringf_prepend (pre : Bytes) (h : HumanEncoder) (f : List FmtSeg) (a : FmtArg) :
    (h.prepend pre).writeStringf f a = (h.writeStringf f a).prepend pre := by
  simp [writeStringf, writeString_prepend]

theorem addKey_prepend (pre : Bytes) (h : HumanEncoder) (k : Bytes) :
    (h.prepend pre).addKey k = (h.addKey k).prepend pre := by
  simp [addKey, writeString_prepend]

theorem appendPrim_prepend (ext : Ext) (pre : Bytes) (h : HumanEncoder) (v : PrimVal) :
    (h.prepend pre).appendPrim ext v = (h.appendPrim ext v).prepend pre := by
  cases v <;> simp [HumanEncoder.ext_iff, appendPrim, AppendBool, AppendByteString, AppendComplex128, AppendComplex64,
    appendComplex, AppendFloat64, AppendFloat32, appendFloat, AppendInt, AppendInt64, AppendInt32,
    AppendInt16, AppendInt8, AppendString, AppendUint, AppendUint64, AppendUint32, AppendUint16,
    AppendUint8, AppendUintptr, writeString, writeStringf, appendByte, bufAppendFloat, ident] <;> split_ifs <;> simp

theorem AddString_prepend (pre : Bytes) (h : HumanEncoder) (k v : Bytes) :
    (h.prepend pre).AddString k v = (h.AddString k v).prepend pre := by
  simp only [AddString, addKey_prepend]
  split_ifs <;> simp [HumanEncoder.ext_iff, writeString, writeStringf, ident]

theorem AddBinary_prepend (pre : Bytes) (h : HumanEncoder) (k v : Bytes) :
    (h.prepend pre).AddBinary k v = (h.AddBinary k v).prepend pre := by
  simp [HumanEncoder.ext_iff, AddBinary, addKey, writeString, appendByte, ident]

theorem addPrim_prepend (ext : Ext) (pre : Bytes) (h : HumanEncoder) (k : Bytes) (v : PrimVal) :
    (h.prepend pre).addPrim ext k v = (h.addPrim ext k v).prepend pre := by
  cases v <;> simp [HumanEncoder.ext_iff, addPrim, AddBool, AppendBool, AddByteString, AddBinary_prepend, AddComplex128, AddComplex64,
    appendComplex, AddFloat64, AddFloat32, appendFloat, AddInt, AddInt64, AddInt32,
    AddInt16, AddInt8, AddString_prepend, AddUint, AddUint64, AddUint32, AddUint16,
    AddUint8, AddUintptr, addKey, writeString, writeStringf, appendByte, bufAppendFloat, ident] <;> split_ifs <;> simp

theorem encodeReflected_prepend (pre : Bytes) (h : HumanEncoder) (v : Reflected) :
    (h.prepend pre).encodeReflected v
      = ((h.encodeReflected v).1.prepend pre, (h.encodeReflected v).2) := by
  cases v with
  | none => simp [encodeReflected]
  | some n =>
    simp only [encodeReflected, resetReflectBuf, prepend_side, prepend_config]
    split <;> rfl

theorem AddReflected_prepend (pre : Bytes) (h : HumanEncoder) (k : Bytes) (v : Reflected) :
    (h.prepend pre).AddReflected k v
      = ((h.AddReflected k v).1.prepend pre, (h.AddReflected k v).2) := by
  simp only [AddReflected, encodeReflected_prepend]
  rcases h.encodeReflected v with ⟨h1, b, _ | e⟩ <;>
    simp [addKey_prepend, writeString_prepend]

theorem AppendReflected_prepend (pre : Bytes) (h : HumanEncoder) (v : Reflected) :
    (h.prepend pre).AppendReflected v
      = ((h.AppendReflected v).1.prepend pre, (h.AppendReflected v).2) := by
  simp only [AppendReflected, encodeReflected_prepend]
  rcases h.encodeReflected v with ⟨h1, b, _ | e⟩ <;>
    simp [addKey_prepend, writeString_prepend]

end HumanEncoder

mutual
theorem objCall_run_prepend (ext : Ext) (pre : Bytes) :
    ∀ (c : ObjCall) (h : HumanEncoder),
      c.run ext (h.prepend pre) = ((c.run ext h).1.prepend pre, (c.run ext h).2)
  | .addArray key m, h => by
    simp only [ObjCall.run, HumanEncoder.addKey_prepend, HumanEncoder.writeString_prepend]
    rw [arrProg_run_prepend ext pre m]
    simp [HumanEncoder.writeString_prepend]
  | .addObject key m, h => by
    simp only [ObjCall.run, HumanEncoder.addKey_prepend]
    have := objProg_run_prepend ext pre m (({ h.addKey key with openNamespaces := 0 } : HumanEncoder).appendByte 123)
    simp only [HumanEncoder.ext_iff, HumanEncoder.prepend, HumanEncoder.appendByte, HumanEncoder.writeString, Prod.ext_iff] at this ⊢
    simp [this]
  | .addBinary key value, h => by simp [ObjCall.run, HumanEncoder.AddBinary_prepend]
  | .addPrim key value, h => by simp [ObjCall.run, HumanEncoder.addPrim_prepend]
  | .addDuration key value, h => by
    simp [ObjCall.run, HumanEncoder.AddDuration, HumanEncoder.addKey_prepend,
      HumanEncoder.writeString_prepend, HumanEncoder.appendByte_prepend]
  | .addTime key value, h => by
    simp [ObjCall.run, HumanEncoder.AddTime, HumanEncoder.addKey_prepend,
      HumanEncoder.writeStringf_prepend]
  | .addReflected key value, h => by simp [ObjCall.run, HumanEncoder.AddReflected_prepend]
  | .openNamespace key, h => by
    simp [ObjCall.run, HumanEncoder.ext_iff, HumanEncoder.OpenNamespace, HumanEncoder.addKey,
      HumanEncoder.writeString, HumanEncoder.appendByte, HumanEncoder.ident]
theorem objProg_run_prepend (ext : Ext) (pre : Bytes) :
    ∀ (m : ObjProg) (h : HumanEncoder),
      m.run ext (h.prepend pre) = ((m.run ext h).1.prepend pre, (m.run ext h).2)
  | .ret err, h => by simp [ObjProg.run]
  | .call c rest, h => by
    simp only [ObjProg.run]
    rw [objCall_run_prepend ext pre c h, objProg_run_prepend ext pre rest]
theorem arrCall_run_prepend (ext : Ext) (pre : Bytes) :
    ∀ (c : ArrCall) (h : HumanEncoder),
      c.run ext (h.prepend pre) = ((c.run ext h).1.prepend pre, (c.run ext h).2)
  | .appendArray m, h => by
    simp only [ArrCall.run, HumanEncoder.writeString_prepend]
    rw [arrProg_run_prepend ext pre m]
    simp [HumanEncoder.writeString_prepend]
  | .appendObject m, h => by
    simp only [ArrCall.run]
    have := objProg_run_prepend ext pre m (({ h with openNamespaces := 0 } : HumanEncoder).appendByte 123)
    simp only [HumanEncoder.ext_iff, HumanEncoder.prepend, HumanEncoder.appendByte, HumanEncoder.writeString, Prod.ext_iff] at this ⊢
    simp [this]
  | .appendPrim value, h => by simp [ArrCall.run, HumanEncoder.appendPrim_prepend]
  | .appendDuration value, h => by
    simp [ArrCall.run, HumanEncoder.AppendDuration, HumanEncoder.writeString_prepend]
  | .appendTime value, h => by
    simp [ArrCall.run, HumanEncoder.AppendTime, HumanEncoder.writeStringf_prepend]
  | .appendReflected value, h => by simp [ArrCall.run, HumanEncoder.AppendReflected_prepend]
  | .objectEncoder c, h => by
    simp only [ArrCall.run]
    exact objCall_run_prepend ext pre c h
theorem arrProg_run_prepend (ext : Ext) (pre : Bytes) :
    ∀ (m : ArrProg) (h : HumanEncoder),
      m.run ext (h.prepend pre) = ((m.run ext h).1.prepend pre, (m.run ext h).2)
  | .ret err, h => by simp [ArrProg.run]
  | .call c rest, h => by
    simp only [ArrProg.run]
    rw [arrCall_run_prepend ext pre c h, arrProg_run_prepend ext pre rest]
end

/-! ## The configuration is never written -/

namespace HumanEncoder

theorem appendPrim_config (ext : Ext) (h : HumanEncoder) (v : PrimVal) :
    (h.appendPrim ext v).EncoderConfig = h.EncoderConfig := by
  cases v <;> simp [appendPrim, AppendBool, AppendByteString, AppendComplex128, AppendComplex64,
    appendComplex, AppendFloat64, AppendFloat32, appendFloat, AppendInt, AppendInt64, AppendInt32,
    AppendInt16, AppendInt8, AppendString, AppendUint, AppendUint64, AppendUint32, AppendUint16,
    AppendUint8, AppendUintptr, writeString, writeStringf, appendByte, bufAppendFloat] <;>
    split_ifs <;> simp

theorem appendPrim_openNamespaces (ext : Ext) (h : HumanEncoder) (v : PrimVal) :
    (h.appendPrim ext v).openNamespaces = h.openNamespaces := by
  cases v <;> simp [appendPrim, AppendBool, AppendByteString, AppendComplex128, AppendComplex64,
    appendComplex, AppendFloat64, AppendFloat32, appendFloat, AppendInt, AppendInt64, AppendInt32,
    AppendInt16, AppendInt8, AppendString, AppendUint, AppendUint64, AppendUint32, AppendUint16,
    AppendUint8, AppendUintptr, writeString, writeStringf, appendByte, bufAppendFloat] <;>
    split_ifs <;> simp

theorem AddString_config (h : HumanEncoder) (k v : Bytes) :
    (h.AddString k v).EncoderConfig = h.EncoderConfig := by
  simp only [AddString]; split_ifs <;> simp [addKey, writeString, writeStringf]

theorem AddString_openNamespaces (h : HumanEncoder) (k v : Bytes) :
    (h.AddString k v).openNamespaces = h.openNamespaces := by
  simp only [AddString]; split_ifs <;> simp [addKey, writeString, writeStringf]

theorem AddBinary_config (h : HumanEncoder) (k v : Bytes) :
    (h.AddBinary k v).EncoderConfig = h.EncoderConfig := by
  simp [AddBinary, addKey, writeString, appendByte]

theorem AddBinary_openNamespaces (h : HumanEncoder) (k v : Bytes) :
    (h.AddBinary k v).openNamespaces = h.openNamespaces := by
  simp [AddBinary, addKey, writeString, appendByte]

theorem addPrim_config (ext : Ext) (h : HumanEncoder) (k : Bytes) (v : PrimVal) :
    (h.addPrim ext k v).EncoderConfig = h.EncoderConfig := by
  cases v <;> simp [addPrim, AddBool, AppendBool, AddByteString, AddBinary_config, AddComplex128,
    AddComplex64, appendComplex, AddFloat64, AddFloat32, appendFloat, AddInt, AddInt64, AddInt32,
    AddInt16, AddInt8, AddString_config, AddUint, AddUint64, AddUint32, AddUint16,
    AddUint8, AddUintptr, addKey, writeString, writeStringf, appendByte, bufAppendFloat] <;>
    split_ifs <;> simp

theorem addPrim_openNamespaces (ext : Ext) (h : HumanEncoder) (k : Bytes) (v : PrimVal) :
    (h.addPrim ext k v).openNamespaces = h.openNamespaces := by
  cases v <;> simp [addPrim, AddBool, AppendBool, AddByteString, AddBinary_openNamespaces,
    AddComplex128, AddComplex64, appendComplex, AddFloat64, AddFloat32, appendFloat, AddInt,
    AddInt64, AddInt32, AddInt16, AddInt8, AddString_openNamespaces, AddUint, AddUint64, AddUint32,
    AddUint16, AddUint8, AddUintptr, addKey, writeString, writeStringf, appendByte,
    bufAppendFloat] <;>
    split_ifs <;> simp

theorem encodeReflected_config (h : HumanEncoder) (v : Reflected) :
    (h.encodeReflected v).1.EncoderConfig = h.EncoderConfig := by
  cases v with
  | none => simp [encodeReflected]
  | some n => simp only [encodeReflected]; split <;> rfl

theorem encodeReflected_openNamespaces (h : HumanEncoder) (v : Reflected) :
    (h.encodeReflected v).1.openNamespaces = h.openNamespaces := by
  cases v with
  | none => simp [encodeReflected]
  | some n => simp only [encodeReflected]; split <;> rfl

theorem encodeReflected_buf (h : HumanEncoder) (v : Reflected) :
    (h.encodeReflected v).1.buf = h.buf := by
  cases v with
  | none => simp [encodeReflected]
  | some n => simp only [encodeReflected]; split <;> rfl

theorem AddReflected_config (h : HumanEncoder) (k : Bytes) (v : Reflected) :
    (h.AddReflected k v).1.EncoderConfig = h.EncoderConfig := by
  have := encodeReflected_config h v
  simp only [AddReflected]
  generalize h.encodeReflected v = r at this ⊢
  rcases r with ⟨h1, b, _ | e⟩ <;> simpa [addKey, writeString] using this

theorem AddReflected_openNamespaces (h : HumanEncoder) (k : Bytes) (v : Reflected) :
    (h.AddReflected k v).1.openNamespaces = h.openNamespaces := by
  have := encodeReflected_openNamespaces h v
  simp only [AddReflected]
  generalize h.encodeReflected v = r at this ⊢
  rcases r with ⟨h1, b, _ | e⟩ <;> simpa [addKey, writeString] using this

theorem AppendReflected_config (h : HumanEncoder) (v : Reflected) :
    (h.AppendReflected v).1.EncoderConfig = h.EncoderConfig := by
  have := encodeReflected_config h v
  simp only [AppendReflected]
  generalize h.encodeReflected v = r at this ⊢
  rcases r with ⟨h1, b, _ | e⟩ <;> simpa [writeString] using this

theorem AppendReflected_openNamespaces (h : HumanEncoder) (v : Reflected) :
    (h.AppendReflected v).1.openNamespaces = h.openNamespaces := by
  have := encodeReflected_openNamespaces h v
  simp only [AppendReflected]
  generalize h.encodeReflected v = r at this ⊢
  rcases r with ⟨h1, b, _ | e⟩ <;> simpa [writeString] using this

end HumanEncoder

mutual
theorem objCall_run_config (ext : Ext) :
    ∀ (c : ObjCall) (h : HumanEncoder), (c.run ext h).1.EncoderConfig = h.EncoderConfig
  | .addArray key m, h => by
    simp [ObjCall.run, HumanEncoder.writeString, arrProg_run_config ext m, HumanEncoder.addKey]
  | .addObject key m, h => by
    simp [ObjCall.run, HumanEncoder.writeString, objProg_run_config ext m, HumanEncoder.addKey,
      HumanEncoder.appendByte]
  | .addBinary key value, h => by simp [ObjCall.run, HumanEncoder.AddBinary_config]
  | .addPrim key value, h => by simp [ObjCall.run, HumanEncoder.addPrim_config]
  | .addDuration key value, h => by
    simp [ObjCall.run, HumanEncoder.AddDuration, HumanEncoder.addKey, HumanEncoder.writeString,
      HumanEncoder.appendByte]
  | .addTime key value, h => by
    simp [ObjCall.run, HumanEncoder.AddTime, HumanEncoder.addKey, HumanEncoder.writeString,
      HumanEncoder.writeStringf]
  | .addReflected key value, h => by simp [ObjCall.run, HumanEncoder.AddReflected_config]
  | .openNamespace key, h => by
    simp [ObjCall.run, HumanEncoder.OpenNamespace, HumanEncoder.addKey,
      HumanEncoder.writeString, HumanEncoder.appendByte]
theorem objProg_run_config (ext : Ext) :
    ∀ (m : ObjProg) (h : HumanEncoder), (m.run ext h).1.EncoderConfig = h.EncoderConfig
  | .ret err, h => by simp [ObjProg.run]
  | .call c rest, h => by
    simp only [ObjProg.run]
    rw [objProg_run_config ext rest, objCall_run_config ext c h]
theorem arrCall_run_config (ext : Ext) :
    ∀ (c : ArrCall) (h : HumanEncoder), (c.run ext h).1.EncoderConfig = h.EncoderConfig
  | .appendArray m, h => by
    simp [ArrCall.run, HumanEncoder.writeString, arrProg_run_config ext m]
  | .appendObject m, h => by
    simp [ArrCall.run, HumanEncoder.writeString, objProg_run_config ext m,
      HumanEncoder.appendByte]
  | .appendPrim value, h => by simp [ArrCall.run, HumanEncoder.appendPrim_config]
  | .appendDuration value, h => by
    simp [ArrCall.run, HumanEncoder.AppendDuration, HumanEncoder.writeString]
  | .appendTime value, h => by
    simp [ArrCall.run, HumanEncoder.AppendTime, HumanEncoder.writeString,
      HumanEncoder.writeStringf]
  | .appendReflected value, h => by simp [ArrCall.run, HumanEncoder.AppendReflected_config]
  | .objectEncoder c, h => by
    simp only [ArrCall.run]
    exact objCall_run_config ext c h
theorem arrProg_run_config (ext : Ext) :
    ∀ (m : ArrProg) (h : HumanEncoder), (m.run ext h).1.EncoderConfig = h.EncoderConfig
  | .ret err, h => by simp [ArrProg.run]
  | .call c rest, h => by
    simp only [ArrProg.run]
    rw [arrProg_run_config ext rest, arrCall_run_config ext c h]
end

/-! ## Namespace depth -/

mutual
theorem objCall_run_openNamespaces (ext : Ext) :
    ∀ (c : ObjCall) (h : HumanEncoder), c.noOpenNamespace = true →
      (c.run ext h).1.openNamespaces = h.openNamespaces
  | .addArray key m, h, hc => by
    simp only [ObjCall.noOpenNamespace] at hc
    simp [ObjCall.run, HumanEncoder.writeString, arrProg_run_openNamespaces ext m _ hc,
      HumanEncoder.addKey]
  | .addObject key m, h, _ => by
    simp [ObjCall.run, HumanEncoder.writeString, HumanEncoder.addKey]
  | .addBinary key value, h, _ => by simp [ObjCall.run, HumanEncoder.AddBinary_openNamespaces]
  | .addPrim key value, h, _ => by simp [ObjCall.run, HumanEncoder.addPrim_openNamespaces]
  | .addDuration key value, h, _ => by
    simp [ObjCall.run, HumanEncoder.AddDuration, HumanEncoder.addKey, HumanEncoder.writeString,
      HumanEncoder.appendByte]
  | .addTime key value, h, _ => by
    simp [ObjCall.run, HumanEncoder.AddTime, HumanEncoder.addKey, HumanEncoder.writeString,
      HumanEncoder.writeStringf]
  | .addReflected key value, h, _ => by
    simp [ObjCall.run, HumanEncoder.AddReflected_openNamespaces]
  | .openNamespace key, h, hc => by simp [ObjCall.noOpenNamespace] at hc
theorem arrCall_run_openNamespaces (ext : Ext) :
    ∀ (c : ArrCall) (h : HumanEncoder), c.noOpenNamespace = true →
      (c.run ext h).1.openNamespaces = h.openNamespaces
  | .appendArray m, h, hc => by
    simp only [ArrCall.noOpenNamespace] at hc
    simp [ArrCall.run, HumanEncoder.writeString, arrProg_run_openNamespaces ext m _ hc]
  | .appendObject m, h, _ => by simp [ArrCall.run]
  | .appendPrim value, h, _ => by simp [ArrCall.run, HumanEncoder.appendPrim_openNamespaces]
  | .appendDuration value, h, _ => by
    simp [ArrCall.run, HumanEncoder.AppendDuration, HumanEncoder.writeString]
  | .appendTime value, h, _ => by
    simp [ArrCall.run, HumanEncoder.AppendTime, HumanEncoder.writeString,
      HumanEncoder.writeStringf]
  | .appendReflected value, h, _ => by
    simp [ArrCall.run, HumanEncoder.AppendReflected_openNamespaces]
  | .objectEncoder c, h, hc => by
    simp only [ArrCall.noOpenNamespace] at hc
    simp only [ArrCall.run]
    exact objCall_run_openNamespaces ext c h hc
theorem arrProg_run_openNamespaces (ext : Ext) :
    ∀ (m : ArrProg) (h : HumanEncoder), m.noOpenNamespace = true →
      (m.run ext h).1.openNamespaces = h.openNamespaces
  | .ret err, h, _ => by simp [ArrProg.run]
  | .call c rest, h, hm => by
    simp only [ArrProg.noOpenNamespace, Bool.and_eq_true] at hm
    simp only [ArrProg.run]
    rw [arrProg_run_openNamespaces ext rest _ hm.2, arrCall_run_openNamespaces ext c h hm.1]
end

/-! ## Fields -/

theorem field_AddTo_config (ext : Ext) (f : Field) (h : HumanEncoder) :
    (f.AddTo ext h).EncoderConfig = h.EncoderConfig := by
  have key : ∀ r : HumanEncoder × Option Error, r.1.EncoderConfig = h.EncoderConfig →
      (match r.2 with
        | some err => r.1.AddString (f.Key ++ str "Error") err
        | none => r.1).EncoderConfig = h.EncoderConfig := by
    rintro ⟨h1, _ | e⟩ hr <;> simpa [HumanEncoder.AddString_config] using hr
  cases f <;> simp only [Field.AddTo] <;> (try apply key) <;>
    simp [HumanEncoder.AddArray, HumanEncoder.AddObject, objCall_run_config, objProg_run_config,
      HumanEncoder.AddBinary_config, HumanEncoder.addPrim_config, HumanEncoder.AddReflected_config,
      HumanEncoder.AddDuration, HumanEncoder.AddTime, HumanEncoder.OpenNamespace,
      HumanEncoder.addKey, HumanEncoder.writeString, HumanEncoder.writeStringf,
      HumanEncoder.appendByte]

theorem addFields_config (ext : Ext) (fields : List Field) :
    ∀ h : HumanEncoder, (addFields ext h fields).EncoderConfig = h.EncoderConfig := by
  induction fields with
  | nil => intro h; rfl
  | cons f fs ih => intro h; simp [addFields, ih, field_AddTo_config]

theorem field_AddTo_openNamespaces (ext : Ext) (f : Field) (h : HumanEncoder)
    (hf : f.noOpenNamespace = true) : (f.AddTo ext h).openNamespaces = h.openNamespaces := by
  have key : ∀ r : HumanEncoder × Option Error, r.1.openNamespaces = h.openNamespaces →
      (match r.2 with
        | some err => r.1.AddString (f.Key ++ str "Error") err
        | none => r.1).openNamespaces = h.openNamespaces := by
    rintro ⟨h1, _ | e⟩ hr <;> simpa [HumanEncoder.AddString_openNamespaces] using hr
  cases f with
  | arrayMarshaler k m =>
    simp only [Field.AddTo]
    apply key
    exact objCall_run_openNamespaces ext (.addArray k m) h hf
  | objectMarshaler k m =>
    simp only [Field.AddTo]
    apply key
    exact objCall_run_openNamespaces ext (.addObject k m) h rfl
  | inlineMarshaler k m => simp [Field.noOpenNamespace] at hf
  | binary k v =>
    simp only [Field.AddTo]
    exact HumanEncoder.AddBinary_openNamespaces h k v
  | prim k v =>
    simp only [Field.AddTo]
    exact HumanEncoder.addPrim_openNamespaces ext h k v
  | duration k v =>
    simp only [Field.AddTo]
    exact objCall_run_openNamespaces ext (.addDuration k v) h rfl
  | time k v =>
    simp only [Field.AddTo]
    exact objCall_run_openNamespaces ext (.addTime k v) h rfl
  | reflect k v =>
    simp only [Field.AddTo]
    apply key
    exact HumanEncoder.AddReflected_openNamespaces h k v
  | nspace k => simp [Field.noOpenNamespace] at hf
  | skip => rfl

theorem arrProg_run_fresh_openNamespaces (ext : Ext) (m : ArrProg) (h : HumanEncoder) :
    (m.run ext h).1.openNamespaces = (m.run ext h.fresh).1.openNamespaces := by
  have e : h.fresh.prepend h.buf = h := by
    simp [HumanEncoder.ext_iff, HumanEncoder.fresh, HumanEncoder.prepend]
  have := arrProg_run_prepend ext h.buf m h.fresh
  rw [e] at this
  rw [this]
  rfl

theorem addArray_openNamespaces (ext : Ext) (h : HumanEncoder) (key : Bytes) (m : ArrProg) :
    (h.AddArray ext key m).1.openNamespaces = (m.run ext h.fresh).1.openNamespaces := by
  simp only [HumanEncoder.AddArray, ObjCall.run, HumanEncoder.writeString]
  rw [arrProg_run_fresh_openNamespaces]
  rfl

theorem appendArray_openNamespaces (ext : Ext) (h : HumanEncoder) (m : ArrProg) :
    (h.AppendArray ext m).1.openNamespaces = (m.run ext h.fresh).1.openNamespaces := by
  simp only [HumanEncoder.AppendArray, ArrCall.run, HumanEncoder.writeString]
  rw [arrProg_run_fresh_openNamespaces]
  rfl

theorem addFields_openNamespaces (ext : Ext) (fields : List Field) :
    ∀ h : HumanEncoder, (∀ f ∈ fields, f.noOpenNamespace = true) →
      (addFields ext h fields).openNamespaces = h.openNamespaces := by
  induction fields with
  | nil => intro h _; rfl
  | cons f fs ih =>
    intro h hf
    have hfs : ∀ g ∈ fs, g.noOpenNamespace = true :=
      fun g hg => hf g (List.mem_cons_of_mem f hg)
    simp only [addFields]
    rw [ih _ hfs, field_AddTo_openNamespaces ext f h (hf f (List.mem_cons_self f fs))]

/-- C4, the code on an array marshaler that opens a namespace: at depth 1,
`AddArray` and `AppendArray` with a marshaler that asserts the type of its
encoder and calls `OpenNamespace` on it return at depth 2. They neither
save nor restore the depth and leave it where the marshaler leaves it,
whereas `AddObject` and `AppendObject` restore it whatever their marshaler
does and whether it fails or not. Everywhere else the depth is balanced:
every `ObjectEncoder` call but `OpenNamespace` and every call of an array
marshaler leaves `openNamespaces` as it found it, provided the array
marshalers involved do not reach `OpenNamespace`, and so does every list of
fields added through such `Add` methods, the sample fields after two open
namespaces among them. -/
theorem C4_array_depth_not_restored (ext : Ext) (h : HumanEncoder) (fields : List Field) :
    (((newHumanEncoder sampleExt plainConfig).OpenNamespace (str "p")).openNamespaces = 1
      ∧ (((newHumanEncoder sampleExt plainConfig).OpenNamespace (str "p")).AddArray sampleExt
          (str "a") escapingArray).1.openNamespaces = 2
      ∧ (((newHumanEncoder sampleExt plainConfig).OpenNamespace (str "p")).AppendArray sampleExt
          escapingArray).1.openNamespaces = 2)
    ∧ (∀ (key : Bytes) (m : ArrProg),
        (h.AddArray ext key m).1.openNamespaces = (m.run ext h.fresh).1.openNamespaces
        ∧ (h.AppendArray ext m).1.openNamespaces = (m.run ext h.fresh).1.openNamespaces)
    ∧ (∀ (key : Bytes) (m : ObjProg),
        (h.AddObject ext key m).1.openNamespaces = h.openNamespaces
        ∧ (h.AppendObject ext m).1.openNamespaces = h.openNamespaces)
    ∧ (∀ c : ObjCall, c.noOpenNamespace = true →
        (c.run ext h).1.openNamespaces = h.openNamespaces)
    ∧ (∀ c : ArrCall, c.noOpenNamespace = true →
        (c.run ext h).1.openNamespaces = h.openNamespaces)
    ∧ (∀ m : ArrProg, m.noOpenNamespace = true →
        (m.run ext h).1.openNamespaces = h.openNamespaces)
    ∧ ((∀ f ∈ fields, f.noOpenNamespace = true) →
        (addFields ext h fields).openNamespaces = h.openNamespaces)
    ∧ (addFields sampleExt
        (((newHumanEncoder sampleExt plainConfig).OpenNamespace (str "p")).OpenNamespace (str "q"))
        sampleFields).openNamespaces = 2 :=
  ⟨by decide,
    fun key m => ⟨addArray_openNamespaces ext h key m, appendArray_openNamespaces ext h m⟩,
    fun key m => ⟨objCall_run_openNamespaces ext (.addObject key m) h rfl,
      arrCall_run_openNamespaces ext (.appendObject m) h rfl⟩,
    fun c hc => objCall_run_openNamespaces ext c h hc,
    fun c hc => arrCall_run_openNamespaces ext c h hc,
    fun m hm => arrProg_run_openNamespaces ext m h hm,
    fun hf => addFields_openNamespaces ext fields h hf,
    addFields_openNamespaces sampleExt sampleFields _ (by decide)⟩


/-! ## What a method appends does not depend on what the buffer holds -/

namespace HumanEncoder

theorem prepend_fresh (h : HumanEncoder) : h.fresh.prepend h.buf = h := by
  simp [HumanEncoder.ext_iff, fresh, prepend]

@[simp]
theorem fresh_buf (h : HumanEncoder) : h.fresh.buf = [] := rfl

@[simp]
theorem fresh_config (h : HumanEncoder) : h.fresh.EncoderConfig = h.EncoderConfig := rfl

@[simp]
theorem fresh_openNamespaces (h : HumanEncoder) : h.fresh.openNamespaces = h.openNamespaces := rfl

@[simp]
theorem fresh_side (h : HumanEncoder) : h.fresh.side = h.side := rfl

theorem appendPrims_prepend (ext : Ext) (pre : Bytes) (vs : List PrimVal) :
    ∀ h : HumanEncoder, (h.prepend pre).appendPrims ext vs = (h.appendPrims ext vs).prepend pre := by
  induction vs with
  | nil => intro h; rfl
  | cons v vs ih => intro h; simp [appendPrims, appendPrim_prepend, ih]

theorem appendPrim_side (ext : Ext) (h : HumanEncoder) (v : PrimVal) :
    (h.appendPrim ext v).side = h.side := by
  cases v <;> simp [appendPrim, AppendBool, AppendByteString, AppendComplex128, AppendComplex64,
    appendComplex, AppendFloat64, AppendFloat32, appendFloat, AppendInt, AppendInt64, AppendInt32,
    AppendInt16, AppendInt8, AppendString, AppendUint, AppendUint64, AppendUint32, AppendUint16,
    AppendUint8, AppendUintptr, writeString, writeStringf, appendByte, bufAppendFloat] <;>
    split_ifs <;> simp

theorem appendPrims_frame (ext : Ext) (vs : List PrimVal) :
    ∀ h : HumanEncoder, (h.appendPrims ext vs).EncoderConfig = h.EncoderConfig
      ∧ (h.appendPrims ext vs).openNamespaces = h.openNamespaces
      ∧ (h.appendPrims ext vs).side = h.side := by
  induction vs with
  | nil => intro h; exact ⟨rfl, rfl, rfl⟩
  | cons v vs ih =>
    intro h
    simp only [appendPrims]
    obtain ⟨h1, h2, h3⟩ := ih (h.appendPrim ext v)
    exact ⟨h1.trans (appendPrim_config ext h v), h2.trans (appendPrim_openNamespaces ext h v),
      h3.trans (appendPrim_side ext h v)⟩

/-- A callback only appends its text. -/
theorem appendPrims_eq (ext : Ext) (vs : List PrimVal) (h : HumanEncoder) :
    h.appendPrims ext vs = { h with buf := h.buf ++ (h.fresh.appendPrims ext vs).buf } := by
  have h1 := appendPrims_prepend ext h.buf vs h.fresh
  rw [prepend_fresh] at h1
  obtain ⟨c1, c2, c3⟩ := appendPrims_frame ext vs h.fresh
  rw [h1]
  simp [HumanEncoder.ext_iff, prepend, c1, c2, c3]

end HumanEncoder

theorem field_AddTo_prepend (ext : Ext) (pre : Bytes) (f : Field) (h : HumanEncoder) :
    f.AddTo ext (h.prepend pre) = (f.AddTo ext h).prepend pre := by
  have key : ∀ r : HumanEncoder × Option Error,
      (match (r.1.prepend pre, r.2).2 with
        | some err => (r.1.prepend pre, r.2).1.AddString (f.Key ++ str "Error") err
        | none => (r.1.prepend pre, r.2).1)
      = (match r.2 with
        | some err => r.1.AddString (f.Key ++ str "Error") err
        | none => r.1).prepend pre := by
    rintro ⟨h1, _ | e⟩ <;> simp [HumanEncoder.AddString_prepend]
  cases f <;> simp only [Field.AddTo, HumanEncoder.AddArray, HumanEncoder.AddObject,
    objCall_run_prepend, objProg_run_prepend, HumanEncoder.AddReflected_prepend, key]
  · simp [HumanEncoder.AddBinary_prepend]
  · simp [HumanEncoder.addPrim_prepend]
  · simp [HumanEncoder.AddDuration, HumanEncoder.addKey_prepend,
      HumanEncoder.writeString_prepend, HumanEncoder.appendByte_prepend]
  · simp [HumanEncoder.AddTime, HumanEncoder.addKey_prepend, HumanEncoder.writeStringf_prepend]
  · simp [HumanEncoder.ext_iff, HumanEncoder.OpenNamespace, HumanEncoder.addKey,
      HumanEncoder.writeString, HumanEncoder.appendByte, HumanEncoder.ident]

theorem addFields_prepend (ext : Ext) (pre : Bytes) (fields : List Field) :
    ∀ h : HumanEncoder, addFields ext (h.prepend pre) fields = (addFields ext h fields).prepend pre := by
  induction fields with
  | nil => intro h; rfl
  | cons f fs ih => intro h; simp [addFields, field_AddTo_prepend, ih]

/-- Fields only append their text. -/
theorem addFields_buf (ext : Ext) (fields : List Field) (h : HumanEncoder) :
    (addFields ext h fields).buf = h.buf ++ fieldsText ext h fields := by
  have h1 := addFields_prepend ext h.buf fields h.fresh
  rw [HumanEncoder.prepend_fresh] at h1
  rw [h1]; rfl

/-- Fields applied in list order: the text of a concatenated list is the
text of the first part followed by the text of the second part, written on
the state the first part leaves. -/
theorem fieldsText_append (ext : Ext) (fs gs : List Field) :
    ∀ c : HumanEncoder, fieldsText ext c (fs ++ gs)
      = fieldsText ext c fs ++ fieldsText ext (addFields ext c fs) gs := by
  induction fs with
  | nil => intro c; simp [fieldsText, addFields, HumanEncoder.fresh]
  | cons f fs ih =>
    intro c
    have e1 : ∀ l, fieldsText ext c (f :: l)
        = (f.AddTo ext c.fresh).buf ++ fieldsText ext (f.AddTo ext c.fresh) l := by
      intro l
      simp only [fieldsText, addFields]
      exact addFields_buf ext l _
    have e2 : (f.AddTo ext c).fresh = (f.AddTo ext c.fresh).fresh := by
      have := field_AddTo_prepend ext c.buf f c.fresh
      rw [HumanEncoder.prepend_fresh] at this
      rw [this]; rfl
    have e3 : ∀ (x y : HumanEncoder) (l : List Field), x.fresh = y.fresh →
        fieldsText ext x l = fieldsText ext y l := by
      intro x y l hxy; simp [fieldsText, hxy]
    have e4 : ∀ (x y : HumanEncoder) (l : List Field), x.fresh = y.fresh →
        (addFields ext x l).fresh = (addFields ext y l).fresh := by
      intro x y l hxy
      have hx := addFields_prepend ext x.buf l x.fresh
      have hy := addFields_prepend ext y.buf l y.fresh
      rw [HumanEncoder.prepend_fresh] at hx hy
      rw [hx, hy, hxy]; rfl
    rw [List.cons_append, e1, e1, ih, List.append_assoc]
    congr 2
    simp only [addFields]
    exact e3 _ _ _ (e4 _ _ _ e2.symm)


/-! ## The entry composer -/

namespace HumanEncoder

@[simp]
theorem withBuf_buf (h : HumanEncoder) (b : Bytes) : (h.withBuf b).buf = b := rfl

@[simp]
theorem withBuf_config (h : HumanEncoder) (b : Bytes) :
    (h.withBuf b).EncoderConfig = h.EncoderConfig := rfl

@[simp]
theorem withBuf_fresh (h : HumanEncoder) (b : Bytes) : (h.withBuf b).fresh = h.fresh := rfl

@[simp]
theorem withBuf_writeString (h : HumanEncoder) (b s : Bytes) :
    (h.withBuf b).writeString s = h.withBuf (b ++ s) := rfl

@[simp]
theorem withBuf_AppendString (h : HumanEncoder) (b s : Bytes) :
    (h.withBuf b).AppendString s = h.withBuf (b ++ s) := rfl

@[simp]
theorem withBuf_AppendTime (ext : Ext) (h : HumanEncoder) (b : Bytes) (t : Time) :
    (h.withBuf b).AppendTime ext t = h.withBuf (b ++ ext.formatRFC3339Nano t) := by
  simp [AppendTime, writeStringf, Sprintf, fmtVerb]

@[simp]
theorem withBuf_appendPrims (ext : Ext) (h : HumanEncoder) (b : Bytes) (vs : List PrimVal) :
    (h.withBuf b).appendPrims ext vs = h.withBuf (b ++ (h.fresh.appendPrims ext vs).buf) := by
  rw [appendPrims_eq]; rfl

theorem withBuf_eq_prepend (h : HumanEncoder) (hb : h.buf = []) (b : Bytes) :
    h.withBuf b = h.prepend b := by
  simp [HumanEncoder.ext_iff, withBuf, prepend, hb]

end HumanEncoder

/-- The state of `EncodeEntry` after the fields and the stack trace: what
was there before, the field text and the stack text. -/
theorem addFields_stack_buf (ext : Ext) (c : HumanEncoder) (hc : c.buf = []) (pre : Bytes)
    (ent : Entry) (fields : List Field) :
    (if ent.Stack ≠ [] ∧ (addFields ext (c.withBuf pre) fields).EncoderConfig.StacktraceKey ≠ [] then
        (addFields ext (c.withBuf pre) fields).AddString
          (addFields ext (c.withBuf pre) fields).EncoderConfig.StacktraceKey ent.Stack
      else addFields ext (c.withBuf pre) fields).buf
      = pre ++ fieldsText ext c fields ++ stackText (addFields ext c fields) ent := by
  have e1 : fieldsText ext c fields = (addFields ext c fields).buf := by
    rw [addFields_buf, hc, List.nil_append]
  rw [HumanEncoder.withBuf_eq_prepend c hc, addFields_prepend, e1]
  generalize addFields ext c fields = x
  simp only [stackText, HumanEncoder.prepend_config]
  split_ifs with hs
  · have := HumanEncoder.AddString_prepend x.buf x.fresh x.EncoderConfig.StacktraceKey ent.Stack
    rw [HumanEncoder.prepend_fresh] at this
    rw [HumanEncoder.AddString_prepend, this]
    simp [HumanEncoder.prepend]
  · simp [HumanEncoder.prepend]

theorem EncodeEntry_ret (ext : Ext) (h : HumanEncoder) (got : Pooled) (ent : Entry)
    (fields : List Field)
    (hc : ent.Caller.Defined = true → h.EncoderConfig.EncodeCaller.isSome = true) :
    ∃ r, h.EncodeEntry ext got ent fields = some r ∧
      r.ret = levelText ext (h.clone got) ent
        ++ ext.formatRFC3339Nano ent.Time ++ str " "
        ++ ent.LoggerName ++ str "\t"
        ++ callerText ext (h.clone got) ent
        ++ ent.Message ++ str "\n"
        ++ h.buf
        ++ fieldsText ext (h.clone got) fields
        ++ stackText (addFields ext (h.clone got) fields) ent
        ++ str "\n" := by
  have wif : ∀ x : HumanEncoder, (if h.buf.length > 0 then x.writeString h.buf else x)
      = x.writeString h.buf := by
    intro x
    split_ifs with hlen
    · rfl
    · have : h.buf = [] := List.eq_nil_of_length_eq_zero (by omega)
      simp [HumanEncoder.writeString, this]
  have hcfg : (h.clone got).EncoderConfig = h.EncoderConfig := rfl
  have hstart : h.clone got = (h.clone got).withBuf [] := rfl
  simp only [HumanEncoder.EncodeEntry, wif]
  rw [hstart]
  by_cases hfk : h.EncoderConfig.FunctionKey = [] <;>
  rcases hl : h.EncoderConfig.EncodeLevel with _ | encodeLevel <;>
  rcases hd : ent.Caller.Defined with _ | _ <;>
  rcases hcal : h.EncoderConfig.EncodeCaller with _ | encodeCaller <;>
  simp only [hl, hd, hcal, hcfg, hfk, HumanEncoder.withBuf_config, HumanEncoder.withBuf_fresh,
    HumanEncoder.withBuf_writeString, HumanEncoder.withBuf_AppendString,
    HumanEncoder.withBuf_AppendTime, HumanEncoder.withBuf_appendPrims, levelText, callerText,
    Bool.false_eq_true, if_false, if_true, ne_eq, not_true_eq_false, not_false_eq_true] <;>
  first
  | (simp [hd, hcal] at hc; done)
  | (refine ⟨_, rfl, ?_⟩
     refine (congrArg (· ++ str "\n")
       (addFields_stack_buf ext (h.clone got) rfl _ ent fields)).trans ?_
     simp only [List.append_assoc, List.nil_append]
     rfl)

theorem appendPrims_config (ext : Ext) (vs : List PrimVal) :
    ∀ h : HumanEncoder, (h.appendPrims ext vs).EncoderConfig = h.EncoderConfig := by
  induction vs with
  | nil => intro h; rfl
  | cons v vs ih =>
    intro h
    simp only [HumanEncoder.appendPrims]
    rw [ih, HumanEncoder.appendPrim_config]

theorem EncodeEntry_nil_caller (ext : Ext) (h : HumanEncoder) (got : Pooled) (ent : Entry)
    (fields : List Field) (hd : ent.Caller.Defined = true)
    (hcal : h.EncoderConfig.EncodeCaller = none) :
    h.EncodeEntry ext got ent fields = none := by
  have hcfg : ∀ x : HumanEncoder, x.EncoderConfig = h.EncoderConfig →
      x.EncoderConfig.EncodeCaller = none := fun x hx => by rw [hx, hcal]
  have e : (((((match (h.clone got).EncoderConfig.EncodeLevel with
      | some encodeLevel =>
        ((h.clone got).appendPrims ext (encodeLevel ent.Level)).writeString (str " ")
      | none => h.clone got).AppendTime ext ent.Time).writeString (str " ")).AppendString
        ent.LoggerName).writeString (str "\t")).EncoderConfig.EncodeCaller = none := by
    apply hcfg
    cases (h.clone got).EncoderConfig.EncodeLevel with
    | none => rfl
    | some f =>
      simp only [HumanEncoder.AppendTime, HumanEncoder.AppendString, HumanEncoder.writeStringf,
        HumanEncoder.writeString, appendPrims_config]
      rfl
  simp only [HumanEncoder.EncodeEntry, hd, if_true, e]


/-! ## Every `ObjectEncoder` call leaves the buffer at the start of a line -/

theorem tail_append (a b : Bytes) (ha : Tail a) (hb : Tail b) : Tail (a ++ b) := by
  rcases hb with hb | hb
  · simpa [hb] using ha
  · right; simp [List.getLast?_append, hb]

theorem tail_of_last (a : Bytes) : Tail (a ++ [NL]) := by
  right; simp

theorem getLast_cons_concat (a b : Nat) (x : Bytes) : (a :: (x ++ [b])).getLast? = some b := by
  rw [← List.cons_append]; exact List.getLast?_concat _

namespace HumanEncoder

theorem AddString_tail (h : HumanEncoder) (k v : Bytes) : (h.AddString k v).buf.getLast? = some NL := by
  simp only [AddString]
  split_ifs <;>
    simp [writeString, writeStringf, Sprintf, fmtVerb, List.getLast?_append, getLast_cons_concat]

theorem AddBinary_tail (h : HumanEncoder) (k v : Bytes) : (h.AddBinary k v).buf.getLast? = some NL := by
  simp [AddBinary, writeString, List.getLast?_append]

theorem addPrim_tail (ext : Ext) (h : HumanEncoder) (k : Bytes) (v : PrimVal) :
    (h.addPrim ext k v).buf.getLast? = some NL := by
  cases v <;> simp [addPrim, AddBool, AddByteString, AddBinary_tail, AddComplex128,
    AddComplex64, AddFloat64, AddFloat32, AddInt, AddInt64, AddInt32,
    AddInt16, AddInt8, AddString_tail, AddUint, AddUint64, AddUint32, AddUint16,
    AddUint8, AddUintptr, writeString, writeStringf, appendByte, Sprintf, fmtVerb,
    List.getLast?_append]

theorem AddReflected_tail (h : HumanEncoder) (k : Bytes) (v : Reflected) (ht : Tail h.buf) :
    Tail (h.AddReflected k v).1.buf := by
  have hb := encodeReflected_buf h v
  simp only [AddReflected]
  generalize h.encodeReflected v = r at hb ⊢
  rcases r with ⟨h1, b, _ | e⟩
  · right; simp [writeString, List.getLast?_append]
  · simp only at hb ⊢; rw [hb]; exact ht

end HumanEncoder

theorem objCall_run_tail (ext : Ext) (c : ObjCall) (h : HumanEncoder) (ht : Tail h.buf) :
    Tail (c.run ext h).1.buf := by
  cases c with
  | addReflected key value => exact HumanEncoder.AddReflected_tail h key value ht
  | addArray key m => right; simp [ObjCall.run, HumanEncoder.writeString, List.getLast?_append, str, strAux, utf8Encode]
  | addObject key m => right; simp [ObjCall.run, HumanEncoder.writeString, List.getLast?_append, str, strAux, utf8Encode]
  | addBinary key value => right; simp [ObjCall.run, HumanEncoder.AddBinary_tail]
  | addPrim key value => right; simp [ObjCall.run, HumanEncoder.addPrim_tail]
  | addDuration key value =>
    right; simp [ObjCall.run, HumanEncoder.AddDuration, HumanEncoder.appendByte]
  | addTime key value =>
    right; simp [ObjCall.run, HumanEncoder.AddTime, HumanEncoder.writeStringf,
      HumanEncoder.writeString, Sprintf, fmtVerb, List.getLast?_append]
  | openNamespace key => right; simp [ObjCall.run, HumanEncoder.OpenNamespace, HumanEncoder.appendByte]

theorem objProg_run_tail (ext : Ext) :
    ∀ (m : ObjProg) (h : HumanEncoder), Tail h.buf → Tail (m.run ext h).1.buf
  | .ret err, h, ht => by simpa [ObjProg.run] using ht
  | .call c rest, h, ht => by
    simp only [ObjProg.run]
    exact objProg_run_tail ext rest _ (objCall_run_tail ext c h ht)

theorem field_AddTo_tail (ext : Ext) (f : Field) (h : HumanEncoder) (ht : Tail h.buf) :
    Tail (f.AddTo ext h).buf := by
  have key : ∀ r : HumanEncoder × Option Error, Tail r.1.buf →
      Tail (match r.2 with
        | some err => r.1.AddString (f.Key ++ str "Error") err
        | none => r.1).buf := by
    rintro ⟨h1, _ | e⟩ hr
    · exact hr
    · right; exact HumanEncoder.AddString_tail _ _ _
  cases f with
  | arrayMarshaler k m => exact key _ (objCall_run_tail ext (.addArray k m) h ht)
  | objectMarshaler k m => exact key _ (objCall_run_tail ext (.addObject k m) h ht)
  | inlineMarshaler k m => exact key _ (objProg_run_tail ext m h ht)
  | binary k v => exact key (_, none) (objCall_run_tail ext (.addBinary k v) h ht)
  | prim k v => exact key (_, none) (objCall_run_tail ext (.addPrim k v) h ht)
  | duration k v => exact key (_, none) (objCall_run_tail ext (.addDuration k v) h ht)
  | time k v => exact key (_, none) (objCall_run_tail ext (.addTime k v) h ht)
  | reflect k v => exact key _ (objCall_run_tail ext (.addReflected k v) h ht)
  | nspace k => exact key (_, none) (objCall_run_tail ext (.openNamespace k) h ht)
  | skip => exact key (h, none) ht

theorem addFields_tail (ext : Ext) (fields : List Field) :
    ∀ h : HumanEncoder, Tail h.buf → Tail (addFields ext h fields).buf := by
  induction fields with
  | nil => intro h ht; exact ht
  | cons f fs ih => intro h ht; exact ih _ (field_AddTo_tail ext f h ht)


/-! ## C1 to C3: the rendered entry -/

/-- C1, the code at a defined caller without a caller callback: for every
base encoder, entry and field list, `EncodeEntry` calls the nil
`EncodeCaller` and returns nothing, while an absent level callback is
skipped; so it is for the entry with a caller on a configuration without
callbacks, where the entry without a caller renders. Whenever a caller
callback is configured or the caller is not defined, the call returns
exactly: the level text and a space (when a level callback is
configured), the RFC3339Nano timestamp, a space, the logger name, a tab,
the caller text (when the caller is defined: what the caller callback
writes, a tab, and the function name and a tab when `FunctionKey` is not
empty), the message, a newline, the context bytes of the base encoder, the
text of the fields applied in list order, the stack trace as a string field
under `StacktraceKey` (when both are non-empty), and one newline. The
scenario of the specification, message `hello` with the field `n = int64 5`
and no level callback, renders as timestamp, space, tab, `hello`, newline,
the field line `n: 5`, newline, newline. -/
theorem C1_EncodeEntry_nil_caller_callback (ext : Ext) (h : HumanEncoder) (got : Pooled)
    (ent : Entry) (fields : List Field) :
    (ent.Caller.Defined = true → h.EncoderConfig.EncodeCaller = none →
        h.EncodeEntry ext got ent fields = none)
    ∧ ((newHumanEncoder sampleExt plainConfig).EncodeEntry sampleExt newPooled fullEntry
        [.prim (str "n") (.int64 5)]).isNone = true
    ∧ ((newHumanEncoder sampleExt plainConfig).EncodeEntry sampleExt newPooled
        (helloEntry 0 epoch) [.prim (str "n") (.int64 5)]).isSome = true
    ∧ ((ent.Caller.Defined = true → h.EncoderConfig.EncodeCaller.isSome = true) →
        ∃ r, h.EncodeEntry ext got ent fields = some r ∧
          r.ret = levelText ext (h.clone got) ent
            ++ ext.formatRFC3339Nano ent.Time ++ str " "
            ++ ent.LoggerName ++ str "\t"
            ++ callerText ext (h.clone got) ent
            ++ ent.Message ++ str "\n"
            ++ h.buf
            ++ fieldsText ext (h.clone got) fields
            ++ stackText (addFields ext (h.clone got) fields) ent
            ++ str "\n")
    ∧ (∀ fs gs : List Field, fieldsText ext (h.clone got) (fs ++ gs)
        = fieldsText ext (h.clone got) fs ++ fieldsText ext (addFields ext (h.clone got) fs) gs)
    ∧ (∀ (cfg : EncoderConfig) (level : Int) (t : Time), cfg.EncodeLevel = none →
        ∃ r, (newHumanEncoder ext cfg).EncodeEntry ext newPooled (helloEntry level t)
            [.prim (str "n") (.int64 5)] = some r
          ∧ r.ret = ext.formatRFC3339Nano t ++ str " " ++ str "\t" ++ str "hello" ++ str "\n"
              ++ str "                                      \tn: 5" ++ str "\n" ++ str "\n") := by
  refine ⟨fun hd hcal => EncodeEntry_nil_caller ext h got ent fields hd hcal, rfl, rfl,
    fun hc => EncodeEntry_ret ext h got ent fields hc,
    fun fs gs => fieldsText_append ext fs gs _, ?_⟩
  intro cfg level t hl
  obtain ⟨r, hr, hret⟩ := EncodeEntry_ret ext (newHumanEncoder ext cfg) newPooled
    (helloEntry level t) [.prim (str "n") (.int64 5)] (by simp [helloEntry])
  refine ⟨r, hr, ?_⟩
  rw [hret]
  have e1 : levelText ext ((newHumanEncoder ext cfg).clone newPooled) (helloEntry level t) = [] := by
    simp [levelText, HumanEncoder.clone, newHumanEncoder, hl]
  have e2 : callerText ext ((newHumanEncoder ext cfg).clone newPooled) (helloEntry level t) = [] := by
    simp [callerText, helloEntry]
  have e3 : stackText (addFields ext ((newHumanEncoder ext cfg).clone newPooled)
      [.prim (str "n") (.int64 5)]) (helloEntry level t) = [] := by
    simp [stackText, helloEntry]
  have e4 : fieldsText ext ((newHumanEncoder ext cfg).clone newPooled) [.prim (str "n") (.int64 5)]
      = str "                                      \tn: 5" ++ str "\n" := by
    simp only [fieldsText, addFields, Field.AddTo, HumanEncoder.addPrim, HumanEncoder.AddInt64,
      HumanEncoder.addKey, HumanEncoder.writeString, HumanEncoder.writeStringf, Sprintf, fmtVerb,
      HumanEncoder.fresh, HumanEncoder.ident, HumanEncoder.clone, newHumanEncoder]
    decide
  rw [e1, e2, e3, e4]
  simp [helloEntry, newHumanEncoder]

/-- C2, the code at a configuration with the line ending CR LF: the encoder
holds that line ending, yet the rendered entry is the timestamp followed by
space, tab, `hello` and two line feeds; it ends neither in the configured
line ending and a blank line nor in two configured line endings. -/
theorem C2_line_ending_not_written (ext : Ext) (level : Int) (t : Time) :
    (newHumanEncoder ext crlfConfig).EncoderConfig.LineEnding = str "\r\n"
    ∧ ∃ r, (newHumanEncoder ext crlfConfig).EncodeEntry ext newPooled (helloEntry level t) []
          = some r
        ∧ r.ret = ext.formatRFC3339Nano t ++ str " \thello\n\n"
        ∧ ¬ (str "\r\n" ++ str "\n" <:+ r.ret)
        ∧ ¬ (str "\r\n" ++ str "\r\n" <:+ r.ret) := by
  refine ⟨rfl, ?_⟩
  obtain ⟨r, hr, hret⟩ := EncodeEntry_ret ext (newHumanEncoder ext crlfConfig) newPooled
    (helloEntry level t) [] (by simp [helloEntry])
  have e : r.ret = ext.formatRFC3339Nano t ++ str " \thello\n\n" := by
    rw [hret]
    have e1 : levelText ext ((newHumanEncoder ext crlfConfig).clone newPooled)
        (helloEntry level t) = [] := rfl
    have e2 : callerText ext ((newHumanEncoder ext crlfConfig).clone newPooled)
        (helloEntry level t) = [] := rfl
    have e3 : stackText (addFields ext ((newHumanEncoder ext crlfConfig).clone newPooled) [])
        (helloEntry level t) = [] := rfl
    have e4 : fieldsText ext ((newHumanEncoder ext crlfConfig).clone newPooled) [] = [] := rfl
    rw [e1, e2, e3, e4]
    simp only [helloEntry, newHumanEncoder, List.nil_append, List.append_nil, List.append_assoc]
    rfl
  have l1 : (str " \thello\n\n").reverse = [10, 10, 111, 108, 108, 101, 104, 9, 32] := by decide
  have l2 : (str "\n").reverse = [10] := by decide
  have l3 : (str "\r\n").reverse = [10, 13] := by decide
  refine ⟨r, hr, e, ?_, ?_⟩
  · intro hsuf
    have hp := List.reverse_prefix.mpr hsuf
    rw [e] at hp
    simp only [List.reverse_append, l1, l2, l3] at hp
    simp [List.cons_prefix_cons] at hp
  · intro hsuf
    have hp := List.reverse_prefix.mpr hsuf
    rw [e] at hp
    simp only [List.reverse_append, l1, l2, l3] at hp
    simp [List.cons_prefix_cons] at hp

/-- C3, the code at a defined caller without a caller callback: on a base
encoder whose context bytes were written by field additions to a new
encoder, `EncodeEntry` calls the nil `EncodeCaller` and returns nothing,
whatever the entry and the field list; so it is for the entry with a caller
on a configuration without callbacks. Whenever a caller callback is
configured or the caller is not defined, the call returns, and for every
entry and every field list, the empty one included, the bytes returned end
in two newlines. -/
theorem C3_blank_separator_nil_caller_callback (ext : Ext) (cfg : EncoderConfig)
    (ctx : List Field) (got : Pooled) (ent : Entry) (fields : List Field) :
    (ent.Caller.Defined = true → cfg.EncodeCaller = none →
        (addFields ext (newHumanEncoder ext cfg) ctx).EncodeEntry ext got ent fields = none)
    ∧ ((addFields sampleExt (newHumanEncoder sampleExt plainConfig) sampleFields).EncodeEntry
        sampleExt newPooled fullEntry []).isNone = true
    ∧ ((ent.Caller.Defined = true → cfg.EncodeCaller.isSome = true) →
        ∃ r, (addFields ext (newHumanEncoder ext cfg) ctx).EncodeEntry ext got ent fields = some r
          ∧ str "\n\n" <:+ r.ret) := by
  have hcfg : (addFields ext (newHumanEncoder ext cfg) ctx).EncoderConfig.EncodeCaller
      = cfg.EncodeCaller := by
    rw [addFields_config]; rfl
  refine ⟨fun hd hcal => EncodeEntry_nil_caller ext _ got ent fields hd (by rw [hcfg]; exact hcal),
    rfl, ?_⟩
  intro hc
  obtain ⟨r, hr, hret⟩ := EncodeEntry_ret ext (addFields ext (newHumanEncoder ext cfg) ctx) got
    ent fields (by rw [hcfg]; exact hc)
  refine ⟨r, hr, ?_⟩
  have t1 : Tail (addFields ext (newHumanEncoder ext cfg) ctx).buf :=
    addFields_tail ext ctx _ (Or.inl rfl)
  have t2 : Tail (fieldsText ext ((addFields ext (newHumanEncoder ext cfg) ctx).clone got) fields) :=
    addFields_tail ext fields _ (Or.inl rfl)
  have t3 : Tail (stackText (addFields ext ((addFields ext (newHumanEncoder ext cfg) ctx).clone got)
      fields) ent) := by
    simp only [stackText]
    split_ifs
    · right; exact HumanEncoder.AddString_tail _ _ _
    · left; rfl
  have last_append : ∀ a b : Bytes, a.getLast? = some NL → Tail b → (a ++ b).getLast? = some NL := by
    intro a b ha hb
    rcases hb with hb | hb
    · simpa [hb] using ha
    · simp [List.getLast?_append, hb]
  have t0 : ∀ a : Bytes, (a ++ ent.Message ++ str "\n").getLast? = some NL :=
    fun a => List.getLast?_concat _
  have key : (levelText ext ((addFields ext (newHumanEncoder ext cfg) ctx).clone got) ent
      ++ ext.formatRFC3339Nano ent.Time ++ str " " ++ ent.LoggerName ++ str "\t"
      ++ callerText ext ((addFields ext (newHumanEncoder ext cfg) ctx).clone got) ent
      ++ ent.Message ++ str "\n"
      ++ (addFields ext (newHumanEncoder ext cfg) ctx).buf
      ++ fieldsText ext ((addFields ext (newHumanEncoder ext cfg) ctx).clone got) fields
      ++ stackText (addFields ext ((addFields ext (newHumanEncoder ext cfg) ctx).clone got)
          fields) ent).getLast? = some NL :=
    last_append _ _ (last_append _ _ (last_append _ _ (t0 _) t1) t2) t3
  obtain ⟨ys, hys⟩ := List.getLast?_eq_some_iff.mp key
  rw [hys, List.append_assoc] at hret
  exact ⟨ys, hret.symm⟩


/-! ## C5 to C7: floats and complex numbers -/

/-- C5, the code on a float field: `AddFloat64` and `AddFloat32` write the
label, the value and two newlines, one from `appendFloat` and one of their
own; so what they append is never the label, a value without a newline and
a single newline. At key `k`, value 1.5 and depth 0 the text is the indent,
`k: `, the digits and two newlines. -/
theorem C5_float_field_two_newlines (ext : Ext) (h : HumanEncoder) (key : Bytes) (f : GoFloat) :
    (∃ text, (h.AddFloat64 ext key f).buf = h.buf ++ (h.ident ++ key ++ str ": ") ++ text ++ str "\n\n")
    ∧ (∃ text, (h.AddFloat32 ext key f).buf = h.buf ++ (h.ident ++ key ++ str ": ") ++ text ++ str "\n\n")
    ∧ (∀ value : Bytes, NL ∉ value →
        (h.AddFloat64 ext key f).buf ≠ h.buf ++ (h.ident ++ key ++ str ": ") ++ value ++ str "\n"
        ∧ (h.AddFloat32 ext key f).buf ≠ h.buf ++ (h.ident ++ key ++ str ": ") ++ value ++ str "\n")
    ∧ ((newHumanEncoder ext plainConfig).AddFloat64 ext (str "k") floatThreeHalves).buf
        = str "                                      \tk: " ++ ext.floatDigits 3 (-1) 64 ++ str "\n\n" := by
  have shape : ∀ bits, ∃ text, ((h.addKey key).appendFloat ext f bits).appendByte NL
      = { h with buf := h.buf ++ (h.ident ++ key ++ str ": ") ++ text ++ str "\n\n" } := by
    intro bits
    simp only [HumanEncoder.appendFloat, HumanEncoder.addKey]
    split_ifs
    · exact ⟨str "\"NaN\"", by simp [HumanEncoder.ext_iff, HumanEncoder.writeString, HumanEncoder.appendByte]; rfl⟩
    · exact ⟨str "\"+Inf\"", by simp [HumanEncoder.ext_iff, HumanEncoder.writeString, HumanEncoder.appendByte]; rfl⟩
    · exact ⟨str "\"-Inf\"", by simp [HumanEncoder.ext_iff, HumanEncoder.writeString, HumanEncoder.appendByte]; rfl⟩
    · exact ⟨strconvFormatFloat ext f bits, by
        simp [HumanEncoder.ext_iff, HumanEncoder.writeString, HumanEncoder.appendByte,
          HumanEncoder.bufAppendFloat]; rfl⟩
  have no : ∀ (text value : Bytes) (x : Bytes), NL ∉ value →
      x ++ text ++ str "\n\n" ≠ x ++ value ++ str "\n" := by
    intro text value x hv heq
    have e1 : str "\n\n" = [NL] ++ [NL] := rfl
    have e2 : str "\n" = [NL] := rfl
    rw [e1, e2, List.append_assoc, List.append_assoc, List.append_cancel_left_eq,
      ← List.append_assoc, List.append_cancel_right_eq] at heq
    exact hv (heq ▸ by simp)
  obtain ⟨t64, h64⟩ := shape 64
  obtain ⟨t32, h32⟩ := shape 32
  refine ⟨⟨t64, by simp only [HumanEncoder.AddFloat64]; rw [h64]⟩,
    ⟨t32, by simp only [HumanEncoder.AddFloat32]; rw [h32]⟩, ?_, ?_⟩
  · intro value hv
    constructor
    · simp only [HumanEncoder.AddFloat64]; rw [h64]; exact no _ _ _ hv
    · simp only [HumanEncoder.AddFloat32]; rw [h32]; exact no _ _ _ hv
  · simp [HumanEncoder.AddFloat64, HumanEncoder.appendFloat, HumanEncoder.addKey,
      HumanEncoder.writeString, HumanEncoder.appendByte, HumanEncoder.bufAppendFloat,
      floatThreeHalves, GoFloat.isNaN, GoFloat.isInf, strconvFormatFloat, newHumanEncoder]
    rfl

/-- C6, the code on float values: `AppendFloat64` and `AppendFloat32` append
the quoted word for NaN and the infinities and the `strconv` text for any
other value, and after it, in every case, one newline: NaN gives six
bytes, the five of the quoted word and a line feed. -/
theorem C6_appendFloat_trailing_newline (ext : Ext) (h : HumanEncoder) :
    (h.AppendFloat64 ext .nan).buf = h.buf ++ str "\"NaN\"" ++ str "\n"
    ∧ (h.AppendFloat64 ext (.inf false)).buf = h.buf ++ str "\"+Inf\"" ++ str "\n"
    ∧ (h.AppendFloat64 ext (.inf true)).buf = h.buf ++ str "\"-Inf\"" ++ str "\n"
    ∧ (∀ neg mant exp, (h.AppendFloat64 ext (.fin neg mant exp)).buf
        = h.buf ++ strconvFormatFloat ext (.fin neg mant exp) 64 ++ str "\n")
    ∧ (h.AppendFloat32 ext .nan).buf = h.buf ++ str "\"NaN\"" ++ str "\n"
    ∧ (h.AppendFloat32 ext (.inf false)).buf = h.buf ++ str "\"+Inf\"" ++ str "\n"
    ∧ (h.AppendFloat32 ext (.inf true)).buf = h.buf ++ str "\"-Inf\"" ++ str "\n"
    ∧ (∀ neg mant exp, (h.AppendFloat32 ext (.fin neg mant exp)).buf
        = h.buf ++ strconvFormatFloat ext (.fin neg mant exp) 32 ++ str "\n")
    ∧ ((h.AppendFloat64 ext .nan).buf.length = h.buf.length + 6) := by
  refine ⟨rfl, rfl, rfl, fun _ _ _ => rfl, rfl, rfl, rfl, fun _ _ _ => rfl, ?_⟩
  simp [HumanEncoder.AppendFloat64, HumanEncoder.appendFloat, HumanEncoder.writeString,
    HumanEncoder.appendByte, GoFloat.isNaN]
  decide


theorem appendComplex_buf (ext : Ext) (h : HumanEncoder) (re im : GoFloat) (bits : Nat) :
    (h.appendComplex ext re im bits).buf
      = h.buf ++ strconvFormatFloat ext re bits ++ (if im.geZero then str "+" else [])
        ++ strconvFormatFloat ext im bits ++ str "i" := by
  simp only [HumanEncoder.appendComplex]
  split_ifs <;> simp [HumanEncoder.bufAppendFloat, HumanEncoder.appendByte] <;> rfl

/-- C7 fails as stated: with imaginary part +Inf the text is `1++Infi`, two
sign characters before the imaginary part, and with imaginary part NaN it
is `1NaNi`, none. -/
theorem C7_counterexample :
    ((newHumanEncoder sampleExt plainConfig).AppendComplex128 sampleExt floatOne (.inf false)).buf
      = str "1++Infi"
    ∧ leadingSigns (str "++Infi") = 2
    ∧ ((newHumanEncoder sampleExt plainConfig).AppendComplex128 sampleExt floatOne .nan).buf
      = str "1NaNi"
    ∧ leadingSigns (str "NaNi") = 0 := by
  decide

/-- C7 as amended: the text of a complex value is the real part, a plus
sign exactly when the comparison `imag >= 0` holds (so also for +Inf and
for a negative zero, and not for NaN), the imaginary part as `strconv`
prints it, and `i`. When the imaginary part is -Inf, or finite and not a
negative zero, and its digits start with no sign, exactly one sign
character precedes it. With 1 and 2 printing as `1` and `2`, the value
(1, -2) renders as `1-2i` and (1, 2) as `1+2i`. -/
theorem C7_complex_sign_rule (ext : Ext) (h : HumanEncoder) (re im : GoFloat)
    (h1 : ∀ bits, ext.floatDigits 1 0 bits = str "1")
    (h2 : ∀ bits, ext.floatDigits 1 1 bits = str "2") :
    (h.AppendComplex128 ext re im).buf
      = h.buf ++ strconvFormatFloat ext re 64 ++ (if im.geZero then str "+" else [])
        ++ strconvFormatFloat ext im 64 ++ str "i"
    ∧ (h.AppendComplex64 ext re im).buf
      = h.buf ++ strconvFormatFloat ext re 32 ++ (if im.geZero then str "+" else [])
        ++ strconvFormatFloat ext im 32 ++ str "i"
    ∧ (∀ key, (h.AddComplex128 ext key re im).buf
      = h.buf ++ (h.ident ++ key ++ str ": ") ++ strconvFormatFloat ext re 64
        ++ (if im.geZero then str "+" else []) ++ strconvFormatFloat ext im 64 ++ str "i"
        ++ str "\n")
    ∧ (∀ bits, (im = .inf true ∨ ∃ neg mant exp, im = .fin neg mant exp
          ∧ ¬ (neg = true ∧ mant = 0) ∧ leadingSigns (ext.floatDigits mant exp bits) = 0) →
        leadingSigns ((if im.geZero then str "+" else []) ++ strconvFormatFloat ext im bits
          ++ str "i") = 1)
    ∧ (h.AppendComplex128 ext floatOne floatMinusTwo).buf = h.buf ++ str "1-2i"
    ∧ (h.AppendComplex128 ext floatOne floatTwo).buf = h.buf ++ str "1+2i"
    ∧ (h.AppendComplex64 ext floatOne floatMinusTwo).buf = h.buf ++ str "1-2i"
    ∧ (h.AppendComplex64 ext floatOne floatTwo).buf = h.buf ++ str "1+2i" := by
  have ex : ∀ bits, (h.appendComplex ext floatOne floatMinusTwo bits).buf = h.buf ++ str "1-2i"
      ∧ (h.appendComplex ext floatOne floatTwo bits).buf = h.buf ++ str "1+2i" := by
    intro bits
    simp only [appendComplex_buf, floatOne, floatTwo, floatMinusTwo, strconvFormatFloat, h1, h2,
      GoFloat.geZero]
    constructor <;> simp <;> rfl
  refine ⟨appendComplex_buf ext h re im 64, appendComplex_buf ext h re im 32, ?_, ?_,
    (ex 64).1, (ex 64).2, (ex 32).1, (ex 32).2⟩
  · intro key
    simp only [HumanEncoder.AddComplex128, HumanEncoder.appendByte, appendComplex_buf,
      HumanEncoder.addKey, HumanEncoder.writeString]
    simp
    rfl
  · intro bits hcase
    rcases hcase with rfl | ⟨neg, mant, exp, rfl, hz, hd⟩
    · simp [GoFloat.geZero, strconvFormatFloat]; decide
    · cases neg with
      | false =>
        simp [GoFloat.geZero, strconvFormatFloat]
        have : str "+" = [43] := rfl
        rw [this]
        simp only [List.singleton_append, leadingSigns, true_or, if_true]
        cases hx : ext.floatDigits mant exp bits with
        | nil => simp [leadingSigns]
        | cons c cs =>
          rw [hx] at hd
          simp only [leadingSigns] at hd
          split_ifs at hd with hc
          simp [leadingSigns, hc]
      | true =>
        have hm : mant ≠ 0 := fun hm0 => hz ⟨rfl, hm0⟩
        simp [GoFloat.geZero, strconvFormatFloat, hm, leadingSigns]
        cases hx : ext.floatDigits mant exp bits with
        | nil => simp [leadingSigns]
        | cons c cs =>
          rw [hx] at hd
          simp only [leadingSigns] at hd
          split_ifs at hd with hc
          simp [leadingSigns, hc]

/-- C7 at the sample environment, with real part 1 and imaginary part -2. -/
theorem C7_complex_sign_rule_witness :
    (∀ bits, sampleExt.floatDigits 1 0 bits = str "1")
    ∧ (∀ bits, sampleExt.floatDigits 1 1 bits = str "2")
    ∧ ((newHumanEncoder sampleExt plainConfig).AppendComplex128 sampleExt floatOne
        floatMinusTwo).buf = (newHumanEncoder sampleExt plainConfig).buf ++ str "1-2i" :=
  ⟨fun _ => rfl, fun _ => rfl,
   (C7_complex_sign_rule sampleExt (newHumanEncoder sampleExt plainConfig) floatOne floatMinusTwo
      (fun _ => rfl) (fun _ => rfl)).2.2.2.2.1⟩


/-! ## C8: integers -/

theorem fmtUintAux_acc (fuel : Nat) : ∀ (u : Nat) (acc : Bytes),
    fmtUintAux fuel u acc = fmtUintAux fuel u [] ++ acc := by
  induction fuel with
  | zero => intro u acc; simp [fmtUintAux]
  | succ n ih =>
    intro u acc
    simp only [fmtUintAux]
    split_ifs
    · simp
    · rw [ih (u / 10) ((48 + u % 10) :: acc), ih (u / 10) [48 + u % 10]]
      simp

theorem fmtUintAux_fuel (fuel : Nat) : ∀ u : Nat, u < fuel → fmtUintAux fuel u [] = fmtUint u := by
  induction fuel using Nat.strong_induction_on with
  | _ fuel ih =>
    intro u hu
    cases fuel with
    | zero => omega
    | succ n =>
      simp only [fmtUint, fmtUintAux]
      split_ifs with h10
      · rfl
      · rw [fmtUintAux_acc n, fmtUintAux_acc u]
        have hlt : u / 10 < u := Nat.div_lt_self (by omega) (by omega)
        have e1 : fmtUintAux n (u / 10) [] = fmtUint (u / 10) :=
          ih n (Nat.lt_succ_self n) (u / 10) (by omega)
        have e2 : fmtUintAux u (u / 10) [] = fmtUint (u / 10) :=
          ih u hu (u / 10) hlt
        rw [e1, e2]

theorem fmtUint_small (u : Nat) (h : u < 10) : fmtUint u = [48 + u] := by
  simp [fmtUint, fmtUintAux, h]

theorem fmtUint_step (u : Nat) (h : ¬ u < 10) : fmtUint u = fmtUint (u / 10) ++ [48 + u % 10] := by
  have hlt : u / 10 < u := Nat.div_lt_self (by omega) (by omega)
  have := fmtUintAux_fuel u (u / 10) hlt
  have e : fmtUint u = fmtUintAux u (u / 10) [48 + u % 10] := by
    show fmtUintAux (u + 1) u [] = _
    simp [fmtUintAux, h]
  rw [e, fmtUintAux_acc u, this]

theorem parseDigits_append (s t : Bytes) : ∀ acc : Nat,
    parseDigits (s ++ t) acc = (parseDigits s acc).bind (parseDigits t) := by
  induction s with
  | nil => intro acc; rfl
  | cons c cs ih =>
    intro acc
    simp only [List.cons_append, parseDigits]
    split_ifs
    · exact ih _
    · rfl

theorem fmtUint_ne_nil (u : Nat) : fmtUint u ≠ [] := by
  by_cases h : u < 10
  · simp [fmtUint_small u h]
  · simp [fmtUint_step u h]

theorem parseDigits_fmtUint : ∀ u : Nat, parseDigits (fmtUint u) 0 = some u := by
  intro u
  induction u using Nat.strong_induction_on with
  | _ u ih =>
    by_cases h : u < 10
    · simp [fmtUint_small u h, parseDigits, isDigit]
      omega
    · have hlt : u / 10 < u := Nat.div_lt_self (by omega) (by omega)
      have hm : u % 10 < 10 := Nat.mod_lt _ (by omega)
      rw [fmtUint_step u h, parseDigits_append, ih _ hlt]
      simp only [Option.some_bind, parseDigits, isDigit]
      have : (decide (48 ≤ 48 + u % 10) && decide (48 + u % 10 ≤ 57)) = true := by
        simp; omega
      simp only [this, if_true]
      congr 1
      omega

theorem parseUint_fmtUint (u : Nat) : parseUint (fmtUint u) = some u := by
  have := parseDigits_fmtUint u
  cases hx : fmtUint u with
  | nil => exact absurd hx (fmtUint_ne_nil u)
  | cons c cs => rw [hx] at this; exact this

theorem fmtUint_all_digits : ∀ u : Nat, (fmtUint u).all isDigit = true := by
  intro u
  induction u using Nat.strong_induction_on with
  | _ u ih =>
    by_cases h : u < 10
    · simp [fmtUint_small u h, isDigit]; omega
    · have hlt : u / 10 < u := Nat.div_lt_self (by omega) (by omega)
      have hm : u % 10 < 10 := Nat.mod_lt _ (by omega)
      rw [fmtUint_step u h, List.all_append, ih _ hlt]
      simp [isDigit]; omega

theorem fmtUint_head : ∀ u : Nat, ∃ c cs, fmtUint u = c :: cs ∧ 48 ≤ c ∧ c ≤ 57
    ∧ (c = 48 → u = 0) := by
  intro u
  induction u using Nat.strong_induction_on with
  | _ u ih =>
    by_cases h : u < 10
    · exact ⟨48 + u, [], fmtUint_small u h, by omega, by omega, by omega⟩
    · have hlt : u / 10 < u := Nat.div_lt_self (by omega) (by omega)
      obtain ⟨c, cs, hc, h1, h2, h3⟩ := ih _ hlt
      refine ⟨c, cs ++ [48 + u % 10], by rw [fmtUint_step u h, hc]; rfl, h1, h2, ?_⟩
      intro hc0
      have := h3 hc0
      omega

theorem fmtUint_canonical (u : Nat) : canonicalDigits (fmtUint u) = true := by
  obtain ⟨c, cs, hc, h1, h2, h3⟩ := fmtUint_head u
  have hall := fmtUint_all_digits u
  unfold canonicalDigits
  rw [hall, hc]
  by_cases hc0 : c = 48
  · have hu := h3 hc0
    subst hu
    have : fmtUint 0 = [48] := rfl
    rw [this] at hc
    rw [← hc]
    decide
  · simp [hc0]

theorem int64_of_range (v : Int) (h1 : -2 ^ 63 ≤ v) (h2 : v < 2 ^ 63) : int64 v = v := by
  unfold int64
  have : (v + 2 ^ 63) % 2 ^ 64 = v + 2 ^ 63 := Int.emod_eq_of_lt (by omega) (by omega)
  omega

theorem uint64_of_range (u : Nat) (h : u < 2 ^ 64) : uint64 u = u := Nat.mod_eq_of_lt h

theorem parseInt_fmtInt (v : Int) : parseInt (fmtInt v) = some v := by
  unfold fmtInt
  split_ifs with hneg
  · have e : (v.natAbs : Int) = -v := Int.ofNat_natAbs_of_nonpos (le_of_lt hneg)
    show (parseUint (fmtUint v.natAbs)).map (fun n => -(n : Int)) = some v
    rw [parseUint_fmtUint]
    simp [e]
  · obtain ⟨c, cs, hc, h1, h2, _⟩ := fmtUint_head v.natAbs
    have hu := parseUint_fmtUint v.natAbs
    rw [hc] at hu ⊢
    have hne : c ≠ 45 := by omega
    have : parseInt (c :: cs) = (parseUint (c :: cs)).map (fun n => (n : Int)) := by
      unfold parseInt
      split
      · rename_i heq; simp at heq; exact absurd heq.1 hne
      · rfl
    have e : (v.natAbs : Int) = v := Int.natAbs_of_nonneg (not_lt.mp hneg)
    rw [this, hu]
    simp [e]

theorem fmtInt_canonical (v : Int) : canonicalDecimal (fmtInt v) = true := by
  unfold fmtInt
  split_ifs with hneg
  · show (canonicalDigits (fmtUint v.natAbs) && fmtUint v.natAbs != [48]) = true
    rw [fmtUint_canonical, Bool.true_and]
    obtain ⟨c, cs, hc, h1, h2, h3⟩ := fmtUint_head v.natAbs
    have hne : v.natAbs ≠ 0 := by omega
    have : c ≠ 48 := fun h => hne (h3 h)
    rw [hc]
    simp [this]
  · obtain ⟨c, cs, hc, h1, h2, _⟩ := fmtUint_head v.natAbs
    have hcan := fmtUint_canonical v.natAbs
    rw [hc] at hcan ⊢
    have hne : c ≠ 45 := by omega
    unfold canonicalDecimal
    split
    · rename_i heq; simp at heq; exact absurd heq.1 hne
    · exact hcan


theorem fmtInt_head_minus (v : Int) : (fmtInt v).head? = some 45 ↔ v < 0 := by
  unfold fmtInt
  split_ifs with hneg
  · simp [hneg]
  · obtain ⟨c, cs, hc, h1, h2, _⟩ := fmtUint_head v.natAbs
    rw [hc]
    simp only [List.head?_cons, Option.some.injEq, hneg, iff_false]
    omega

/-- C8: integer rendering. For a signed value `v` and an unsigned value `u`
that fit in 64 bits, every signed `Append` method, whatever its width,
appends the same text `fmtInt v`, every unsigned one appends `fmtUint u`,
and the `Add` methods write that text between the label and one newline.
The text is canonical (digits only, no leading zero except in `0`, a minus
sign in front exactly for a negative value), and reading it as a decimal
integer gives back the value. -/
theorem C8_integer_rendering (h : HumanEncoder) (key : Bytes) (v : Int) (u : Nat)
    (hv : -2 ^ 63 ≤ v ∧ v < 2 ^ 63) (hu : u < 2 ^ 64) :
    ((h.AppendInt64 v).buf = h.buf ++ fmtInt v
      ∧ (h.AppendInt v).buf = h.buf ++ fmtInt v
      ∧ (h.AppendInt32 v).buf = h.buf ++ fmtInt v
      ∧ (h.AppendInt16 v).buf = h.buf ++ fmtInt v
      ∧ (h.AppendInt8 v).buf = h.buf ++ fmtInt v)
    ∧ ((h.AppendUint64 u).buf = h.buf ++ fmtUint u
      ∧ (h.AppendUint u).buf = h.buf ++ fmtUint u
      ∧ (h.AppendUint32 u).buf = h.buf ++ fmtUint u
      ∧ (h.AppendUint16 u).buf = h.buf ++ fmtUint u
      ∧ (h.AppendUint8 u).buf = h.buf ++ fmtUint u
      ∧ (h.AppendUintptr u).buf = h.buf ++ fmtUint u)
    ∧ ((h.AddInt64 key v).buf = h.buf ++ (h.ident ++ key ++ str ": ") ++ fmtInt v ++ str "\n"
      ∧ (h.AddInt key v).buf = h.buf ++ (h.ident ++ key ++ str ": ") ++ fmtInt v ++ str "\n"
      ∧ (h.AddInt32 key v).buf = h.buf ++ (h.ident ++ key ++ str ": ") ++ fmtInt v ++ str "\n"
      ∧ (h.AddInt16 key v).buf = h.buf ++ (h.ident ++ key ++ str ": ") ++ fmtInt v ++ str "\n"
      ∧ (h.AddInt8 key v).buf = h.buf ++ (h.ident ++ key ++ str ": ") ++ fmtInt v ++ str "\n")
    ∧ ((h.AddUint64 key u).buf = h.buf ++ (h.ident ++ key ++ str ": ") ++ fmtUint u ++ str "\n"
      ∧ (h.AddUint key u).buf = h.buf ++ (h.ident ++ key ++ str ": ") ++ fmtUint u ++ str "\n"
      ∧ (h.AddUint32 key u).buf = h.buf ++ (h.ident ++ key ++ str ": ") ++ fmtUint u ++ str "\n"
      ∧ (h.AddUint16 key u).buf = h.buf ++ (h.ident ++ key ++ str ": ") ++ fmtUint u ++ str "\n"
      ∧ (h.AddUint8 key u).buf = h.buf ++ (h.ident ++ key ++ str ": ") ++ fmtUint u ++ str "\n"
      ∧ (h.AddUintptr key u).buf
          = h.buf ++ (h.ident ++ key ++ str ": ") ++ fmtUint u ++ str "\n")
    ∧ (canonicalDecimal (fmtInt v) = true ∧ ((fmtInt v).head? = some 45 ↔ v < 0)
      ∧ canonicalDigits (fmtUint u) = true)
    ∧ (parseInt (fmtInt v) = some v ∧ parseUint (fmtUint u) = some u) := by
  have ei : int64 v = v := int64_of_range v hv.1 hv.2
  have eu : uint64 u = u := uint64_of_range u hu
  have a64 : (h.AppendInt64 v).buf = h.buf ++ fmtInt v := by
    simp [HumanEncoder.AppendInt64, HumanEncoder.writeStringf, HumanEncoder.writeString, Sprintf,
      fmtVerb]
  have au64 : (h.AppendUint64 u).buf = h.buf ++ fmtUint u := by
    simp [HumanEncoder.AppendUint64, HumanEncoder.writeStringf, HumanEncoder.writeString, Sprintf,
      fmtVerb]
  have d64 : (h.AddInt64 key v).buf
      = h.buf ++ (h.ident ++ key ++ str ": ") ++ fmtInt v ++ str "\n" := by
    simp [HumanEncoder.AddInt64, HumanEncoder.addKey, HumanEncoder.writeStringf,
      HumanEncoder.writeString, Sprintf, fmtVerb, HumanEncoder.ident]
    rfl
  have du64 : (h.AddUint64 key u).buf
      = h.buf ++ (h.ident ++ key ++ str ": ") ++ fmtUint u ++ str "\n" := by
    simp [HumanEncoder.AddUint64, HumanEncoder.addKey, HumanEncoder.writeStringf,
      HumanEncoder.writeString, Sprintf, fmtVerb, HumanEncoder.ident]
    rfl
  refine ⟨⟨a64, ?_, ?_, ?_, ?_⟩, ⟨au64, ?_, ?_, ?_, ?_, ?_⟩, ⟨d64, ?_, ?_, ?_, ?_⟩,
    ⟨du64, ?_, ?_, ?_, ?_, ?_⟩,
    ⟨fmtInt_canonical v, fmtInt_head_minus v, fmtUint_canonical u⟩,
    ⟨parseInt_fmtInt v, parseUint_fmtUint u⟩⟩
  all_goals first
    | (simp only [HumanEncoder.AppendInt, HumanEncoder.AppendInt32, HumanEncoder.AppendInt16,
        HumanEncoder.AppendInt8, ei]; exact a64)
    | (simp only [HumanEncoder.AppendUint, HumanEncoder.AppendUint32, HumanEncoder.AppendUint16,
        HumanEncoder.AppendUint8, HumanEncoder.AppendUintptr, eu]; exact au64)
    | (simp only [HumanEncoder.AddInt, HumanEncoder.AddInt32, HumanEncoder.AddInt16,
        HumanEncoder.AddInt8, ei]; exact d64)
    | (simp only [HumanEncoder.AddUint, HumanEncoder.AddUint32, HumanEncoder.AddUint16,
        HumanEncoder.AddUint8, HumanEncoder.AddUintptr, eu]; exact du64)

/-- C8 at the values -120 and 255 on a new encoder: the 8-bit methods write
the text `-120` and `255`. -/
theorem C8_integer_rendering_witness :
    ((-2 ^ 63 : Int) ≤ -120 ∧ (-120 : Int) < 2 ^ 63) ∧ (255 : Nat) < 2 ^ 64
    ∧ ((newHumanEncoder sampleExt plainConfig).AppendInt8 (-120)).buf
        = (newHumanEncoder sampleExt plainConfig).buf ++ fmtInt (-120)
    ∧ fmtInt (-120) = str "-120"
    ∧ ((newHumanEncoder sampleExt plainConfig).AppendUint8 255).buf
        = (newHumanEncoder sampleExt plainConfig).buf ++ fmtUint 255
    ∧ fmtUint 255 = str "255" :=
  ⟨by norm_num, by norm_num,
   (C8_integer_rendering (newHumanEncoder sampleExt plainConfig) [] (-120) 255
      (by norm_num) (by norm_num)).1.2.2.2.2,
   by decide,
   (C8_integer_rendering (newHumanEncoder sampleExt plainConfig) [] (-120) 255
      (by norm_num) (by norm_num)).2.1.2.2.2.2.1,
   by decide⟩


/-! ## C9 and C10: blocks of lines -/

set_option maxRecDepth 100000

theorem stringsSplit_ne_nil (sep : Nat) (s : Bytes) : stringsSplit sep s ≠ [] := by
  cases s with
  | nil => simp [stringsSplit]
  | cons c cs =>
    simp only [stringsSplit]
    split_ifs
    · simp
    · split <;> simp

theorem stringsJoin_cons (sep l : Bytes) (ls : List Bytes) (h : ls ≠ []) :
    stringsJoin sep (l :: ls) = l ++ sep ++ stringsJoin sep ls := by
  cases ls with
  | nil => exact absurd rfl h
  | cons m ms => rfl

/-- Splitting on newlines loses nothing: the pieces joined by newlines are
the string again, and no piece holds a newline. -/
theorem stringsSplit_spec (s : Bytes) :
    stringsJoin [NL] (stringsSplit NL s) = s ∧ ∀ l ∈ stringsSplit NL s, NL ∉ l := by
  induction s with
  | nil => simp [stringsSplit, stringsJoin]
  | cons c cs ih =>
    obtain ⟨ih1, ih2⟩ := ih
    simp only [stringsSplit]
    split_ifs with hc
    · constructor
      · rw [stringsJoin_cons _ _ _ (stringsSplit_ne_nil NL cs), ih1, hc]; rfl
      · intro l hl
        rcases List.mem_cons.mp hl with rfl | hl
        · simp
        · exact ih2 l hl
    · cases hs : stringsSplit NL cs with
      | nil => exact absurd hs (stringsSplit_ne_nil NL cs)
      | cons l ls =>
        rw [hs] at ih1 ih2
        simp only
        constructor
        · cases ls with
          | nil => simp only [stringsJoin] at ih1 ⊢; rw [ih1]
          | cons m ms =>
            simp only [stringsJoin] at ih1 ⊢
            rw [← ih1]; simp
        · intro x hx
          rcases List.mem_cons.mp hx with rfl | hx
          · have := ih2 l (List.mem_cons_self _ _)
            simp only [List.mem_cons, not_or]
            exact ⟨fun h => hc h.symm, this⟩
          · exact ih2 x (List.mem_cons_of_mem _ hx)

theorem ident_eq_indent (h : HumanEncoder) : h.ident = indent h.openNamespaces := rfl

/-- C9: a string with a newline is written as a block. `AddString` appends
the label (indent, key, colon, space), a newline, the lines of the value
(its pieces between newlines), each trimmed of trailing white space by
`trimRightSpace` and prefixed with the indent one level deeper, joined by
newlines, and a closing newline; the depth is left as it was. A string
without a newline is written as it is after the label, with a newline. For
the value `a\nb  \n` under key `k` at depth 0 the block is the lines `a`
and `b`, each behind the deeper indent, and a last line that holds only
that indent. -/
theorem C9_multiline_string (h : HumanEncoder) (k v : Bytes) (hv : NL ∈ v) :
    (h.AddString k v).buf
      = h.buf ++ (indent h.openNamespaces ++ k ++ str ": ") ++ str "\n"
        ++ stringsJoin (str "\n") ((stringsSplit NL v).map
            (fun l => indent (h.openNamespaces + 1) ++ trimRightSpace l))
        ++ str "\n"
    ∧ (stringsJoin (str "\n") (stringsSplit NL v) = v ∧ ∀ l ∈ stringsSplit NL v, NL ∉ l)
    ∧ (h.AddString k v).openNamespaces = h.openNamespaces
    ∧ (∀ w : Bytes, NL ∉ w →
        (h.AddString k w).buf = h.buf ++ (indent h.openNamespaces ++ k ++ str ": ") ++ w ++ str "\n")
    ∧ (h.openNamespaces = 0 →
        (h.AddString (str "k") (str "a\nb  \n")).buf
          = h.buf ++ str "                                      \tk: " ++ str "\n"
            ++ str "                                      \t  a" ++ str "\n"
            ++ str "                                      \t  b" ++ str "\n"
            ++ str "                                      \t  " ++ str "\n") := by
  refine ⟨?_, stringsSplit_spec v, HumanEncoder.AddString_openNamespaces h k v, ?_, ?_⟩
  · have hc : stringsContainsRune v NL = true := by simpa [stringsContainsRune] using hv
    simp only [HumanEncoder.AddString, hc, if_true, HumanEncoder.addKey, HumanEncoder.writeString,
      ident_eq_indent]
    simp only [List.append_assoc]
    rfl
  · intro w hw
    have hc : stringsContainsRune w NL = false := by simpa [stringsContainsRune] using hw
    simp [HumanEncoder.AddString, hc, HumanEncoder.addKey, HumanEncoder.writeString,
      HumanEncoder.writeStringf, Sprintf, fmtVerb, ident_eq_indent]
    rfl
  · intro hd
    have hc : stringsContainsRune (str "a\nb  \n") NL = true := by decide
    have hs : stringsSplit NL (str "a\nb  \n") = [str "a", str "b  ", []] := by decide
    have t1 : trimRightSpace (str "a") = str "a" := by decide
    have t2 : trimRightSpace (str "b  ") = str "b" := by decide
    have t3 : trimRightSpace [] = [] := by decide
    simp only [HumanEncoder.AddString, hc, if_true, HumanEncoder.addKey, HumanEncoder.writeString,
      ident_eq_indent, hs, hd, List.map, t1, t2, t3, stringsJoin, List.append_assoc]
    rfl

/-- C9 at the value of the specification on a new encoder. -/
theorem C9_multiline_string_witness :
    NL ∈ str "a\nb  \n"
    ∧ ((newHumanEncoder sampleExt plainConfig).AddString (str "k") (str "a\nb  \n")).buf
        = str "                                      \tk: \n                                      \t  a\n                                      \t  b\n                                      \t  \n" :=
  ⟨by decide,
   ((C9_multiline_string (newHumanEncoder sampleExt plainConfig) (str "k") (str "a\nb  \n")
      (by decide)).2.2.2.2 rfl).trans (by decide)⟩

/-- C10, the code on twenty bytes: the hex dump has two lines, and
`AppendByteString` appends three lines, the two dump lines behind the
indent and a third line that holds only the indent, because the dump ends
in a newline and the split yields an empty last piece. `AddBinary` writes
the same three lines one level deeper after its label line. -/
theorem C10_byte_string_extra_line (h : HumanEncoder) (key : Bytes) :
    twentyBytes.length = 20
    ∧ hexDump twentyBytes = dumpLine1 ++ str "\n" ++ dumpLine2 ++ str "\n"
    ∧ (h.AppendByteString twentyBytes).buf
        = h.buf ++ (indent h.openNamespaces ++ dumpLine1 ++ str "\n")
          ++ (indent h.openNamespaces ++ dumpLine2 ++ str "\n")
          ++ (indent h.openNamespaces ++ str "\n")
    ∧ (h.AddBinary key twentyBytes).buf
        = h.buf ++ (indent h.openNamespaces ++ key ++ str ": ") ++ str "\n"
          ++ (indent (h.openNamespaces + 1) ++ dumpLine1 ++ str "\n")
          ++ (indent (h.openNamespaces + 1) ++ dumpLine2 ++ str "\n")
          ++ (indent (h.openNamespaces + 1) ++ str "\n")
    ∧ (h.AddByteString key twentyBytes).buf = (h.AddBinary key twentyBytes).buf
    ∧ (((newHumanEncoder sampleExt plainConfig).AppendByteString twentyBytes).buf.count NL = 3) := by
  have hs : stringsSplit NL (hexDump twentyBytes) = [dumpLine1, dumpLine2, []] := by decide
  refine ⟨by decide, by decide, ?_, ?_, rfl, by decide⟩
  · simp only [HumanEncoder.AppendByteString, hs, HumanEncoder.writeString, ident_eq_indent,
      List.map, stringsJoin, List.append_assoc, List.append_nil]
    rfl
  · simp only [HumanEncoder.AddBinary, hs, HumanEncoder.writeString, HumanEncoder.addKey,
      HumanEncoder.appendByte, ident_eq_indent, List.map, stringsJoin, List.append_assoc,
      List.append_nil]
    rfl


/-! ## C11 and C12: marshalers and their errors -/

theorem objProg_run_result (ext : Ext) :
    ∀ (m : ObjProg) (h : HumanEncoder), (m.run ext h).2 = m.result
  | .ret err, h => rfl
  | .call c rest, h => by
    simp only [ObjProg.run, ObjProg.result]
    exact objProg_run_result ext rest _

theorem arrProg_run_result (ext : Ext) :
    ∀ (m : ArrProg) (h : HumanEncoder), (m.run ext h).2 = m.result
  | .ret err, h => rfl
  | .call c rest, h => by
    simp only [ArrProg.run, ArrProg.result]
    exact arrProg_run_result ext rest _

theorem objProg_run_buf (ext : Ext) (m : ObjProg) (h : HumanEncoder) :
    (m.run ext h).1.buf = h.buf ++ (m.run ext h.fresh).1.buf := by
  have := objProg_run_prepend ext h.buf m h.fresh
  rw [HumanEncoder.prepend_fresh] at this
  rw [this]; rfl

theorem arrProg_run_buf (ext : Ext) (m : ArrProg) (h : HumanEncoder) :
    (m.run ext h).1.buf = h.buf ++ (m.run ext h.fresh).1.buf := by
  have := arrProg_run_prepend ext h.buf m h.fresh
  rw [HumanEncoder.prepend_fresh] at this
  rw [this]; rfl

theorem appendObject_buf (ext : Ext) (h : HumanEncoder) (m : ObjProg) :
    (h.AppendObject ext m).1.buf
      = h.buf ++ [123] ++ (m.run ext h.nested).1.buf ++ str "\x7d\n" := by
  simp only [HumanEncoder.AppendObject, ArrCall.run, HumanEncoder.writeString]
  rw [objProg_run_buf]
  simp [HumanEncoder.appendByte, HumanEncoder.fresh, HumanEncoder.nested]

theorem addObject_buf (ext : Ext) (h : HumanEncoder) (key : Bytes) (m : ObjProg) :
    (h.AddObject ext key m).1.buf
      = h.buf ++ (indent h.openNamespaces ++ key ++ str ": ") ++ [123]
        ++ (m.run ext h.nested).1.buf ++ str "\x7d\n" := by
  simp only [HumanEncoder.AddObject, ObjCall.run, HumanEncoder.writeString]
  rw [objProg_run_buf]
  simp [HumanEncoder.appendByte, HumanEncoder.fresh, HumanEncoder.nested, HumanEncoder.addKey,
    HumanEncoder.writeString, ident_eq_indent]

theorem addArray_buf (ext : Ext) (h : HumanEncoder) (key : Bytes) (m : ArrProg) :
    (h.AddArray ext key m).1.buf
      = h.buf ++ (indent h.openNamespaces ++ key ++ str ": ") ++ str "[ "
        ++ (m.run ext h.fresh).1.buf ++ str " ]\n" := by
  simp only [HumanEncoder.AddArray, ObjCall.run, HumanEncoder.writeString]
  rw [arrProg_run_buf]
  simp [HumanEncoder.fresh, HumanEncoder.addKey, HumanEncoder.writeString, ident_eq_indent]

theorem appendArray_buf (ext : Ext) (h : HumanEncoder) (m : ArrProg) :
    (h.AppendArray ext m).1.buf
      = h.buf ++ str "[ " ++ (m.run ext h.fresh).1.buf ++ str " ]\n" := by
  simp only [HumanEncoder.AppendArray, ArrCall.run, HumanEncoder.writeString]
  rw [arrProg_run_buf]
  simp [HumanEncoder.fresh, HumanEncoder.writeString]

/-- C11: best-effort framing with error propagation. `AddObject` returns
what the marshaler returns, and its buffer is the buffer before, the label
(indent, key, colon, space), an opening brace, whatever the marshaler
writes when run at depth 0, a closing brace and a newline; the depth is
restored. `AddArray` returns what the marshaler returns and appends the
label, `[ `, whatever the marshaler writes at the unchanged depth, and
` ]` with a newline; the depth is the one the marshaler leaves, which is
the depth before when the marshaler leaves no namespace open. The same
holds without the label for `AppendObject` and `AppendArray`, and in every
case also when the marshaler fails and whatever calls it makes. -/
theorem C11_framing_and_error (ext : Ext) (h : HumanEncoder) (key : Bytes) (mo : ObjProg)
    (ma : ArrProg) :
    ((h.AddObject ext key mo).2 = mo.result
      ∧ (h.AddObject ext key mo).2 = (mo.run ext h.nested).2
      ∧ (h.AddObject ext key mo).1.buf
          = h.buf ++ (indent h.openNamespaces ++ key ++ str ": ") ++ str "\x7b"
            ++ (mo.run ext h.nested).1.buf ++ str "\x7d\n"
      ∧ (h.AddObject ext key mo).1.openNamespaces = h.openNamespaces)
    ∧ ((h.AddArray ext key ma).2 = ma.result
      ∧ (h.AddArray ext key ma).2 = (ma.run ext h.fresh).2
      ∧ (h.AddArray ext key ma).1.buf
          = h.buf ++ (indent h.openNamespaces ++ key ++ str ": ") ++ str "[ "
            ++ (ma.run ext h.fresh).1.buf ++ str " ]\n"
      ∧ (h.AddArray ext key ma).1.openNamespaces = (ma.run ext h.fresh).1.openNamespaces
      ∧ (ma.noOpenNamespace = true →
          (h.AddArray ext key ma).1.openNamespaces = h.openNamespaces))
    ∧ ((h.AppendObject ext mo).2 = mo.result
      ∧ (h.AppendObject ext mo).1.buf
          = h.buf ++ str "\x7b" ++ (mo.run ext h.nested).1.buf ++ str "\x7d\n"
      ∧ (h.AppendObject ext mo).1.openNamespaces = h.openNamespaces)
    ∧ ((h.AppendArray ext ma).2 = ma.result
      ∧ (h.AppendArray ext ma).1.buf
          = h.buf ++ str "[ " ++ (ma.run ext h.fresh).1.buf ++ str " ]\n"
      ∧ (h.AppendArray ext ma).1.openNamespaces = (ma.run ext h.fresh).1.openNamespaces
      ∧ (ma.noOpenNamespace = true →
          (h.AppendArray ext ma).1.openNamespaces = h.openNamespaces))
    ∧ (h.nested.openNamespaces = 0 ∧ h.nested.buf = [] ∧ h.fresh.buf = []
      ∧ h.fresh.openNamespaces = h.openNamespaces) := by
  refine ⟨⟨?_, ?_, addObject_buf ext h key mo, ?_⟩,
    ⟨?_, ?_, addArray_buf ext h key ma, addArray_openNamespaces ext h key ma, ?_⟩,
    ⟨?_, appendObject_buf ext h mo, ?_⟩,
    ⟨?_, appendArray_buf ext h ma, appendArray_openNamespaces ext h ma, ?_⟩,
    ⟨rfl, rfl, rfl, rfl⟩⟩
  · simp only [HumanEncoder.AddObject, ObjCall.run]; exact objProg_run_result ext mo _
  · simp only [HumanEncoder.AddObject, ObjCall.run]
    rw [objProg_run_result, objProg_run_result]
  · simp [HumanEncoder.AddObject, ObjCall.run, HumanEncoder.addKey, HumanEncoder.writeString]
  · simp only [HumanEncoder.AddArray, ObjCall.run]; exact arrProg_run_result ext ma _
  · simp only [HumanEncoder.AddArray, ObjCall.run]
    rw [arrProg_run_result, arrProg_run_result]
  · exact fun hm => objCall_run_openNamespaces ext (.addArray key ma) h hm
  · simp only [HumanEncoder.AppendObject, ArrCall.run]; exact objProg_run_result ext mo _
  · simp [HumanEncoder.AppendObject, ArrCall.run]
  · simp only [HumanEncoder.AppendArray, ArrCall.run]; exact arrProg_run_result ext ma _
  · exact fun hm => arrCall_run_openNamespaces ext (.appendArray ma) h hm


theorem EncodeEntry_err (ext : Ext) (h : HumanEncoder) (got : Pooled) (ent : Entry)
    (fields : List Field) (r : Encoded) (hr : h.EncodeEntry ext got ent fields = some r) :
    r.err = none := by
  simp only [HumanEncoder.EncodeEntry] at hr
  split at hr
  · cases hr
  · injection hr with hr
    rw [← hr]

/-- C12 fails as stated: the object marshaler of the field `o` returns the
error `boom`, and `EncodeEntry` returns a nil error. -/
theorem C12_counterexample :
    ((newHumanEncoder sampleExt plainConfig).AddObject sampleExt (str "o") failingObject).2
      = some (str "boom")
    ∧ ((newHumanEncoder sampleExt plainConfig).EncodeEntry sampleExt newPooled
        (helloEntry 0 epoch) [.objectMarshaler (str "o") failingObject]).map Encoded.err
      = some none := by
  decide

theorem fieldsText_split (ext : Ext) (c : HumanEncoder) (fs : List Field) (f : Field)
    (gs : List Field) :
    fieldsText ext c (fs ++ f :: gs)
      = fieldsText ext c fs ++ fieldsText ext (addFields ext c fs) [f]
        ++ fieldsText ext (f.AddTo ext (addFields ext c fs)) gs := by
  have e : fs ++ f :: gs = fs ++ ([f] ++ gs) := rfl
  rw [e, fieldsText_append, fieldsText_append, List.append_assoc]
  rfl

theorem AddString_line (enc : HumanEncoder) (key e : Bytes) (he : NL ∉ e) :
    (enc.AddString key e).buf
      = enc.buf ++ (indent enc.openNamespaces ++ key ++ str ": ") ++ e ++ str "\n" := by
  have hc : stringsContainsRune e NL = false := by simpa [stringsContainsRune] using he
  simp [HumanEncoder.AddString, hc, HumanEncoder.addKey, HumanEncoder.writeString,
    HumanEncoder.writeStringf, Sprintf, fmtVerb, ident_eq_indent]
  rfl

/-- C12 as amended: a marshaling failure of a field does not reach the
caller of `EncodeEntry`. Whenever a caller callback is configured or the
caller is not defined, `EncodeEntry` returns, the error it returns is nil,
and the bytes are the header, the context, the text of all fields in list
order, the stack trace field and a newline. In that text a failing object
or array field, wherever it stands in the list, is its framed text (label,
bracket, what the marshaler wrote, closing bracket, newline) followed by
one more line, a string field under the key followed by `Error` that holds
the message: `Field.AddTo` takes the error `AddObject` or `AddArray`
returns and adds it with `AddString`. -/
theorem C12_marshal_error_rendered (ext : Ext) (h : HumanEncoder) (got : Pooled) (ent : Entry)
    (fields : List Field)
    (hc : ent.Caller.Defined = true → h.EncoderConfig.EncodeCaller.isSome = true) :
    (∃ r, h.EncodeEntry ext got ent fields = some r ∧ r.err = none
      ∧ r.ret = levelText ext (h.clone got) ent
          ++ ext.formatRFC3339Nano ent.Time ++ str " "
          ++ ent.LoggerName ++ str "\t"
          ++ callerText ext (h.clone got) ent
          ++ ent.Message ++ str "\n"
          ++ h.buf
          ++ fieldsText ext (h.clone got) fields
          ++ stackText (addFields ext (h.clone got) fields) ent
          ++ str "\n")
    ∧ (∀ (c : HumanEncoder) (fs gs : List Field) (f : Field),
        fieldsText ext c (fs ++ f :: gs)
          = fieldsText ext c fs ++ fieldsText ext (addFields ext c fs) [f]
            ++ fieldsText ext (f.AddTo ext (addFields ext c fs)) gs)
    ∧ (∀ (c : HumanEncoder) (key : Bytes) (m : ObjProg) (e : Error), m.result = some e →
        NL ∉ e →
        fieldsText ext c [.objectMarshaler key m]
          = (indent c.openNamespaces ++ key ++ str ": ") ++ str "\x7b"
            ++ (m.run ext c.nested).1.buf ++ str "\x7d\n"
            ++ (indent c.openNamespaces ++ (key ++ str "Error") ++ str ": ") ++ e ++ str "\n")
    ∧ (∀ (c : HumanEncoder) (key : Bytes) (m : ArrProg) (e : Error), m.result = some e →
        NL ∉ e →
        fieldsText ext c [.arrayMarshaler key m]
          = (indent c.openNamespaces ++ key ++ str ": ") ++ str "[ "
            ++ (m.run ext c.fresh).1.buf ++ str " ]\n"
            ++ (indent (m.run ext c.fresh).1.openNamespaces ++ (key ++ str "Error") ++ str ": ")
            ++ e ++ str "\n")
    ∧ (∀ (enc : HumanEncoder) (key : Bytes) (m : ObjProg) (e : Error), m.result = some e →
        Field.AddTo ext (.objectMarshaler key m) enc
          = (enc.AddObject ext key m).1.AddString (key ++ str "Error") e)
    ∧ (∀ (enc : HumanEncoder) (key : Bytes) (m : ArrProg) (e : Error), m.result = some e →
        Field.AddTo ext (.arrayMarshaler key m) enc
          = (enc.AddArray ext key m).1.AddString (key ++ str "Error") e) := by
  have hobj : ∀ (enc : HumanEncoder) (key : Bytes) (m : ObjProg) (e : Error),
      m.result = some e → Field.AddTo ext (.objectMarshaler key m) enc
        = (enc.AddObject ext key m).1.AddString (key ++ str "Error") e := by
    intro enc key m e hm
    have : (enc.AddObject ext key m).2 = some e := by
      simp only [HumanEncoder.AddObject, ObjCall.run]; rw [objProg_run_result]; exact hm
    simp only [Field.AddTo, this, Field.Key]
  have harr : ∀ (enc : HumanEncoder) (key : Bytes) (m : ArrProg) (e : Error),
      m.result = some e → Field.AddTo ext (.arrayMarshaler key m) enc
        = (enc.AddArray ext key m).1.AddString (key ++ str "Error") e := by
    intro enc key m e hm
    have : (enc.AddArray ext key m).2 = some e := by
      simp only [HumanEncoder.AddArray, ObjCall.run]; rw [arrProg_run_result]; exact hm
    simp only [Field.AddTo, this, Field.Key]
  refine ⟨?_, fun c fs gs f => fieldsText_split ext c fs f gs, ?_, ?_, hobj, harr⟩
  · obtain ⟨r, hr, hret⟩ := EncodeEntry_ret ext h got ent fields hc
    exact ⟨r, hr, EncodeEntry_err ext h got ent fields r hr, hret⟩
  · intro c key m e hm he
    have hd : (c.fresh.AddObject ext key m).1.openNamespaces = c.openNamespaces :=
      objCall_run_openNamespaces ext (.addObject key m) c.fresh rfl
    simp only [fieldsText, addFields]
    rw [hobj _ _ _ _ hm, AddString_line _ _ _ he, addObject_buf, hd]
    simp [HumanEncoder.fresh, HumanEncoder.nested]
    rfl
  · intro c key m e hm he
    simp only [fieldsText, addFields]
    rw [harr _ _ _ _ hm, AddString_line _ _ _ he, addArray_buf, addArray_openNamespaces]
    simp [HumanEncoder.fresh]

/-- C12 at a concrete input: the field `o` of the sample fields fails with
`boom`; the entry is rendered and the error returned is nil. -/
theorem C12_marshal_error_rendered_witness :
    (fullEntry.Caller.Defined = true →
      (newHumanEncoder sampleExt fullConfig).EncoderConfig.EncodeCaller.isSome = true)
    ∧ ∃ r, (newHumanEncoder sampleExt fullConfig).EncodeEntry sampleExt newPooled fullEntry
        sampleFields = some r ∧ r.err = none
      ∧ r.ret = levelText sampleExt ((newHumanEncoder sampleExt fullConfig).clone newPooled)
            fullEntry
          ++ sampleExt.formatRFC3339Nano fullEntry.Time ++ str " "
          ++ fullEntry.LoggerName ++ str "\t"
          ++ callerText sampleExt ((newHumanEncoder sampleExt fullConfig).clone newPooled)
            fullEntry
          ++ fullEntry.Message ++ str "\n"
          ++ (newHumanEncoder sampleExt fullConfig).buf
          ++ fieldsText sampleExt ((newHumanEncoder sampleExt fullConfig).clone newPooled)
            sampleFields
          ++ stackText (addFields sampleExt
              ((newHumanEncoder sampleExt fullConfig).clone newPooled) sampleFields) fullEntry
          ++ str "\n" :=
  ⟨fun _ => rfl,
   (C12_marshal_error_rendered sampleExt (newHumanEncoder sampleExt fullConfig) newPooled
      fullEntry sampleFields (fun _ => rfl)).1⟩


/-! ## C13 and C14: reflected values -/

theorem bufTrimNewline_concat (b : Bytes) : HumanEncoder.bufTrimNewline (b ++ [NL]) = b := by
  simp [HumanEncoder.bufTrimNewline]

theorem bufTrimNewline_other (b : Bytes) (hb : b.getLast? ≠ some NL) :
    HumanEncoder.bufTrimNewline b = b := by
  simp [HumanEncoder.bufTrimNewline, hb]

theorem encodeReflected_ok (h : HumanEncoder) (v : Nat) (b : Bytes)
    (henc : h.resetReflectBuf.reflectEnc v = (b, none)) :
    (h.encodeReflected (some v)).2 = (HumanEncoder.bufTrimNewline b, none)
    ∧ (h.encodeReflected (some v)).1.buf = h.buf
    ∧ (h.encodeReflected (some v)).1.openNamespaces = h.openNamespaces := by
  simp only [HumanEncoder.encodeReflected, henc]
  cases hs : h.side <;> simp [HumanEncoder.resetReflectBuf, hs]

theorem encodeReflected_fail (h : HumanEncoder) (v : Nat) (b : Bytes) (e : Error)
    (henc : h.resetReflectBuf.reflectEnc v = (b, some e)) :
    (h.encodeReflected (some v)).2 = ([], some e)
    ∧ (h.encodeReflected (some v)).1.buf = h.buf
    ∧ (h.encodeReflected (some v)).1.openNamespaces = h.openNamespaces := by
  simp only [HumanEncoder.encodeReflected, henc]
  refine ⟨?_, ?_, ?_⟩ <;> trivial

/-- C13: opaque values. `AddReflected` with the nil value appends the label
and `nil` with a newline, returns no error and leaves the side buffer and
encoder untouched. For a value that the side encoder in use (the one the
configured factory gives when there is none yet) encodes as the bytes `b`
without error, `AddReflected` appends the label, `b` with one trailing
newline removed if it has one, and a newline, and `AppendReflected` appends
just that value text; both return no error. -/
theorem C13_reflected_rendering (h : HumanEncoder) (key : Bytes) (v : Nat) (b : Bytes)
    (henc : h.resetReflectBuf.reflectEnc v = (b, none)) :
    ((h.AddReflected key none).2 = none
      ∧ (h.AddReflected key none).1.buf
          = h.buf ++ (indent h.openNamespaces ++ key ++ str ": ") ++ str "nil" ++ str "\n"
      ∧ (h.AddReflected key none).1.side = h.side
      ∧ (h.AppendReflected none).2 = none
      ∧ (h.AppendReflected none).1.buf = h.buf ++ str "nil"
      ∧ (h.AppendReflected none).1.side = h.side)
    ∧ ((h.AddReflected key (some v)).2 = none
      ∧ (h.AddReflected key (some v)).1.buf
          = h.buf ++ (indent h.openNamespaces ++ key ++ str ": ")
            ++ HumanEncoder.bufTrimNewline b ++ str "\n"
      ∧ (h.AppendReflected (some v)).2 = none
      ∧ (h.AppendReflected (some v)).1.buf = h.buf ++ HumanEncoder.bufTrimNewline b)
    ∧ ((∀ b' : Bytes, HumanEncoder.bufTrimNewline (b' ++ str "\n") = b')
      ∧ (b.getLast? ≠ some NL → HumanEncoder.bufTrimNewline b = b))
    ∧ (h.side = none → h.resetReflectBuf.reflectEnc = h.EncoderConfig.NewReflectedEncoder) := by
  obtain ⟨e1, e2, e3⟩ := encodeReflected_ok h v b henc
  refine ⟨⟨rfl, ?_, rfl, rfl, rfl, rfl⟩, ⟨?_, ?_, ?_, ?_⟩,
    ⟨bufTrimNewline_concat, bufTrimNewline_other b⟩, ?_⟩
  · simp [HumanEncoder.AddReflected, HumanEncoder.encodeReflected, HumanEncoder.addKey,
      HumanEncoder.writeString, ident_eq_indent]
    rfl
  · simp only [HumanEncoder.AddReflected]
    generalize h.encodeReflected (some v) = r at e1 e2 e3
    obtain ⟨h1, b1, err⟩ := r
    simp only [Prod.mk.injEq] at e1
    obtain ⟨rfl, rfl⟩ := e1
    rfl
  · simp only [HumanEncoder.AddReflected]
    generalize h.encodeReflected (some v) = r at e1 e2 e3
    obtain ⟨h1, b1, err⟩ := r
    simp only [Prod.mk.injEq] at e1
    obtain ⟨rfl, rfl⟩ := e1
    simp only at e2 e3
    simp [HumanEncoder.addKey, HumanEncoder.writeString, ident_eq_indent, e2, e3]
    rfl
  · simp only [HumanEncoder.AppendReflected]
    generalize h.encodeReflected (some v) = r at e1 e2 e3
    obtain ⟨h1, b1, err⟩ := r
    simp only [Prod.mk.injEq] at e1
    obtain ⟨rfl, rfl⟩ := e1
    rfl
  · simp only [HumanEncoder.AppendReflected]
    generalize h.encodeReflected (some v) = r at e1 e2 e3
    obtain ⟨h1, b1, err⟩ := r
    simp only [Prod.mk.injEq] at e1
    obtain ⟨rfl, rfl⟩ := e1
    simp only at e2
    simp [HumanEncoder.writeString, e2]
  · intro hs
    simp [HumanEncoder.resetReflectBuf, hs]

/-- C13 at a concrete input: the default encoder of the sample environment
writes `5` and a newline for the value 5; the field is the line `r: 5`. -/
theorem C13_reflected_rendering_witness :
    (newHumanEncoder sampleExt plainConfig).resetReflectBuf.reflectEnc 5 = (str "5\n", none)
    ∧ ((newHumanEncoder sampleExt plainConfig).AddReflected (str "r") (some 5)).1.buf
        = str "                                      \tr: 5\n" :=
  ⟨by decide,
   ((C13_reflected_rendering (newHumanEncoder sampleExt plainConfig) (str "r") 5 (str "5\n")
      (by decide)).2.1.2.1).trans (by decide)⟩

/-- C14: a failure of the reflected encoder is atomic for the field. When
the side encoder in use reports an error for a value, `AddReflected` and
`AppendReflected` return that error, and the main buffer and the namespace
depth are what they were before the call: no label and none of the bytes
the encoder wrote reach the main buffer. -/
theorem C14_reflected_failure_atomic (h : HumanEncoder) (key : Bytes) (v : Nat) (b : Bytes)
    (e : Error) (henc : h.resetReflectBuf.reflectEnc v = (b, some e)) :
    ((h.AddReflected key (some v)).2 = some e
      ∧ (h.AddReflected key (some v)).1.buf = h.buf
      ∧ (h.AddReflected key (some v)).1.openNamespaces = h.openNamespaces
      ∧ (h.AddReflected key (some v)).1.EncoderConfig = h.EncoderConfig)
    ∧ ((h.AppendReflected (some v)).2 = some e
      ∧ (h.AppendReflected (some v)).1.buf = h.buf
      ∧ (h.AppendReflected (some v)).1.openNamespaces = h.openNamespaces
      ∧ (h.AppendReflected (some v)).1.EncoderConfig = h.EncoderConfig) := by
  obtain ⟨e1, e2, e3⟩ := encodeReflected_fail h v b e henc
  have e4 := HumanEncoder.encodeReflected_config h (some v)
  simp only [HumanEncoder.AddReflected, HumanEncoder.AppendReflected]
  generalize h.encodeReflected (some v) = r at e1 e2 e3 e4
  obtain ⟨h1, b1, err⟩ := r
  simp only [Prod.mk.injEq] at e1
  obtain ⟨rfl, rfl⟩ := e1
  exact ⟨⟨rfl, e2, e3, e4⟩, ⟨rfl, e2, e3, e4⟩⟩

/-- C14 at a concrete input: an encoder that writes some bytes and fails;
the main buffer keeps the one field it had. -/
theorem C14_reflected_failure_atomic_witness :
    ((newHumanEncoder sampleExt failingReflectConfig).AddInt64 (str "n") 5).resetReflectBuf.reflectEnc 7
      = (str "\x7b\"a\":", some (str "unsupported type"))
    ∧ (((newHumanEncoder sampleExt failingReflectConfig).AddInt64 (str "n") 5).AddReflected
        (str "r") (some 7)).2 = some (str "unsupported type")
    ∧ (((newHumanEncoder sampleExt failingReflectConfig).AddInt64 (str "n") 5).AddReflected
        (str "r") (some 7)).1.buf = str "                                      \tn: 5\n" :=
  ⟨rfl,
   (C14_reflected_failure_atomic ((newHumanEncoder sampleExt failingReflectConfig).AddInt64
      (str "n") 5) (str "r") 7 (str "\x7b\"a\":") (str "unsupported type") rfl).1.1,
   ((C14_reflected_failure_atomic ((newHumanEncoder sampleExt failingReflectConfig).AddInt64
      (str "n") 5) (str "r") 7 (str "\x7b\"a\":") (str "unsupported type") rfl).1.2.1).trans
      (by decide)⟩


/-! ## C15 and C19: the base encoder and the pool -/

theorem EncodeEntry_congr (ext : Ext) (h : HumanEncoder) (got got' : Pooled) (ent : Entry)
    (fields : List Field) (hs : got.side = got'.side) :
    h.EncodeEntry ext got ent fields = h.EncodeEntry ext got' ent fields := by
  have : h.clone got = h.clone got' := by simp [HumanEncoder.clone, hs]
  simp only [HumanEncoder.EncodeEntry, this]

theorem EncodeEntry_put (ext : Ext) (h : HumanEncoder) (got : Pooled) (ent : Entry)
    (fields : List Field) (r : Encoded) (hr : h.EncodeEntry ext got ent fields = some r) :
    r.put = newPooled := by
  simp only [HumanEncoder.EncodeEntry] at hr
  split at hr
  · cases hr
  · injection hr with hr
    rw [← hr]
    rfl

theorem andThen_some {α β : Type} (a : α) (rest : α → Option β) :
    Memory.andThen (some a) rest = rest a := rfl

theorem andThen_none {α β : Type} (rest : α → Option β) :
    Memory.andThen (none : Option α) rest = none := rfl

theorem withLive_load (m : Memory) (a cp : Nat) (e : HumanEncoder)
    (he : e.EncoderConfig = m.config cp) : (m.withLive a cp e).load a = some e := by
  simp [Memory.withLive, Memory.load, Cell.live, ← he]

theorem withLive_load_ne (m : Memory) (a cp h : Nat) (e : HumanEncoder) (hne : a ≠ h) :
    (m.withLive a cp e).load h = m.load h := by
  simp [Memory.withLive, Memory.load, Function.update_noteq (Ne.symm hne)]

theorem withLive_call (m : Memory) (a cp : Nat) (e : HumanEncoder)
    (f : HumanEncoder → HumanEncoder)
    (he : e.EncoderConfig = m.config cp) (hf : (f e).EncoderConfig = m.config cp) :
    (m.withLive a cp e).call a f = some (m.withLive a cp (f e)) := by
  have hl := withLive_load m a cp e he
  simp only [Memory.call, hl]
  simp [Memory.withLive, Cell.live, hf]

theorem withLive_buf (m : Memory) (a cp : Nat) (e : HumanEncoder) :
    ((m.withLive a cp e).cell a).buf = some e.buf := by
  simp [Memory.withLive, Cell.live]

theorem withLive_putEncoder (m : Memory) (a cp : Nat) (e : HumanEncoder) :
    (m.withLive a cp e).putEncoder a
      = { m with cell := Function.update m.cell a Cell.zero, pool := a :: m.pool } := by
  simp [Memory.withLive, Memory.putEncoder, Memory.write, Cell.zero]

theorem writeString_config (h : HumanEncoder) (s : Bytes) :
    (h.writeString s).EncoderConfig = h.EncoderConfig := rfl

theorem AppendString_config (h : HumanEncoder) (s : Bytes) :
    (h.AppendString s).EncoderConfig = h.EncoderConfig := rfl

theorem AppendTime_config (ext : Ext) (h : HumanEncoder) (t : Time) :
    (h.AppendTime ext t).EncoderConfig = h.EncoderConfig := rfl

theorem clone_config (h : HumanEncoder) (got : Pooled) :
    (h.clone got).EncoderConfig = h.EncoderConfig := rfl

theorem ite_some_withLive (m : Memory) (a cp : Nat) (c : Prop) [Decidable c]
    (x y : HumanEncoder) :
    (if c then some (m.withLive a cp x) else some (m.withLive a cp y))
      = some (m.withLive a cp (if c then x else y)) := by
  split_ifs <;> rfl

theorem ite_config (c : Prop) [Decidable c] (x y : HumanEncoder) :
    (if c then x else y).EncoderConfig = if c then x.EncoderConfig else y.EncoderConfig := by
  split_ifs <;> rfl

set_option maxHeartbeats 1000000 in
theorem memory_EncodeEntry_body (ext : Ext) (m0 m1 : Memory) (final h cp : Nat)
    (base : HumanEncoder) (got : Pooled) (ent : Entry) (fields : List Field)
    (hcl : m0.clone h = (final, m1.withLive final cp (base.clone got)))
    (hne : final ≠ h) (hbase : m1.load h = some base)
    (hcfg : m1.config cp = base.EncoderConfig) :
    m0.EncodeEntry ext h ent fields
      = (base.EncodeEntry ext got ent fields).map (fun r =>
          ({ m1 with cell := Function.update m1.cell final Cell.zero, pool := final :: m1.pool },
            r.ret, r.err)) := by
  simp only [Memory.EncodeEntry, hcl, HumanEncoder.EncodeEntry]
  by_cases hfk : base.EncoderConfig.FunctionKey = [] <;>
  rcases hl : base.EncoderConfig.EncodeLevel with _ | encodeLevel <;>
  rcases hd : ent.Caller.Defined with _ | _ <;>
  rcases hcal : base.EncoderConfig.EncodeCaller with _ | encodeCaller <;>
  simp [hl, hd, hcal, hcfg, hfk, hne, hbase, andThen_some, andThen_none,
    withLive_load, withLive_load_ne, withLive_call, withLive_buf, withLive_putEncoder,
    writeString_config, AppendString_config, AppendTime_config, clone_config,
    appendPrims_config, addFields_config, HumanEncoder.AddString_config, ite_some_withLive,
    ite_config]

theorem memory_Get_spec (m : Memory) (h : Nat) (base : HumanEncoder) (hwf : m.WF)
    (hb : m.Base h base) :
    m.Get.1 ≠ h ∧ m.Get.1 < m.Get.2.next ∧ m.Get.2.cell m.Get.1 = Cell.zero
    ∧ m.Get.2.config = m.config ∧ m.Get.2.cell h = m.cell h ∧ h < m.Get.2.next
    ∧ h ∉ m.Get.2.pool ∧ (∀ a ∈ m.Get.2.pool, a < m.Get.2.next ∧ m.Get.2.cell a = Cell.zero) := by
  obtain ⟨hlt, hnp, _⟩ := hb
  unfold Memory.Get
  cases hp : m.pool with
  | nil =>
    have hne : h ≠ m.next := by omega
    refine ⟨by simp only; omega, by simp, by simp, rfl, by simp [Function.update_noteq hne],
      by simp only; omega, by simp, by simp⟩
  | cons a rest =>
    have ha := hwf a (by rw [hp]; exact List.mem_cons_self _ _)
    have hne : a ≠ h := by
      intro e
      apply hnp
      rw [hp, e]
      exact List.mem_cons_self _ _
    refine ⟨hne, ha.1, ha.2, rfl, rfl, hlt, ?_, ?_⟩
    · intro hmem
      apply hnp
      rw [hp]
      exact List.mem_cons_of_mem _ hmem
    · intro b hmem
      exact hwf b (by rw [hp]; exact List.mem_cons_of_mem _ hmem)

theorem memory_load_cell (m : Memory) (h : Nat) (base : HumanEncoder)
    (hl : m.load h = some base) :
    ∃ cp, m.cell h = Cell.live cp base ∧ m.config cp = base.EncoderConfig := by
  unfold Memory.load at hl
  rcases hc : m.cell h with ⟨_ | cp, _ | b, d, sd⟩ <;> rw [hc] at hl <;> simp at hl
  refine ⟨cp, ?_, ?_⟩
  · rw [← hl]; rfl
  · rw [← hl]

theorem memory_clone_spec (m : Memory) (h : Nat) (base : HumanEncoder) (hwf : m.WF)
    (hb : m.Base h base) :
    ∃ cp, m.Get.2.config cp = base.EncoderConfig
      ∧ m.clone h = (m.Get.1, m.Get.2.withLive m.Get.1 cp (base.clone newPooled)) := by
  obtain ⟨hne, _, hz, hcfg, hcell, _, _, _⟩ := memory_Get_spec m h base hwf hb
  obtain ⟨cp, hc, hcp⟩ := memory_load_cell m h base hb.2.2
  refine ⟨cp, by rw [hcfg]; exact hcp, ?_⟩
  have hne2 : h ≠ m.Get.1 := Ne.symm hne
  simp only [Memory.clone, Memory.write, Memory.withLive, Function.update_same,
    Function.update_idem, Function.update_noteq hne2, hz, hcell, hc]
  rfl

theorem memory_EncodeEntry_spec (ext : Ext) (m : Memory) (h : Nat) (base : HumanEncoder)
    (ent : Entry) (fields : List Field) (hwf : m.WF) (hb : m.Base h base) :
    ∃ mF : Memory, mF.WF ∧ mF.Base h base ∧ mF.cell h = m.cell h ∧ mF.config = m.config
      ∧ m.EncodeEntry ext h ent fields
          = (base.EncodeEntry ext newPooled ent fields).map (fun r => (mF, r.ret, r.err)) := by
  obtain ⟨hne, hfl, hz, hcfg, hcell, hlt, hnp, hpool⟩ := memory_Get_spec m h base hwf hb
  obtain ⟨cp, hcp, hcl⟩ := memory_clone_spec m h base hwf hb
  have hload : m.Get.2.load h = some base := by
    have := hb.2.2
    simp only [Memory.load, hcell, hcfg] at this ⊢
    exact this
  have hne2 : h ≠ m.Get.1 := Ne.symm hne
  have hbody := memory_EncodeEntry_body ext m m.Get.2 m.Get.1 h cp base newPooled ent fields hcl
    hne hload hcp
  refine ⟨Memory.mk m.Get.2.config (Function.update m.Get.2.cell m.Get.1 Cell.zero)
    (m.Get.1 :: m.Get.2.pool) m.Get.2.next, ?_, ⟨hlt, ?_, ?_⟩, ?_, ?_, hbody⟩
  · intro a ha
    rcases List.mem_cons.mp ha with rfl | ha
    · exact ⟨hfl, by simp⟩
    · refine ⟨(hpool a ha).1, ?_⟩
      by_cases e : a = m.Get.1
      · rw [e]
        exact Function.update_same _ _ _
      · simp only [Function.update_noteq e]
        exact (hpool a ha).2
  · intro hmem
    rcases List.mem_cons.mp hmem with e | hmem
    · exact hne2 e
    · exact hnp hmem
  · simp only [Memory.load, Function.update_noteq hne2] at hload ⊢
    exact hload
  · simp only [Function.update_noteq hne2]
    exact hcell
  · exact hcfg

theorem memory_newHumanEncoder_spec (ext : Ext) (m : Memory) (cfg : EncoderConfig) (hwf : m.WF) :
    (m.newHumanEncoder ext cfg).2.WF
    ∧ (m.newHumanEncoder ext cfg).2.Base (m.newHumanEncoder ext cfg).1 (newHumanEncoder ext cfg) := by
  refine ⟨?_, ?_, ?_, ?_⟩
  · intro a ha
    have h1 := hwf a ha
    have hne : a ≠ m.next := by omega
    refine ⟨by simp only [Memory.newHumanEncoder]; omega, ?_⟩
    simp only [Memory.newHumanEncoder, Function.update_noteq hne]
    exact h1.2
  · simp only [Memory.newHumanEncoder]
    omega
  · intro hmem
    have h1 := hwf m.next hmem
    omega
  · simp [Memory.newHumanEncoder, Memory.load, newHumanEncoder]

theorem memory_call_spec (ext : Ext) (m : Memory) (h : Nat) (base : HumanEncoder)
    (ctx : List Field) (hwf : m.WF) (hb : m.Base h base) :
    ∃ m', m.call h (fun e => addFields ext e ctx) = some m' ∧ m'.WF
      ∧ m'.Base h (addFields ext base ctx) := by
  obtain ⟨hlt, hnp, hl⟩ := hb
  obtain ⟨cp, hc, hcp⟩ := memory_load_cell m h base hl
  have hm : m = m.withLive h cp base := by
    simp only [Memory.withLive, ← hc, Function.update_eq_self]
  have hcfg : (addFields ext base ctx).EncoderConfig = m.config cp := by
    rw [addFields_config, hcp]
  have hcall := withLive_call m h cp base (fun e => addFields ext e ctx) hcp.symm hcfg
  rw [← hm] at hcall
  refine ⟨_, hcall, ?_, hlt, hnp, withLive_load m h cp _ hcfg⟩
  intro a ha
  have hne : a ≠ h := fun e => hnp (e ▸ ha)
  refine ⟨(hwf a ha).1, ?_⟩
  simp only [Memory.withLive, Function.update_noteq hne]
  exact (hwf a ha).2

/-- C15: `EncodeEntry` does not change the base encoder. The encoders live
in a memory, the receiver of `EncodeEntry` is a pointer into it, and the
pool holds released structs. Whenever the call returns, the struct the
receiver points to and every configuration in the memory are what they were
before, so the pointer still gives the same buffer bytes, depth and
configuration; the memory is again one the next render can start from; a
second render of the same entry and fields through the same pointer, which
draws the struct the first one put back, returns the same bytes and error;
and these are what `EncodeEntry` returns on the base encoder as a value.
The call returns whenever a caller callback is configured or the caller is
not defined. An encoder made by `newHumanEncoder` is such a base encoder,
and so is a base encoder after context fields were added to it. -/
theorem C15_base_encoder_not_mutated (ext : Ext) (m : Memory) (h : Nat) (base : HumanEncoder)
    (ent : Entry) (fields : List Field) (hwf : m.WF) (hbase : m.Base h base) :
    (∀ (m' : Memory) (ret : Bytes) (err : Option Error),
        m.EncodeEntry ext h ent fields = some (m', ret, err) →
          (m'.load h = some base ∧ m'.cell h = m.cell h ∧ m'.config = m.config)
          ∧ (m'.WF ∧ m'.Base h base)
          ∧ (∃ m'', m'.EncodeEntry ext h ent fields = some (m'', ret, err)
              ∧ m''.load h = some base)
          ∧ (base.EncodeEntry ext newPooled ent fields).map (fun r => (r.ret, r.err))
              = some (ret, err))
    ∧ ((ent.Caller.Defined = true → base.EncoderConfig.EncodeCaller.isSome = true) →
        ∃ m' ret, m.EncodeEntry ext h ent fields = some (m', ret, none))
    ∧ (∀ cfg : EncoderConfig, (m.newHumanEncoder ext cfg).2.WF
        ∧ (m.newHumanEncoder ext cfg).2.Base (m.newHumanEncoder ext cfg).1
            (newHumanEncoder ext cfg))
    ∧ (∀ ctx : List Field, ∃ m', m.call h (fun e => addFields ext e ctx) = some m' ∧ m'.WF
        ∧ m'.Base h (addFields ext base ctx)) := by
  obtain ⟨mF, hwfF, hbF, hcellF, hcfgF, hrun⟩ :=
    memory_EncodeEntry_spec ext m h base ent fields hwf hbase
  obtain ⟨mG, _, hbG, _, _, hrun2⟩ := memory_EncodeEntry_spec ext mF h base ent fields hwfF hbF
  refine ⟨?_, ?_, fun cfg => memory_newHumanEncoder_spec ext m cfg hwf,
    fun ctx => memory_call_spec ext m h base ctx hwf hbase⟩
  · intro m' ret err hr
    rw [hrun] at hr
    cases hv : base.EncodeEntry ext newPooled ent fields with
    | none => rw [hv] at hr; simp at hr
    | some r =>
      rw [hv] at hr hrun2
      simp only [Option.map_some', Option.some.injEq, Prod.mk.injEq] at hr
      obtain ⟨rfl, rfl, rfl⟩ := hr
      exact ⟨⟨hbF.2.2, hcellF, hcfgF⟩, ⟨hwfF, hbF⟩, ⟨mG, hrun2, hbG.2.2⟩, rfl⟩
  · intro hc
    obtain ⟨r, hr, _⟩ := EncodeEntry_ret ext base newPooled ent fields hc
    have herr := EncodeEntry_err ext base newPooled ent fields r hr
    rw [hrun, hr]
    exact ⟨mF, r.ret, by simp [herr]⟩

/-- C15 at a concrete memory: an encoder made by `newHumanEncoder` in a
memory with nothing allocated, rendering the entry with a caller and the
sample fields. -/
theorem C15_base_encoder_not_mutated_witness :
    (startMemory.newHumanEncoder sampleExt fullConfig).2.WF
    ∧ (startMemory.newHumanEncoder sampleExt fullConfig).2.Base 0
        (newHumanEncoder sampleExt fullConfig)
    ∧ ∃ m' ret, (startMemory.newHumanEncoder sampleExt fullConfig).2.EncodeEntry sampleExt 0
        fullEntry sampleFields = some (m', ret, none) := by
  have hwf : (startMemory.newHumanEncoder sampleExt fullConfig).2.WF :=
    fun a ha => absurd ha (List.not_mem_nil a)
  have hbase : (startMemory.newHumanEncoder sampleExt fullConfig).2.Base 0
      (newHumanEncoder sampleExt fullConfig) :=
    ⟨Nat.zero_lt_one, List.not_mem_nil 0, rfl⟩
  exact ⟨hwf, hbase,
    (C15_base_encoder_not_mutated sampleExt _ 0 _ fullEntry sampleFields hwf hbase).2.1
      (fun _ => rfl)⟩

/-- C19: pool reuse leaks no state. After `putEncoder` the instance has
depth 0 and no configuration, buffer, side buffer or side encoder, whatever
it held. An encoder that `clone` builds on a released instance has an empty
buffer, no side encoder, and the configuration and depth of the base
encoder; so `EncodeEntry` on a released instance returns what it returns
on a new one, whatever the instance was used for before. -/
theorem C19_pool_reuse (ext : Ext) (prior : HumanEncoder) (h : HumanEncoder) (ent : Entry)
    (fields : List Field) :
    ((putEncoder prior).openNamespaces = 0
      ∧ (putEncoder prior).buf = none
      ∧ (putEncoder prior).side = none
      ∧ (putEncoder prior).EncoderConfig = none)
    ∧ ((h.clone (putEncoder prior)).buf = []
      ∧ (h.clone (putEncoder prior)).side = none
      ∧ (h.clone (putEncoder prior)).EncoderConfig = h.EncoderConfig
      ∧ (h.clone (putEncoder prior)).openNamespaces = h.openNamespaces)
    ∧ (h.EncodeEntry ext (putEncoder prior) ent fields = h.EncodeEntry ext newPooled ent fields)
    ∧ (∀ other : HumanEncoder, h.EncodeEntry ext (putEncoder prior) ent fields
        = h.EncodeEntry ext (putEncoder other) ent fields)
    ∧ (∀ (got : Pooled) (r : Encoded), h.EncodeEntry ext got ent fields = some r →
        r.put = putEncoder prior) :=
  ⟨⟨rfl, rfl, rfl, rfl⟩, ⟨rfl, rfl, rfl, rfl⟩, rfl, fun _ => rfl,
    fun got r hr => EncodeEntry_put ext h got ent fields r hr⟩


/-! ## C16, C18 and C20: namespaces, booleans and arrays -/

theorem stringsRepeat_two_spaces (n : Nat) :
    stringsRepeat (str "  ") n = List.replicate (2 * n) 32 := by
  induction n with
  | zero => rfl
  | succ k ih =>
    have : 2 * (k + 1) = (2 * k) + 1 + 1 := by ring
    rw [stringsRepeat, ih, this, List.replicate_succ, List.replicate_succ]
    rfl

theorem indent_replicate (n : Nat) :
    indent n = str "                                      \t" ++ List.replicate (2 * n) 32 := by
  rw [indent, stringsRepeat_two_spaces]

theorem indent_succ (n : Nat) : indent (n + 1) = indent n ++ str "  " := by
  rw [indent_replicate, indent_replicate, List.append_assoc]
  congr 1
  have : 2 * (n + 1) = 2 * n + 2 := by ring
  rw [this, List.replicate_add]
  rfl

theorem addPrim_label (ext : Ext) (h : HumanEncoder) (key : Bytes) (v : PrimVal) :
    ∃ rest, (h.addPrim ext key v).buf = h.buf ++ (indent h.openNamespaces ++ key ++ str ": ") ++ rest := by
  cases v <;>
    simp only [HumanEncoder.addPrim, HumanEncoder.AddBool, HumanEncoder.AppendBool,
      HumanEncoder.AddByteString, HumanEncoder.AddBinary, HumanEncoder.AddComplex128,
      HumanEncoder.AddComplex64, HumanEncoder.appendComplex, HumanEncoder.AddFloat64,
      HumanEncoder.AddFloat32, HumanEncoder.appendFloat, HumanEncoder.AddInt,
      HumanEncoder.AddInt64, HumanEncoder.AddInt32, HumanEncoder.AddInt16, HumanEncoder.AddInt8,
      HumanEncoder.AddString, HumanEncoder.AddUint, HumanEncoder.AddUint64, HumanEncoder.AddUint32,
      HumanEncoder.AddUint16, HumanEncoder.AddUint8, HumanEncoder.AddUintptr, HumanEncoder.addKey,
      HumanEncoder.writeString, HumanEncoder.writeStringf, HumanEncoder.appendByte,
      HumanEncoder.bufAppendFloat, ident_eq_indent] <;>
    (try split_ifs) <;>
    simp only [List.append_assoc] <;>
    exact ⟨_, rfl⟩

theorem objCall_label (ext : Ext) (c : ObjCall) (h : HumanEncoder) (hc : c.isAdd = true) :
    (c.run ext h).1.buf = h.buf
    ∨ ∃ rest, (c.run ext h).1.buf
        = h.buf ++ (indent h.openNamespaces ++ c.key ++ str ": ") ++ rest := by
  cases c with
  | openNamespace key => simp [ObjCall.isAdd] at hc
  | addArray key m =>
    right
    exact ⟨str "[ " ++ (m.run ext h.fresh).1.buf ++ str " ]\n",
      (addArray_buf ext h key m).trans (by simp only [List.append_assoc, ObjCall.key])⟩
  | addObject key m =>
    right
    exact ⟨[123] ++ (m.run ext h.nested).1.buf ++ str "\x7d\n",
      (addObject_buf ext h key m).trans (by simp only [List.append_assoc, ObjCall.key])⟩
  | addBinary key value =>
    right
    simp only [ObjCall.run, HumanEncoder.AddBinary, HumanEncoder.addKey, HumanEncoder.writeString,
      HumanEncoder.appendByte, ident_eq_indent, ObjCall.key, List.append_assoc]
    exact ⟨_, rfl⟩
  | addPrim key value => right; exact addPrim_label ext h key value
  | addDuration key value =>
    right
    simp only [ObjCall.run, HumanEncoder.AddDuration, HumanEncoder.addKey,
      HumanEncoder.writeString, HumanEncoder.appendByte, ident_eq_indent, ObjCall.key,
      List.append_assoc]
    exact ⟨_, rfl⟩
  | addTime key value =>
    right
    simp only [ObjCall.run, HumanEncoder.AddTime, HumanEncoder.addKey, HumanEncoder.writeString,
      HumanEncoder.writeStringf, ident_eq_indent, ObjCall.key, List.append_assoc]
    exact ⟨_, rfl⟩
  | addReflected key value =>
    simp only [ObjCall.run, HumanEncoder.AddReflected, ObjCall.key]
    have hb := HumanEncoder.encodeReflected_buf h value
    have hd := HumanEncoder.encodeReflected_openNamespaces h value
    generalize h.encodeReflected value = r at hb hd
    obtain ⟨h1, b1, _ | e⟩ := r
    · right
      simp only at hb hd
      simp only [HumanEncoder.addKey, HumanEncoder.writeString, ident_eq_indent, hb, hd,
        List.append_assoc]
      exact ⟨_, rfl⟩
    · left; exact hb

/-- C16: `OpenNamespace` leaves the depth one higher and appends exactly
the label line at the new depth: the indent of depth `d + 1`, the key, a
colon, a space and a newline. The indent of depth `n` is the leader of 38
spaces and a tab followed by `2 n` spaces, so it grows by two spaces per
level: whatever an `Add` call appends starts with the indent of the depth
it is made at, and after `OpenNamespace` that is the indent from before
the call and two spaces. -/
theorem C16_open_namespace (ext : Ext) (h : HumanEncoder) (key : Bytes) :
    (h.OpenNamespace key).openNamespaces = h.openNamespaces + 1
    ∧ (h.OpenNamespace key).buf
        = h.buf ++ (indent (h.openNamespaces + 1) ++ key ++ str ": " ++ str "\n")
    ∧ (∀ n, indent n = str "                                      \t" ++ List.replicate (2 * n) 32)
    ∧ (∀ n, indent (n + 1) = indent n ++ str "  ")
    ∧ (∀ c : ObjCall, c.isAdd = true →
        ((c.run ext h).1.buf = h.buf
          ∨ ∃ rest, (c.run ext h).1.buf
              = h.buf ++ (indent h.openNamespaces ++ c.key ++ str ": ") ++ rest)
        ∧ ((c.run ext (h.OpenNamespace key)).1.buf = (h.OpenNamespace key).buf
          ∨ ∃ rest, (c.run ext (h.OpenNamespace key)).1.buf
              = (h.OpenNamespace key).buf
                ++ (indent h.openNamespaces ++ str "  " ++ c.key ++ str ": ") ++ rest)) := by
  refine ⟨rfl, ?_, indent_replicate, indent_succ, ?_⟩
  · simp only [HumanEncoder.OpenNamespace, HumanEncoder.addKey, HumanEncoder.writeString,
      HumanEncoder.appendByte, ident_eq_indent, List.append_assoc]
    rfl
  · intro c hc
    refine ⟨objCall_label ext c h hc, ?_⟩
    have := objCall_label ext c (h.OpenNamespace key) hc
    have hd : (h.OpenNamespace key).openNamespaces = h.openNamespaces + 1 := rfl
    rw [hd, indent_succ] at this
    exact this

/-- C18: booleans are rendered with the verb `%T`. `AppendBool` appends the
text `bool` for either value, and `AddBool` appends the label, `bool` and
a newline, so `true` and `false` give the same output. -/
theorem C18_bool_type_name (h : HumanEncoder) (key : Bytes) (b : Bool) :
    (h.AppendBool b).buf = h.buf ++ str "bool"
    ∧ (h.AddBool key b).buf = h.buf ++ (indent h.openNamespaces ++ key ++ str ": ") ++ str "bool"
        ++ str "\n"
    ∧ h.AppendBool true = h.AppendBool false
    ∧ h.AddBool key true = h.AddBool key false := by
  refine ⟨?_, ?_, rfl, rfl⟩
  · cases b <;> rfl
  · cases b <;>
      simp only [HumanEncoder.AddBool, HumanEncoder.AppendBool, HumanEncoder.addKey,
        HumanEncoder.writeString, HumanEncoder.writeStringf, HumanEncoder.appendByte,
        ident_eq_indent, Sprintf, fmtVerb, FmtArg.typeName, List.append_nil] <;> rfl

theorem int64Array_run (ext : Ext) (values : List Int) :
    ∀ h : HumanEncoder, (int64Array values).run ext h
      = ({ h with buf := h.buf ++ concatDecimal values }, none) := by
  induction values with
  | nil => intro h; simp [int64Array, ArrProg.run, concatDecimal]
  | cons a rest ih =>
    intro h
    simp only [int64Array, ArrProg.run, ArrCall.run, HumanEncoder.appendPrim,
      HumanEncoder.AppendInt64, HumanEncoder.writeStringf, HumanEncoder.writeString, Sprintf,
      fmtVerb, concatDecimal, ih, List.append_nil, List.append_assoc]

/-- C20: array elements are written back to back. `AddArray` with a
marshaler that appends the `int64` values of a list in order writes the
label, `[ `, the decimal texts of the values with nothing between them,
and ` ]` with a newline, and returns no error. So different arrays can
render to the same text: `[1, 23]` and `[12, 3]` both give `[ 123 ]`. -/
theorem C20_array_no_separator (ext : Ext) (h : HumanEncoder) (key : Bytes) (values : List Int) :
    (h.AddArray ext key (int64Array values)).1.buf
      = h.buf ++ (indent h.openNamespaces ++ key ++ str ": ") ++ str "[ "
        ++ concatDecimal values ++ str " ]\n"
    ∧ (h.AddArray ext key (int64Array values)).2 = none
    ∧ h.AddArray ext key (int64Array [1, 23]) = h.AddArray ext key (int64Array [12, 3])
    ∧ (h.AddArray ext key (int64Array [1, 23])).1.buf
        = h.buf ++ (indent h.openNamespaces ++ key ++ str ": ") ++ str "[ 123 ]\n"
    ∧ ([1, 23] : List Int) ≠ [12, 3] := by
  have hb : ∀ vs : List Int, (h.AddArray ext key (int64Array vs)).1.buf
      = h.buf ++ (indent h.openNamespaces ++ key ++ str ": ") ++ str "[ "
        ++ concatDecimal vs ++ str " ]\n" := by
    intro vs
    rw [addArray_buf, int64Array_run]
    rfl
  have hr : ∀ vs : List Int, h.AddArray ext key (int64Array vs)
      = ({ h with buf := h.buf ++ (indent h.openNamespaces ++ key ++ str ": ") ++ str "[ "
        ++ concatDecimal vs ++ str " ]\n" }, none) := by
    intro vs
    simp only [HumanEncoder.AddArray, ObjCall.run, int64Array_run, HumanEncoder.writeString,
      HumanEncoder.addKey, ident_eq_indent, List.append_assoc]
  refine ⟨hb values, by rw [hr], ?_, ?_, by decide⟩
  · rw [hr, hr]
    have : concatDecimal [1, 23] = concatDecimal [12, 3] := by decide
    rw [this]
  · rw [hb]
    have : concatDecimal [1, 23] = str "123" := by decide
    rw [this]
    simp only [List.append_assoc]
    rfl

/-! ## C17: `trimRightSpace` against `strings.TrimRightFunc` -/

theorem utf8First_ascii (a : Nat) (h : a < 0x80) : utf8First a = 0xF0 := by
  simp [utf8First, h]

theorem utf8First_continuation (a : Nat) (h1 : 0x80 ≤ a) (h2 : a ≤ 0xBF) : utf8First a = 0xF1 := by
  unfold utf8First
  rw [if_neg (by omega), if_pos (by omega)]

theorem utf8First_cases (a : Nat) :
    utf8First a = 0xF0 ∨ utf8First a = 0xF1 ∨ utf8First a = 0x02 ∨ utf8First a = 0x13
    ∨ utf8First a = 0x03 ∨ utf8First a = 0x23 ∨ utf8First a = 0x34 ∨ utf8First a = 0x04
    ∨ utf8First a = 0x44 := by
  unfold utf8First
  split_ifs <;> simp

theorem utf8AcceptRange_bounds (a : Nat) (h : utf8First a < 0xF0) :
    0x80 ≤ (utf8AcceptRange (utf8First a / 16)).1
    ∧ (utf8AcceptRange (utf8First a / 16)).2 ≤ 0xBF := by
  rcases utf8First_cases a with e | e | e | e | e | e | e | e | e <;> rw [e] at h ⊢ <;>
    first
    | (exfalso; omega)
    | decide

theorem utf8First_lead (a : Nat) (h : utf8First a < 0xF0) : 0xC2 ≤ a := by
  by_contra hlt
  have hlt : a < 0xC2 := by omega
  by_cases ha : a < 0x80
  · rw [utf8First_ascii a ha] at h; omega
  · unfold utf8First at h
    rw [if_neg ha, if_pos hlt] at h
    omega

theorem decodeRune_width_one (a : Nat) (xs : Bytes)
    (hxs : ∀ b, xs.head? = some b → ¬ (0x80 ≤ b ∧ b ≤ 0xBF)) :
    (DecodeRuneInString (a :: xs)).2 = 1 := by
  by_cases h1 : utf8First a ≥ 0xF0
  · unfold DecodeRuneInString
    simp only [h1, if_true]
  · have hb := utf8AcceptRange_bounds a (by omega)
    cases xs with
    | nil =>
      unfold DecodeRuneInString
      simp only [h1, if_false]
      split_ifs <;> rfl
    | cons b ys =>
      have hnb := hxs b rfl
      have : b < (utf8AcceptRange (utf8First a / 16)).1 ∨ (utf8AcceptRange (utf8First a / 16)).2 < b := by
        omega
      unfold DecodeRuneInString
      simp only [h1, if_false, this, if_true]
      split_ifs <;> rfl

theorem decodeRune_sz (a : Nat) (h : utf8First a < 0xF0) :
    utf8First a % 8 = 2 ∨ utf8First a % 8 = 3 ∨ utf8First a % 8 = 4 := by
  rcases utf8First_cases a with e | e | e | e | e | e | e | e | e <;> rw [e] at h ⊢ <;>
    first
    | (exfalso; omega)
    | decide

theorem decodeRune_pos (a : Nat) (xs : Bytes) : 1 ≤ (DecodeRuneInString (a :: xs)).2 := by
  by_cases h1 : utf8First a ≥ 0xF0
  · unfold DecodeRuneInString
    simp only [h1, if_true]
    exact le_refl 1
  · rcases xs with _ | ⟨b, _ | ⟨c, _ | ⟨d, zs⟩⟩⟩ <;>
      simp only [DecodeRuneInString, h1, if_false] <;> split_ifs <;> simp

theorem decodeRune_append (a : Nat) (xs y : Bytes) (h : 2 ≤ (DecodeRuneInString (a :: xs)).2) :
    DecodeRuneInString (a :: xs ++ y) = DecodeRuneInString (a :: xs) ∧ 0x80 ≤ a := by
  by_cases h1 : utf8First a ≥ 0xF0
  · exfalso
    unfold DecodeRuneInString at h
    simp only [h1, if_true] at h
    omega
  · have hlead := utf8First_lead a (by omega)
    refine ⟨?_, by omega⟩
    have hsz := decodeRune_sz a (by omega)
    rcases xs with _ | ⟨b, _ | ⟨c, _ | ⟨d, zs⟩⟩⟩
    · exfalso
      simp only [DecodeRuneInString, h1, if_false] at h
      split_ifs at h <;> simp at h
    · simp only [DecodeRuneInString, h1, if_false, List.cons_append, List.nil_append,
        List.length_cons, List.length_nil] at h ⊢
      rcases y with _ | ⟨c, _ | ⟨d, zs⟩⟩ <;> simp only [List.length_cons, List.length_nil] <;>
        split_ifs at h ⊢ <;> first | rfl | (exfalso; simp at h; done) | (exfalso; omega)
    · simp only [DecodeRuneInString, h1, if_false, List.cons_append, List.nil_append,
        List.length_cons, List.length_nil] at h ⊢
      rcases y with _ | ⟨d, zs⟩ <;> simp only [List.length_cons, List.length_nil] <;>
        split_ifs at h ⊢ <;> first | rfl | (exfalso; simp at h; done) | (exfalso; omega)
    · simp only [DecodeRuneInString, h1, if_false, List.cons_append, List.nil_append,
        List.length_cons, List.length_nil] at h ⊢
      split_ifs at h ⊢ <;> first | rfl | (exfalso; simp at h; done) | (exfalso; omega)

theorem decodeRune_space_head (a : Nat) (xs : Bytes)
    (hs : unicodeIsSpace (DecodeRuneInString (a :: xs)).1 = true) : ¬ (0x80 ≤ a ∧ a ≤ 0xBF) := by
  rintro ⟨h1, h2⟩
  have e := utf8First_continuation a h1 h2
  have : DecodeRuneInString (a :: xs) = (RuneError, 1) := by
    unfold DecodeRuneInString
    simp [e]
  rw [this] at hs
  exact absurd hs (by decide)

theorem scanRuneStart_le (s : Bytes) (lim fuel : Nat) (st : Option Nat) (i : Nat)
    (h : scanRuneStart s lim fuel st = some i) : ∃ j, st = some j ∧ i ≤ j := by
  induction fuel generalizing st with
  | zero =>
    simp only [scanRuneStart] at h
    exact ⟨i, h, le_refl i⟩
  | succ fuel ih =>
    cases st with
    | none => simp [scanRuneStart] at h
    | some j =>
      simp only [scanRuneStart] at h
      split_ifs at h with h1 h2 h3
      · exact ⟨j, rfl, by simp at h; omega⟩
      · exact ⟨j, rfl, by simp at h; omega⟩
      · rcases ih _ h with ⟨k, hk, _⟩
        simp at hk
      · rcases ih _ h with ⟨k, hk, hik⟩
        simp at hk
        exact ⟨j, rfl, by omega⟩

theorem decodeLast_cases (s : Bytes) (hs : s ≠ []) :
    (s.getD (s.length - 1) 0 < 0x80 ∧ DecodeLastRuneInString s = (s.getD (s.length - 1) 0, 1))
    ∨ (0x80 ≤ s.getD (s.length - 1) 0 ∧ DecodeLastRuneInString s = (RuneError, 1))
    ∨ (0x80 ≤ s.getD (s.length - 1) 0 ∧ ∃ start, start < s.length
        ∧ DecodeLastRuneInString s = DecodeRuneInString (s.drop start)
        ∧ start + (DecodeRuneInString (s.drop start)).2 = s.length) := by
  have hlen : s.length ≠ 0 := by
    intro h
    exact hs (List.length_eq_zero.mp h)
  by_cases hc : s.getD (s.length - 1) 0 < 0x80
  · left
    refine ⟨hc, ?_⟩
    unfold DecodeLastRuneInString
    simp only [hlen, if_false, hc, if_true]
  · right
    have hc2 : 0x80 ≤ s.getD (s.length - 1) 0 := by omega
    unfold DecodeLastRuneInString
    simp only [hlen, if_false, hc, List.take_length]
    generalize hst : (match scanRuneStart s (s.length - 4) 5
        (if s.length - 1 = 0 then none else some (s.length - 1 - 1)) with
        | none => 0
        | some i => i) = start
    have hstart : start < s.length := by
      rw [← hst]
      split
      · omega
      · rename_i i hi
        rcases scanRuneStart_le _ _ _ _ _ hi with ⟨j, hj, hij⟩
        split_ifs at hj with h0
        simp at hj
        omega
    by_cases hw : start + (DecodeRuneInString (s.drop start)).2 = s.length
    · right
      refine ⟨hc2, start, hstart, ?_, hw⟩
      simp [hw]
    · left
      refine ⟨hc2, ?_⟩
      simp [hw]

theorem getD_eq_head_drop (t : Bytes) (j : Nat) (a : Nat) (ys : Bytes)
    (h : t.drop j = a :: ys) : t.getD j 0 = a := by
  have hj : j < t.length := by
    by_contra hn
    rw [List.drop_eq_nil_of_le (by omega)] at h
    simp at h
  rw [List.drop_eq_getElem_cons hj] at h
  simp only [List.cons.injEq] at h
  rw [List.getD_eq_getElem _ _ hj]
  exact h.1

theorem decodeLast_split (s : Bytes) (hs : s ≠ []) :
    ∃ a xs, s.drop (s.length - (DecodeLastRuneInString s).2) = a :: xs
      ∧ (DecodeLastRuneInString s).2 = xs.length + 1
      ∧ ((a < 0x80 ∧ xs = [] ∧ DecodeLastRuneInString s = (a, 1))
        ∨ (0x80 ≤ a ∧ xs = [] ∧ DecodeLastRuneInString s = (RuneError, 1))
        ∨ (0x80 ≤ a ∧ DecodeLastRuneInString s = DecodeRuneInString (a :: xs))) := by
  have hlen : 0 < s.length := List.length_pos.mpr hs
  have hlast : s.drop (s.length - 1) = [s.getD (s.length - 1) 0] := by
    have hj : s.length - 1 < s.length := by omega
    rw [List.drop_eq_getElem_cons hj, List.getD_eq_getElem _ _ hj]
    simp only [List.cons.injEq, true_and]
    apply List.drop_eq_nil_of_le
    omega
  rcases decodeLast_cases s hs with ⟨hc, e⟩ | ⟨hc, e⟩ | ⟨hc, start, hst, e, hw⟩
  · refine ⟨s.getD (s.length - 1) 0, [], ?_, ?_, Or.inl ⟨hc, rfl, e⟩⟩
    · rw [e]; exact hlast
    · rw [e]; rfl
  · refine ⟨s.getD (s.length - 1) 0, [], ?_, ?_, Or.inr (Or.inl ⟨hc, rfl, e⟩)⟩
    · rw [e]; exact hlast
    · rw [e]; rfl
  · have hd : s.drop start = s.getD start 0 :: s.drop (start + 1) := by
      rw [List.drop_eq_getElem_cons hst, List.getD_eq_getElem _ _ hst]
    have hj : s.length - (DecodeLastRuneInString s).2 = start := by
      rw [e]; omega
    have hlen2 : (s.drop start).length = s.length - start := List.length_drop _ _
    refine ⟨s.getD start 0, s.drop (start + 1), ?_, ?_, Or.inr (Or.inr ⟨?_, ?_⟩)⟩
    · rw [hj]; exact hd
    · rw [e, List.length_drop]; omega
    · by_cases h2 : 2 ≤ (DecodeRuneInString (s.drop start)).2
      · rw [hd] at h2
        have := (decodeRune_append _ _ [] h2).2
        exact this
      · have h1 : (DecodeRuneInString (s.drop start)).2 = 1 := by
          have := decodeRune_pos (s.getD start 0) (s.drop (start + 1))
          rw [← hd] at this
          omega
        have : start = s.length - 1 := by omega
        rw [this]
        exact hc
    · rw [e, hd]

theorem decodeLast_size (s : Bytes) (hs : s ≠ []) :
    1 ≤ (DecodeLastRuneInString s).2 ∧ (DecodeLastRuneInString s).2 ≤ s.length := by
  rcases decodeLast_split s hs with ⟨a, xs, hd, hsz, _⟩
  refine ⟨by omega, ?_⟩
  have := congrArg List.length hd
  simp only [List.length_drop, List.length_cons] at this
  omega

theorem decodeLast_ascii (u : Bytes) (c : Nat) (hc : c < 0x80) :
    DecodeLastRuneInString (u ++ [c]) = (c, 1) := by
  have e : (u ++ [c]).getD ((u ++ [c]).length - 1) 0 = c := by
    simp [List.getD_eq_getElem?_getD]
  rcases decodeLast_cases (u ++ [c]) (by simp) with ⟨_, h⟩ | ⟨h, _⟩ | ⟨h, _⟩
  · rw [h, e]
  · rw [e] at h; omega
  · rw [e] at h; omega

theorem drop_take_split (t : Bytes) (i j : Nat) (hj : j ≤ i) (hi : i ≤ t.length) :
    t.drop j = (t.take i).drop j ++ t.drop i := by
  have e : t = t.take i ++ t.drop i := (List.take_append_drop i t).symm
  conv_lhs => rw [e]
  rw [List.drop_append_of_le_length]
  rw [List.length_take]
  omega

theorem trimResult_found (t : Bytes) (i : Nat) (hi0 : 0 < i) (hi : i ≤ t.length)
    (H : ∀ b, (t.drop i).head? = some b → ¬ (0x80 ≤ b ∧ b ≤ 0xBF)) :
    trimResult t (some (i - (DecodeLastRuneInString (t.take i)).2)) = t.take i := by
  have hlen : (t.take i).length = i := by rw [List.length_take]; omega
  have hs : t.take i ≠ [] := by
    intro h
    rw [h] at hlen
    simp at hlen
    omega
  rcases decodeLast_split (t.take i) hs with ⟨a, xs, hd, hsz, hcase⟩
  rw [hlen] at hd
  have hsize := decodeLast_size (t.take i) hs
  rw [hlen] at hsize
  have hdrop : t.drop (i - (DecodeLastRuneInString (t.take i)).2) = a :: (xs ++ t.drop i) := by
    rw [drop_take_split t i _ (by omega) hi, hd]
    rfl
  have ha := getD_eq_head_drop _ _ _ _ hdrop
  simp only [trimResult, ha, hdrop]
  rcases hcase with ⟨hlt, _, e⟩ | ⟨hge, hx, e⟩ | ⟨hge, e⟩
  · rw [if_neg (by show ¬ a ≥ 0x80; omega), e]
    congr 1
    rw [e] at hsize
    simp only at hsize ⊢
    omega
  · rw [if_pos (by show a ≥ 0x80; omega), hx, List.nil_append,
      decodeRune_width_one a (t.drop i) H, e]
    congr 1
    rw [e] at hsize
    simp only at hsize ⊢
    omega
  · rw [if_pos (by show a ≥ 0x80; omega)]
    congr 1
    by_cases h2 : 2 ≤ (DecodeRuneInString (a :: xs)).2
    · have := (decodeRune_append a xs (t.drop i) h2).1
      rw [List.cons_append] at this
      rw [this, ← e]
      omega
    · have h1 : (DecodeLastRuneInString (t.take i)).2 = 1 := by
        have := decodeRune_pos a xs
        rw [e]
        omega
      have hx : xs = [] := by
        apply List.length_eq_zero.mp
        omega
      rw [hx, List.nil_append, decodeRune_width_one a (t.drop i) H, h1]
      omega

theorem decodeLast_space_head (t : Bytes) (i : Nat) (hi0 : 0 < i) (hi : i ≤ t.length)
    (hsp : unicodeIsSpace (DecodeLastRuneInString (t.take i)).1 = true) :
    ∀ b, (t.drop (i - (DecodeLastRuneInString (t.take i)).2)).head? = some b
      → ¬ (0x80 ≤ b ∧ b ≤ 0xBF) := by
  have hlen : (t.take i).length = i := by rw [List.length_take]; omega
  have hs : t.take i ≠ [] := by
    intro h
    rw [h] at hlen
    simp at hlen
    omega
  rcases decodeLast_split (t.take i) hs with ⟨a, xs, hd, hsz, hcase⟩
  rw [hlen] at hd
  have hsize := decodeLast_size (t.take i) hs
  rw [hlen] at hsize
  have hdrop : t.drop (i - (DecodeLastRuneInString (t.take i)).2) = a :: (xs ++ t.drop i) := by
    rw [drop_take_split t i _ (by omega) hi, hd]
    rfl
  rw [hdrop]
  intro b hb
  simp only [List.head?_cons, Option.some.injEq] at hb
  subst hb
  rcases hcase with ⟨hlt, _, _⟩ | ⟨_, _, e⟩ | ⟨_, e⟩
  · omega
  · rw [e] at hsp
    exact absurd hsp (by decide)
  · rw [e] at hsp
    exact decodeRune_space_head _ xs hsp

theorem dropTrailingSpace_nil (n : Nat) : dropTrailingSpace n [] = [] := by
  cases n <;> simp [dropTrailingSpace]

theorem dropTrailingSpace_fuel (n m : Nat) (s : Bytes) (hn : s.length ≤ n) (hm : s.length ≤ m) :
    dropTrailingSpace n s = dropTrailingSpace m s := by
  induction n generalizing m s with
  | zero =>
    have : s = [] := List.length_eq_zero.mp (by omega)
    rw [this, dropTrailingSpace_nil, dropTrailingSpace_nil]
  | succ n ih =>
    cases m with
    | zero =>
      have : s = [] := List.length_eq_zero.mp (by omega)
      rw [this, dropTrailingSpace_nil, dropTrailingSpace_nil]
    | succ m =>
      simp only [dropTrailingSpace]
      by_cases hs : s = []
      · simp [hs]
      · rw [if_neg hs, if_neg hs]
        have hsize := decodeLast_size s hs
        split_ifs
        · apply ih
          · rw [List.length_take]; omega
          · rw [List.length_take]; omega
        · rfl

theorem dropTrailingSpace_prefix (n : Nat) (s : Bytes) : dropTrailingSpace n s <+: s := by
  induction n generalizing s with
  | zero => exact List.prefix_refl s
  | succ n ih =>
    simp only [dropTrailingSpace]
    split_ifs
    · exact List.prefix_refl s
    · exact (ih _).trans (List.take_prefix _ _)
    · exact List.prefix_refl s

theorem dropTrailingSpace_end (n : Nat) (s : Bytes) (hn : s.length ≤ n) :
    dropTrailingSpace n s = []
    ∨ unicodeIsSpace (DecodeLastRuneInString (dropTrailingSpace n s)).1 = false := by
  induction n generalizing s with
  | zero =>
    left
    have : s = [] := List.length_eq_zero.mp (by omega)
    rw [this, dropTrailingSpace_nil]
  | succ n ih =>
    simp only [dropTrailingSpace]
    by_cases hs : s = []
    · left; simp [hs]
    · rw [if_neg hs]
      have hsize := decodeLast_size s hs
      split_ifs with h
      · apply ih
        rw [List.length_take]; omega
      · right
        simpa using h

theorem dropTrailingSpace_fixed (n : Nat) (s : Bytes)
    (h : s = [] ∨ unicodeIsSpace (DecodeLastRuneInString s).1 = false) :
    dropTrailingSpace n s = s := by
  cases n with
  | zero => rfl
  | succ n =>
    simp only [dropTrailingSpace]
    rcases h with h | h
    · simp [h]
    · simp [h]

theorem trimRightReference_idempotent (s : Bytes) :
    trimRightReference (trimRightReference s) = trimRightReference s := by
  unfold trimRightReference
  exact dropTrailingSpace_fixed _ _ (dropTrailingSpace_end _ s (le_refl _))

theorem trimRightReference_strip (u : Bytes) (c : Nat) (hc : asciiSpace c ≠ 0) :
    trimRightReference (u ++ [c]) = trimRightReference u := by
  have hsp : c = 9 ∨ c = 10 ∨ c = 11 ∨ c = 12 ∨ c = 13 ∨ c = 32 := by
    by_contra hn
    exact hc (by simp [asciiSpace, hn])
  have hlt : c < 0x80 := by omega
  have hu : unicodeIsSpace c = true := by
    rcases hsp with h | h | h | h | h | h <;> rw [h] <;> decide
  unfold trimRightReference
  rw [List.length_append, List.length_singleton]
  simp only [dropTrailingSpace, decodeLast_ascii u c hlt, hu]
  simp

theorem trimRightReference_keep (u : Bytes) (c : Nat) (hlt : c < 0x80) (hc : asciiSpace c = 0) :
    trimRightReference (u ++ [c]) = u ++ [c] := by
  unfold trimRightReference
  apply dropTrailingSpace_fixed
  right
  rw [decodeLast_ascii u c hlt]
  have hsp : ¬ (c = 9 ∨ c = 10 ∨ c = 11 ∨ c = 12 ∨ c = 13 ∨ c = 32) := by
    intro hn
    simp [asciiSpace, hn] at hc
  have : c ≤ 0xFF := by omega
  simp only [unicodeIsSpace, this, if_true]
  simp only [decide_eq_false_iff_not]
  omega

theorem trimResult_lastIndexFunc (t : Bytes) (fuel i : Nat) (hf : i < fuel) (hi : i ≤ t.length)
    (H : ∀ b, (t.drop i).head? = some b → ¬ (0x80 ≤ b ∧ b ≤ 0xBF)) :
    trimResult t (lastIndexFunc t unicodeIsSpace false fuel i) = dropTrailingSpace i (t.take i) := by
  induction fuel generalizing i with
  | zero => omega
  | succ fuel ih =>
    by_cases h0 : i = 0
    · subst h0
      simp [lastIndexFunc, trimResult, dropTrailingSpace]
    · have hi0 : 0 < i := by omega
      have hlen : (t.take i).length = i := by rw [List.length_take]; omega
      have hs : t.take i ≠ [] := by
        intro h
        rw [h] at hlen
        simp at hlen
        omega
      have hsize := decodeLast_size (t.take i) hs
      rw [hlen] at hsize
      obtain ⟨k, rfl⟩ : ∃ k, i = k + 1 := ⟨i - 1, by omega⟩
      simp only [lastIndexFunc, h0, if_false, dropTrailingSpace, hs]
      by_cases hsp : unicodeIsSpace (DecodeLastRuneInString (t.take (k + 1))).1 = true
      · rw [if_neg (by rw [hsp]; decide), if_pos hsp, hlen]
        rw [ih _ (by omega) (by omega) (decodeLast_space_head t (k + 1) hi0 hi hsp)]
        rw [List.take_take, min_eq_left (by omega)]
        apply dropTrailingSpace_fuel
        · rw [List.length_take]; omega
        · rw [List.length_take]; omega
      · have hsp2 : unicodeIsSpace (DecodeLastRuneInString (t.take (k + 1))).1 = false := by
          simpa using hsp
        rw [if_pos hsp2, if_neg hsp]
        exact trimResult_found t (k + 1) hi0 hi H

theorem stringsTrimRightFunc_reference (s : Bytes) :
    stringsTrimRightFunc s unicodeIsSpace = trimRightReference s := by
  have e : stringsTrimRightFunc s unicodeIsSpace
      = trimResult s (lastIndexFunc s unicodeIsSpace false (s.length + 1) s.length) := by
    unfold stringsTrimRightFunc trimResult
    rfl
  rw [e, trimResult_lastIndexFunc s _ _ (by omega) (le_refl _) (by simp), List.take_length]
  rfl

theorem trimRightSpaceLoop_reference (s : Bytes) (stop : Nat) (h : stop ≤ s.length) :
    trimRightSpaceLoop s stop = trimRightReference (s.take stop) := by
  induction stop with
  | zero =>
    simp [trimRightSpaceLoop, trimRightReference, dropTrailingSpace]
  | succ stop ih =>
    have hlt : stop < s.length := by omega
    have et : s.take (stop + 1) = s.take stop ++ [s.getD stop 0] := by
      rw [List.getD_eq_getElem _ _ hlt, List.take_succ, List.getElem?_eq_getElem hlt]
      rfl
    simp only [trimRightSpaceLoop]
    split_ifs with h1 h2
    · exact stringsTrimRightFunc_reference _
    · rw [et]
      exact (trimRightReference_keep _ _ (by simpa using h1) h2).symm
    · rw [ih (by omega), et]
      exact (trimRightReference_strip _ _ h2).symm

theorem trimRightSpace_reference (s : Bytes) : trimRightSpace s = trimRightReference s := by
  unfold trimRightSpace
  rw [trimRightSpaceLoop_reference s _ (le_refl _), List.take_length]

/-- C17: `trimRightSpace` is Unicode-aware right trimming. For every byte string, valid UTF-8 or
not, it returns what `strings.TrimRightFunc(s, unicode.IsSpace)` returns, which is the string
with every trailing white-space rune removed; the result is a prefix of the string, a second
application changes nothing, and the result is empty or its last rune is not white space. -/
theorem C17_trimRightSpace_is_TrimRightFunc (s : Bytes) :
    trimRightSpace s = stringsTrimRightFunc s unicodeIsSpace
    ∧ trimRightSpace s = trimRightReference s
    ∧ trimRightSpace s <+: s
    ∧ trimRightSpace (trimRightSpace s) = trimRightSpace s
    ∧ (trimRightSpace s = []
      ∨ unicodeIsSpace (DecodeLastRuneInString (trimRightSpace s)).1 = false) := by
  have e := trimRightSpace_reference s
  refine ⟨?_, e, ?_, ?_, ?_⟩
  · rw [e, stringsTrimRightFunc_reference]
  · rw [e]
    exact dropTrailingSpace_prefix _ s
  · rw [trimRightSpace_reference (trimRightSpace s), e]
    exact trimRightReference_idempotent s
  · rw [e]
    exact dropTrailingSpace_end _ s (le_refl _)

end ZapHuman
